import Mathlib

/-!
# Fast Graphlet Transform (`src/lib/fglt.cpp`): embedding and verification

The C++ routines of `fglt.cpp` are embedded as pure Lean functions.

Modelling conventions.
* A C array (`double *`, `int *`, `mwIndex *`) is a total map from index to
  value; a write is a pointwise update. A `double **` matrix is a map
  `row → column → value`.
* `double` cells are rationals. The sums, differences, increments and the
  halving of the source (`+=`, `-=`, `++`, `/= 2`, the combinations of
  `raw2net`) and the conversion of a degree to `double` are taken as the
  exact operations, which is the behaviour of IEEE doubles as long as the
  operands and results are integers or half-integers below `2^53`. The
  product `f1 * (f1 - 1) * 0.5` of `compute_all_available` is rounded after
  each operation to the nearest double, ties to even (`roundDouble`); the
  exponent range of a double is not modelled.
* `mwIndex` and `mwSize` values are natural numbers (`mwIndex` is taken as
  an unsigned 64-bit type); `jStart[i+1] - jStart[i]` is truncated
  subtraction, which is the unsigned difference whenever the row offsets are
  non-decreasing.
* The cells of the `int` arrays `pos` and `isNgbh` are integers. Storing an
  index into such a cell keeps its 32-bit two's-complement value
  (`toInt32`); reading a cell of `pos` back into an `mwIndex` converts
  modulo `2^64` (`toIndex`). The buffer `c3` is indexed by the `int`
  expression `isNgbh[j] - 1`, so it is a map on the integers; the
  subtraction is taken without wrap-around (it overflows an `int` only at
  the value `-2^31`).
* `FOR` is the plain `for` of the build without Cilk, so in `compute` the
  worker number `ip` is `0` and every scratch partition `&x[ip*n]` is the
  array itself. `workerStep` is the loop body for an arbitrary worker
  number `ip`, on the partitions `&x[ip*n]`; the offset `ip*n` is taken
  without wrap-around.
* `calloc` returns a zero-filled array, or fails; the outcome of the five
  calls is an input of `compute`.
-/

namespace FGLT

/-! ## Memory model -/

/-- A `double **` matrix: row index, then column index. -/
abbrev Mat := Nat → Nat → ℚ

/-- The assignment `f[r][i] = v`. -/
def setCell (f : Mat) (r i : Nat) (v : ℚ) : Mat :=
  fun r' i' => if r' = r ∧ i' = i then v else f r' i'

/-- The assignment `a[k] = v` on a one-dimensional array. -/
def setAt {ι α : Type} [DecidableEq ι] (a : ι → α) (k : ι) (v : α) : ι → α :=
  fun k' => if k' = k then v else a k'

/-- The loop `for (x = lo; x < hi; x++) body`, threading the state. -/
def forRange {σ : Type} (lo hi : Nat) (body : Nat → σ → σ) (s : σ) : σ :=
  (List.range' lo (hi - lo)).foldl (fun s x => body x s) s

/-- The conversion `(int) v` of an index `v`: its 32-bit two's-complement
value, as in `isNgbh[k] = id_i+1` and `pos[cnt++] = j`. -/
def toInt32 (v : Nat) : Int := Int.bmod (v : Int) (2 ^ 32)

/-- The conversion of an `int` to `mwIndex`, as in `mwIndex j = pos[l]`:
the value modulo `2^64`. -/
def toIndex (x : Int) : Nat := (x % 2 ^ 64).toNat

/-! ## Rounding to `double` -/

/-- Bit length of `n` (the least `k` with `n < 2^k`), by repeated halving;
the first argument bounds the number of halvings. -/
def bitLenAux : Nat → Nat → Nat
  | 0, _ => 0
  | fuel + 1, n => if n = 0 then 0 else bitLenAux fuel (n / 2) + 1

/-- Bit length of `n`: the least `k` with `n < 2^k`. -/
def bitLen (n : Nat) : Nat := bitLenAux n n

/-- The nearest double to the positive rational `a / b`, ties to even: with
`2^e ≤ a / b < 2^(e+1)` the result is the nearest multiple of `2^(e-52)`. -/
def roundMag (a b : Nat) : ℚ :=
  let e0 : Int := (bitLen a : Int) - (bitLen b : Int)
  let e : Int := if b * 2 ^ e0.toNat ≤ a * 2 ^ (-e0).toNat then e0 else e0 - 1
  let t : Int := e - 52
  let N := a * 2 ^ (-t).toNat
  let D := b * 2 ^ t.toNat
  let q := N / D
  let r := N % D
  let q := if 2 * r < D then q else if D < 2 * r then q + 1
    else if q % 2 = 0 then q else q + 1
  ((q * 2 ^ t.toNat : Nat) : ℚ) / ((2 ^ (-t).toNat : Nat) : ℚ)

/-- Rounding of the exact result of a floating-point operation to a
`double`: round to nearest, ties to even, with a 53-bit significand. -/
def roundDouble (x : ℚ) : ℚ :=
  if x = 0 then 0
  else if x < 0 then -roundMag x.num.natAbs x.den
  else roundMag x.num.natAbs x.den

/-! ## The routines of `fglt.cpp` -/

/-- Source `remove_neighbors`: clears the neighbour marks of vertex `i`. -/
def remove_neighbors (isNgbh : Nat → Int) (i : Nat) (ii jStart : Nat → Nat) : Nat → Int :=
  forRange (jStart i) (jStart (i + 1)) (fun id_i isNgbh =>
    let k := ii id_i
    setAt isNgbh k 0) isNgbh

/-- Source `raw2net`: writes the sixteen net values of column `i` of `f`
from the raw values of column `i` of `d`. -/
def raw2net (f : Mat) (d : Mat) (i : Nat) : Mat :=
  let f := setCell f 0 i (d 0 i)
  let f := setCell f 1 i (d 1 i)
  let f := setCell f 2 i (d 2 i - 2 * d 4 i)
  let f := setCell f 3 i (d 3 i - d 4 i)
  let f := setCell f 4 i (d 4 i)
  let f := setCell f 5 i
    (d 5 i - 2 * d 9 i - d 10 i - 2 * d 12 i + 4 * d 13 i + 2 * d 14 i - 6 * d 15 i)
  let f := setCell f 6 i
    (d 6 i - d 10 i - 2 * d 11 i - 2 * d 12 i + 2 * d 13 i + 4 * d 14 i - 6 * d 15 i)
  let f := setCell f 7 i (d 7 i - d 9 i - d 10 i + 2 * d 13 i + d 14 i - 3 * d 15 i)
  let f := setCell f 8 i (d 8 i - d 11 i + d 14 i - d 15 i)
  let f := setCell f 9 i (d 9 i - 2 * d 13 i + 3 * d 15 i)
  let f := setCell f 10 i (d 10 i - 2 * d 13 i - 2 * d 14 i + 6 * d 15 i)
  let f := setCell f 11 i (d 11 i - 2 * d 14 i + 3 * d 15 i)
  let f := setCell f 12 i (d 12 i - d 13 i - d 14 i + 3 * d 15 i)
  let f := setCell f 13 i (d 13 i - 3 * d 15 i)
  let f := setCell f 14 i (d 14 i - 3 * d 15 i)
  setCell f 15 i (d 15 i)

/-- The double product `f1 * (f1 - 1) * 0.5` of `compute_all_available`,
rounded after the subtraction and after each multiplication. -/
def starProduct (f1 : ℚ) : ℚ :=
  roundDouble (roundDouble (f1 * roundDouble (f1 - 1)) * (1 / 2))

/-- Source `compute_all_available`: the trivial orbit and the star count. -/
def compute_all_available (f : Mat) (i : Nat) : Mat :=
  let f := setCell f 0 i 1
  setCell f 3 i (starProduct (f 1 i))

/-- Source `spmv_first_pass`: `f2_i` is the cell `f[2][i]`, `f1` the row
`f[1]`; the result is the new value of the cell. -/
def spmv_first_pass (f2_i : ℚ) (f1 : Nat → ℚ) (i : Nat) (jStart ii : Nat → Nat) : ℚ :=
  let f2_i := forRange (jStart i) (jStart (i + 1)) (fun id_i f2_i =>
    let k := ii id_i
    f2_i + f1 k) f2_i
  f2_i - f1 i

/-- The variables `p2` reads and writes: the cell `*f4_i`, the per-edge
buffer `c3`, the scratch arrays (`pos` and `isNgbh` with `int` cells) and
the local counter `cnt`. -/
structure P2State where
  f4 : ℚ
  c3 : Int → ℚ
  fl : Nat → ℚ
  pos : Nat → Int
  isNgbh : Nat → Int
  isUsed : Nat → Nat
  cnt : Nat

/-- First loop nest of `p2` (source lines 149-176): marks the neighbours
of `i` and counts, per column `j`, the walks `i - k - j`. The stores
`isNgbh[k] = id_i+1` and `pos[cnt++] = j` convert to `int`. -/
def p2_scan (i : Nat) (jStart ii : Nat → Nat) (s : P2State) : P2State :=
  forRange (jStart i) (jStart (i + 1)) (fun id_i s =>
    let k := ii id_i
    let s := { s with isNgbh := setAt s.isNgbh k (toInt32 (id_i + 1)) }
    forRange (jStart k) (jStart (k + 1)) (fun id_k s =>
      let j := ii id_k
      if i = j then s else
      let s := if s.isUsed j = 0 then
          { s with fl := setAt s.fl j 0, isUsed := setAt s.isUsed j 1,
                   pos := setAt s.pos s.cnt (toInt32 j), cnt := s.cnt + 1 }
        else s
      { s with fl := setAt s.fl j (s.fl j + 1) }) s) s

/-- Second loop of `p2` (source lines 179-193): the reduction over the
`cnt` visited columns. The column `mwIndex j = pos[l]` is converted back
from `int`; `c3` is indexed by the `int` value `isNgbh[j]-1`. -/
def p2_reduce (s : P2State) : P2State :=
  forRange 0 s.cnt (fun l s =>
    let j := toIndex (s.pos l)
    let s := if s.isNgbh j ≠ 0 then
        { s with c3 := setAt s.c3 (s.isNgbh j - 1) (s.fl j), f4 := s.f4 + s.fl j }
      else s
    { s with isUsed := setAt s.isUsed j 0 }) s

/-- Source `p2`, with `cnt = 0` on entry and `*f4_i /= 2` on exit. -/
def p2 (f4_i : ℚ) (c3 : Int → ℚ) (i : Nat) (jStart ii : Nat → Nat) (fl : Nat → ℚ)
    (pos isNgbh : Nat → Int) (isUsed : Nat → Nat) : P2State :=
  let s : P2State := ⟨f4_i, c3, fl, pos, isNgbh, isUsed, 0⟩
  let s := p2_scan i jStart ii s
  let s := p2_reduce s
  { s with f4 := s.f4 / 2 }

/-- Outcome of the five `calloc` calls of `compute`: `true` is success. -/
structure Alloc where
  fl : Bool
  pos : Bool
  isUsed : Bool
  c3 : Bool
  isNgbh : Bool

/-- All five scratch allocations succeed. -/
def Alloc.ok (a : Alloc) : Bool := a.fl && a.pos && a.isUsed && a.c3 && a.isNgbh

/-- State of the raw-count pass of `compute`: the raw matrix, the per-edge
buffer and the scratch arrays. -/
structure PassState where
  f : Mat
  c3 : Int → ℚ
  fl : Nat → ℚ
  pos : Nat → Int
  isNgbh : Nat → Int
  isUsed : Nat → Nat

/-- Body of the raw-count loop of `compute` (source lines 240-262) for
vertex `i`, with worker number `ip = 0`. -/
def firstPassStep (ii jStart : Nat → Nat) (i : Nat) (s : PassState) : PassState :=
  let r := p2 (s.f 4 i) s.c3 i jStart ii s.fl s.pos s.isNgbh s.isUsed
  let f := setCell s.f 4 i r.f4
  let f := setCell f 2 i (spmv_first_pass (f 2 i) (f 1) i jStart ii)
  let f := compute_all_available f i
  let isNgbh := remove_neighbors r.isNgbh i ii jStart
  ⟨f, r.c3, r.fl, r.pos, isNgbh, r.isUsed⟩

/-- Degree loop of `compute` (source lines 220-223). -/
def degreePass (f : Mat) (jStart : Nat → Nat) (n : Nat) : Mat :=
  forRange 0 n (fun i f => setCell f 1 i ((jStart (i + 1) - jStart i : Nat) : ℚ)) f

/-- Raw-count loop of `compute` (source lines 240-262), started on the
zero-filled arrays `calloc` returned. -/
def rawPass (f : Mat) (ii jStart : Nat → Nat) (n : Nat) : PassState :=
  forRange 0 n (firstPassStep ii jStart)
    ⟨f, fun _ => 0, fun _ => 0, fun _ => 0, fun _ => 0, fun _ => 0⟩

/-- Net loop of `compute` (source lines 268-274). -/
def netPass (fn f : Mat) (n : Nat) : Mat :=
  forRange 0 n (fun i fn => raw2net fn f i) fn

/-- What `compute` returns and leaves in the caller's matrices. -/
structure Outcome where
  status : Nat
  f : Mat
  fn : Mat

/-- Source `compute`. The sizes `m` and `np` only enter the `calloc` calls. -/
def compute (a : Alloc) (f fn : Mat) (ii jStart : Nat → Nat) (n _m _np : Nat) : Outcome :=
  let f := degreePass f jStart n
  if !a.ok then ⟨1, f, fn⟩ else
  let s := rawPass f ii jStart n
  let fn := netPass fn s.f n
  ⟨0, s.f, fn⟩

/-! ## The loop body on the scratch partition of a worker -/

/-- The partition `&a[off]` of a scratch array, as an array of its own. -/
def view {α : Type} (a : Nat → α) (off : Nat) : Nat → α := fun j => a (off + j)

/-- The scratch array `a` once the callee has left `v` in the partition
`&a[off]`. -/
def store {α : Type} (a : Nat → α) (off : Nat) (v : Nat → α) : Nat → α :=
  fun x => if off ≤ x then v (x - off) else a x

/-- Body of the raw-count loop of `compute` (source lines 240-262) for
vertex `i`, run by the worker with number `ip`: the callees receive the
partitions `&fl[ip*n]`, `&pos[ip*n]`, `&isNgbh[ip*n]`, `&isUsed[ip*n]`. -/
def workerStep (ii jStart : Nat → Nat) (n ip i : Nat) (s : PassState) : PassState :=
  let r := p2 (s.f 4 i) s.c3 i jStart ii (view s.fl (ip * n)) (view s.pos (ip * n))
    (view s.isNgbh (ip * n)) (view s.isUsed (ip * n))
  let f := setCell s.f 4 i r.f4
  let f := setCell f 2 i (spmv_first_pass (f 2 i) (f 1) i jStart ii)
  let f := compute_all_available f i
  let isNgbh := remove_neighbors r.isNgbh i ii jStart
  ⟨f, r.c3, store s.fl (ip * n) r.fl, store s.pos (ip * n) r.pos,
    store s.isNgbh (ip * n) isNgbh, store s.isUsed (ip * n) r.isUsed⟩

/-! ## Graph notions used by the statements -/

/-- Positions of the adjacency range of vertex `i` in `colIndex`. -/
def nbrPos (jStart : Nat → Nat) (i : Nat) : List Nat :=
  List.range' (jStart i) (jStart (i + 1) - jStart i)

/-- Neighbour count of vertex `i`: `rowOffset[i+1] - rowOffset[i]`. -/
def degree (jStart : Nat → Nat) (i : Nat) : Nat := jStart (i + 1) - jStart i

/-- Vertex `j` occurs in the adjacency range of vertex `i`. -/
def adjacent (ii jStart : Nat → Nat) (i j : Nat) : Prop :=
  ∃ p, p < jStart (i + 1) ∧ (jStart i ≤ p ∧ ii p = j)

instance (ii jStart : Nat → Nat) (i j : Nat) : Decidable (adjacent ii jStart i j) := by
  unfold adjacent; infer_instance

/-- Row offsets are non-decreasing over the `n` vertices. -/
def MonoOffsets (jStart : Nat → Nat) (n : Nat) : Prop :=
  ∀ i, i < n → jStart i ≤ jStart (i + 1)

instance (jStart : Nat → Nat) (n : Nat) : Decidable (MonoOffsets jStart n) := by
  unfold MonoOffsets; infer_instance

/-- Every column index stored in the range of a vertex is a vertex. -/
def ColsInRange (ii jStart : Nat → Nat) (n : Nat) : Prop :=
  ∀ p, p < jStart n → ii p < n

instance (ii jStart : Nat → Nat) (n : Nat) : Decidable (ColsInRange ii jStart n) := by
  unfold ColsInRange; infer_instance

/-- A well-formed simple graph in compressed form: offsets non-decreasing
from `0` to `m`, column indices below `n`, adjacency symmetric, no
self-loop, no neighbour listed twice. -/
structure SimpleCSR (ii jStart : Nat → Nat) (n m : Nat) : Prop where
  start : jStart 0 = 0
  stop : jStart n = m
  mono : MonoOffsets jStart n
  cols : ColsInRange ii jStart n
  symm : ∀ i, i < n → ∀ j, j < n → adjacent ii jStart i j → adjacent ii jStart j i
  noLoop : ∀ i, i < n → ¬ adjacent ii jStart i i
  noDup : ∀ i, i < n → ∀ p, p < jStart (i + 1) → ∀ q, q < jStart (i + 1) →
    (jStart i ≤ p ∧ jStart i ≤ q ∧ ii p = ii q) → p = q

/-- Number of common neighbours of `i` and `j`: vertices adjacent to both. -/
def commonNeighbours (ii jStart : Nat → Nat) (n i j : Nat) : Nat :=
  ((Finset.range n).filter
    (fun v => adjacent ii jStart i v ∧ adjacent ii jStart j v)).card

/-- Number of triangles incident to `i`: unordered pairs `{j, k}` of
neighbours of `i` that are adjacent to each other. -/
def trianglesAt (ii jStart : Nat → Nat) (n i : Nat) : Nat :=
  ((Finset.range n ×ˢ Finset.range n).filter
    (fun e => e.1 < e.2 ∧ adjacent ii jStart i e.1 ∧ adjacent ii jStart i e.2 ∧
      adjacent ii jStart e.1 e.2)).card

/-- Total triangle count: unordered triples of pairwise adjacent vertices. -/
def totalTriangles (ii jStart : Nat → Nat) (n : Nat) : Nat :=
  ((Finset.range n ×ˢ Finset.range n ×ˢ Finset.range n).filter
    (fun t => t.1 < t.2.1 ∧ t.2.1 < t.2.2 ∧ adjacent ii jStart t.1 t.2.1 ∧
      adjacent ii jStart t.2.1 t.2.2 ∧ adjacent ii jStart t.1 t.2.2)).card

/-- The net value of orbit `r` for column `i` of the raw matrix `d`, as
tabulated in the specification (rows past `15` do not exist). -/
def netCombination (d : Mat) (i : Nat) : Nat → ℚ
  | 0 => d 0 i
  | 1 => d 1 i
  | 2 => d 2 i - 2 * d 4 i
  | 3 => d 3 i - d 4 i
  | 4 => d 4 i
  | 5 => d 5 i - 2 * d 9 i - d 10 i - 2 * d 12 i + 4 * d 13 i + 2 * d 14 i - 6 * d 15 i
  | 6 => d 6 i - d 10 i - 2 * d 11 i - 2 * d 12 i + 2 * d 13 i + 4 * d 14 i - 6 * d 15 i
  | 7 => d 7 i - d 9 i - d 10 i + 2 * d 13 i + d 14 i - 3 * d 15 i
  | 8 => d 8 i - d 11 i + d 14 i - d 15 i
  | 9 => d 9 i - 2 * d 13 i + 3 * d 15 i
  | 10 => d 10 i - 2 * d 13 i - 2 * d 14 i + 6 * d 15 i
  | 11 => d 11 i - 2 * d 14 i + 3 * d 15 i
  | 12 => d 12 i - d 13 i - d 14 i + 3 * d 15 i
  | 13 => d 13 i - 3 * d 15 i
  | 14 => d 14 i - 3 * d 15 i
  | 15 => d 15 i
  | _ => 0

/-- The raw-count loop of `compute` run over the vertices of `vs` in turn. -/
def passFold (ii jStart : Nat → Nat) (vs : List Nat) (s : PassState) : PassState :=
  vs.foldl (fun s i => firstPassStep ii jStart i s) s

/-- Some allocation fails: here the first one. -/
def allocFail : Alloc := ⟨false, true, true, true, true⟩

/-- Coefficient table of the net-to-raw map, the inverse of the table of
`raw2net`: row `r` lists the coefficients of the raw value `d[r]`. -/
def net2rawTable : List (List ℤ) :=
  [[1, 0, 0, 0, 0, 0, 0, 0, 0, 0, 0, 0, 0, 0, 0, 0],
    [0, 1, 0, 0, 0, 0, 0, 0, 0, 0, 0, 0, 0, 0, 0, 0],
    [0, 0, 1, 0, 2, 0, 0, 0, 0, 0, 0, 0, 0, 0, 0, 0],
    [0, 0, 0, 1, 1, 0, 0, 0, 0, 0, 0, 0, 0, 0, 0, 0],
    [0, 0, 0, 0, 1, 0, 0, 0, 0, 0, 0, 0, 0, 0, 0, 0],
    [0, 0, 0, 0, 0, 1, 0, 0, 0, 2, 1, 0, 2, 4, 2, 6],
    [0, 0, 0, 0, 0, 0, 1, 0, 0, 0, 1, 2, 2, 2, 4, 6],
    [0, 0, 0, 0, 0, 0, 0, 1, 0, 1, 1, 0, 0, 2, 1, 3],
    [0, 0, 0, 0, 0, 0, 0, 0, 1, 0, 0, 1, 0, 0, 1, 1],
    [0, 0, 0, 0, 0, 0, 0, 0, 0, 1, 0, 0, 0, 2, 0, 3],
    [0, 0, 0, 0, 0, 0, 0, 0, 0, 0, 1, 0, 0, 2, 2, 6],
    [0, 0, 0, 0, 0, 0, 0, 0, 0, 0, 0, 1, 0, 0, 2, 3],
    [0, 0, 0, 0, 0, 0, 0, 0, 0, 0, 0, 0, 1, 1, 1, 3],
    [0, 0, 0, 0, 0, 0, 0, 0, 0, 0, 0, 0, 0, 1, 0, 3],
    [0, 0, 0, 0, 0, 0, 0, 0, 0, 0, 0, 0, 0, 0, 1, 3],
    [0, 0, 0, 0, 0, 0, 0, 0, 0, 0, 0, 0, 0, 0, 0, 1]]

/-- Entry of `net2rawTable` in row `r`, column `c`. -/
def net2rawCoeff : Fin 16 → Fin 16 → ℤ :=
  fun r c => (net2rawTable.getD r.val []).getD c.val 0

/-- The action of `raw2net` on one sixteen-component vector: column `0`
of the result on the matrix whose column `0` is `d`. -/
def raw2netVec (d : Fin 16 → ℚ) : Fin 16 → ℚ :=
  fun r => raw2net (fun _ _ => 0) (fun c _ => if h : c < 16 then d ⟨c, h⟩ else 0) 0 r 0

/-- The linear map on sixteen-component vectors with integer table `M`. -/
def linMap (M : Fin 16 → Fin 16 → ℤ) (x : Fin 16 → ℚ) : Fin 16 → ℚ :=
  fun r => ∑ c : Fin 16, (M r c : ℚ) * x c

/-! ## Auxiliary notions for the analysis of `p2` -/

/-- Body of the inner loop of `p2_scan` at a column `j = ii[id_k]`. -/
def touch (i j : Nat) (s : P2State) : P2State :=
  if i = j then s else
  let s := if s.isUsed j = 0 then
      { s with fl := setAt s.fl j 0, isUsed := setAt s.isUsed j 1,
               pos := setAt s.pos s.cnt (toInt32 j), cnt := s.cnt + 1 }
    else s
  { s with fl := setAt s.fl j (s.fl j + 1) }

/-- Body of the outer loop of `p2_scan` at the adjacency position `p`. -/
def scanStep (i : Nat) (jStart ii : Nat → Nat) (s : P2State) (p : Nat) : P2State :=
  ((nbrPos jStart (ii p)).map ii).foldl (fun s j => touch i j s)
    { s with isNgbh := setAt s.isNgbh (ii p) (toInt32 (p + 1)) }

/-- Body of the loop of `p2_reduce` at a column `j` read back from `pos`. -/
def reduceStep (j : Nat) (s : P2State) : P2State :=
  let s := if s.isNgbh j ≠ 0 then
      { s with c3 := setAt s.c3 (s.isNgbh j - 1) (s.fl j), f4 := s.f4 + s.fl j }
    else s
  { s with isUsed := setAt s.isUsed j 0 }

/-- The columns the inner loop of `p2_scan` counts while the outer loop runs
over the positions `P`: the end points `j ≠ i` of the walks `i - k - j`. -/
def walkEnds (i : Nat) (jStart ii : Nat → Nat) (P : List Nat) : List Nat :=
  P.flatMap (fun p => ((nbrPos jStart (ii p)).map ii).filter (fun j => j ≠ i))

/-- The columns the reduction loop reads back from `pos[0..cnt)`. -/
def visited (s : P2State) : List Nat := (List.range s.cnt).map (fun l => toIndex (s.pos l))

/-- The marks `isNgbh` after the outer loop of `p2_scan` ran over `P`. -/
def markAll (ii : Nat → Nat) (P : List Nat) (a : Nat → Int) : Nat → Int :=
  P.foldl (fun a p => setAt a (ii p) (toInt32 (p + 1))) a

/-- Invariant of the scratch arrays of `p2`, of length `n`, after the
columns of `seen` were counted: `isUsed` flags them, `fl` holds their
multiplicities and the columns read back from `pos` enumerate them once
each. -/
structure Touched (n : Nat) (seen : List Nat) (s : P2State) : Prop where
  used : ∀ j, j < n → s.isUsed j = if j ∈ seen then 1 else 0
  count : ∀ j, j ∈ seen → s.fl j = (seen.count j : ℚ)
  nodup : (visited s).Nodup
  mem : ∀ j, j ∈ visited s ↔ j ∈ seen
  small : ∀ j, j ∈ seen → j < n

/-- Number of walks `i - k - j` along adjacency entries, for `j ≠ i`: the
multiplicity of `j` among the columns counted by `p2_scan` for vertex `i`. -/
def walkCount (ii jStart : Nat → Nat) (i j : Nat) : Nat :=
  (walkEnds i jStart ii (nbrPos jStart i)).count j

/-- The scratch flags of a partition of length `n` are clear: `isUsed` and
`isNgbh` are zero in each of its `n` cells. -/
def Clean (n : Nat) (s : PassState) : Prop :=
  (∀ j, j < n → s.isUsed j = 0) ∧ (∀ j, j < n → s.isNgbh j = 0)

/-- Every cell of `isNgbh` is zero, whatever its index. -/
def NoMarks (s : PassState) : Prop := ∀ j, s.isNgbh j = 0

/-- The column indices of the adjacency range of `i` are pairwise distinct. -/
def DistinctNbrs (ii jStart : Nat → Nat) (i : Nat) : Prop :=
  ∀ p, p ∈ nbrPos jStart i → ∀ q, q ∈ nbrPos jStart i → ii p = ii q → p = q

/-- The columns `p2` meets for vertex `i`, its neighbours and the
neighbours of its neighbours, are below `n`. -/
def ColsBelow (ii jStart : Nat → Nat) (n i : Nat) : Prop :=
  ∀ p, p ∈ nbrPos jStart i → ii p < n ∧ ∀ q, q ∈ nbrPos jStart (ii p) → ii q < n

/-- Vertex `i` fits scratch arrays of length `n` with `int` cells: the
columns met are below `n` and the marks `id_i + 1` of its adjacency range
are below `2^31`. -/
structure Fits (ii jStart : Nat → Nat) (n i : Nat) : Prop where
  cols : ColsBelow ii jStart n i
  marks : jStart (i + 1) < 2 ^ 31

/-- The scratch cells at the indices `≥ n` are the same in `s` and `t`. -/
def SameAbove (n : Nat) (s t : P2State) : Prop :=
  ∀ x, n ≤ x → t.fl x = s.fl x ∧ t.isUsed x = s.isUsed x ∧ t.pos x = s.pos x ∧
    t.isNgbh x = s.isNgbh x

/-- The states `s` and `t` of the raw-count loop hold the same per-edge
buffer and the same scratch arrays. -/
def SameScratch (s t : PassState) : Prop :=
  s.c3 = t.c3 ∧ s.fl = t.fl ∧ s.pos = t.pos ∧ s.isNgbh = t.isNgbh ∧ s.isUsed = t.isUsed

/-- State of the raw-count loop of `compute` when it reaches vertex `i`. -/
def stateBefore (f : Mat) (ii jStart : Nat → Nat) (n i : Nat) : PassState :=
  forRange 0 i (firstPassStep ii jStart)
    ⟨degreePass f jStart n, fun _ => 0, fun _ => 0, fun _ => 0, fun _ => 0, fun _ => 0⟩

/-- The accumulator `*f4_i` of `p2` for vertex `i` in state `s`, after the
reduction loop and before the halving. -/
def p2Accumulator (ii jStart : Nat → Nat) (i : Nat) (s : PassState) : ℚ :=
  (p2_reduce (p2_scan i jStart ii ⟨s.f 4 i, s.c3, s.fl, s.pos, s.isNgbh, s.isUsed, 0⟩)).f4

/-! ## Sample inputs -/

/-- Row offsets of the triangle on vertices `0, 1, 2`. -/
def triangleStart : Nat → Nat := fun i => [0, 2, 4, 6].getD i 6

/-- Column indices of the triangle on vertices `0, 1, 2`. -/
def triangleCols : Nat → Nat := fun p => [1, 2, 0, 2, 0, 1].getD p 0

/-- All five allocations succeed. -/
def allocOk : Alloc := ⟨true, true, true, true, true⟩

/-- The all-zero matrix. -/
def zeroMat : Mat := fun _ _ => 0

/-- Number of ordered pairs `(a, b)` of distinct neighbours of `i`: the
length-2 walks `a - i - b` with `i` in the middle and distinct end points. -/
def orderedNbrPairs (ii jStart : Nat → Nat) (n i : Nat) : Nat :=
  ((Finset.range n ×ˢ Finset.range n).filter
    (fun e => e.1 ≠ e.2 ∧ adjacent ii jStart i e.1 ∧ adjacent ii jStart i e.2)).card

/-- Number of length-2 walks `i - k - j` that start at `i` and end at a
vertex `j ≠ i`. -/
def walksFrom (ii jStart : Nat → Nat) (n i : Nat) : Nat :=
  ((Finset.range n ×ˢ Finset.range n).filter
    (fun e => adjacent ii jStart i e.1 ∧ adjacent ii jStart e.1 e.2 ∧ e.2 ≠ i)).card

/-- Number of induced 2-paths with `i` as an end: pairs `(k, j)` with `k`
a neighbour of `i`, `j` a neighbour of `k`, `j ≠ i` and `j` not a neighbour
of `i`. -/
def inducedPathEnds (ii jStart : Nat → Nat) (n i : Nat) : Nat :=
  ((Finset.range n ×ˢ Finset.range n).filter
    (fun e => adjacent ii jStart i e.1 ∧ adjacent ii jStart e.1 e.2 ∧ e.2 ≠ i ∧
      ¬ adjacent ii jStart i e.2)).card

/-- Number of unordered pairs of neighbours of `i`. -/
def nbrPairs (ii jStart : Nat → Nat) (n i : Nat) : Nat :=
  ((Finset.range n ×ˢ Finset.range n).filter
    (fun e => e.1 < e.2 ∧ adjacent ii jStart i e.1 ∧ adjacent ii jStart i e.2)).card

/-- Number of unordered pairs of neighbours of `i` that are not adjacent to
each other: the induced 2-paths centred at `i`. -/
def openPairs (ii jStart : Nat → Nat) (n i : Nat) : Nat :=
  ((Finset.range n ×ˢ Finset.range n).filter
    (fun e => e.1 < e.2 ∧ adjacent ii jStart i e.1 ∧ adjacent ii jStart i e.2 ∧
      ¬ adjacent ii jStart e.1 e.2)).card

/-- Row offsets of the path `0 - 1 - 2`. -/
def pathStart : Nat → Nat := fun i => [0, 1, 3, 4].getD i 4

/-- Column indices of the path `0 - 1 - 2`. -/
def pathCols : Nat → Nat := fun p => [1, 0, 2, 1].getD p 0

/-! ## Inputs with large indices -/

/-- A column index that does not fit an `int`: `2^32 + 1`. -/
def farCol : Nat := 2 ^ 32 + 1

/-- Vertex count of the graph with the edges `0 - 3`, `3 - 1`, `1 - 2` and
`1 - farCol`. -/
def farN : Nat := 2 ^ 32 + 2

/-- Row offsets of the graph with the edges `0 - 3`, `3 - 1`, `1 - 2` and
`1 - farCol`; the vertices `4, ..., farCol - 1` are isolated. -/
def farStart : Nat → Nat := fun v =>
  if v = 0 then 0 else if v = 1 then 1 else if v = 2 then 4 else if v = 3 then 5
  else if v ≤ farCol then 7 else 8

/-- Column indices of the graph with the edges `0 - 3`, `3 - 1`, `1 - 2`
and `1 - farCol`. -/
def farCols : Nat → Nat := fun p => [3, 3, 2, farCol, 1, 0, 1, 1].getD p 0

/-- Vertex count of the input whose vertex `1` lists the column `2^31`. -/
def edgeN : Nat := 2 ^ 31 + 1

/-- Row offsets of the input with the adjacency entries `0 → 1` and
`1 → 2^31`. -/
def edgeStart : Nat → Nat := fun v => if v = 0 then 0 else if v = 1 then 1 else 2

/-- Column indices of the input with the adjacency entries `0 → 1` and
`1 → 2^31`. -/
def edgeCols : Nat → Nat := fun p => if p = 0 then 1 else 2 ^ 31

/-- Row offsets on four vertices that are not non-decreasing: the ranges of
the vertices `0` and `1` overlap in position `2`. -/
def twistStart : Nat → Nat := fun v => [0, 3, 2, 4, 6].getD v 6

/-- Column indices for `twistStart`. -/
def twistCols : Nat → Nat := fun p => [2, 2, 3, 0, 0, 2].getD p 0

/-- The zero-filled arrays of `calloc` around the raw matrix `f`. -/
def freshState (f : Mat) : PassState :=
  ⟨f, fun _ => 0, fun _ => 0, fun _ => 0, fun _ => 0, fun _ => 0⟩

/-! ## `p2` with checked array accesses -/

/-- The loop `for (x = lo; x < hi; x++) body` whose body may fail. -/
def forRangeM {σ : Type} (lo hi : Nat) (body : Nat → σ → Option σ) (s : σ) : Option σ :=
  (List.range' lo (hi - lo)).foldlM (fun s x => body x s) s

/-- First loop nest of `p2` on scratch arrays of length `n`: `none` as soon
as `isNgbh`, `isUsed` or `fl` is accessed at an index `≥ n`, or `pos` is
written at an index `≥ n`. -/
def p2_scan_checked (n i : Nat) (jStart ii : Nat → Nat) (s : P2State) : Option P2State :=
  forRangeM (jStart i) (jStart (i + 1)) (fun id_i s =>
    let k := ii id_i
    if k < n then
      let s := { s with isNgbh := setAt s.isNgbh k (toInt32 (id_i + 1)) }
      forRangeM (jStart k) (jStart (k + 1)) (fun id_k s =>
        let j := ii id_k
        if i = j then some s
        else if j < n then
          if s.isUsed j = 0 then
            if s.cnt < n then
              let s := { s with fl := setAt s.fl j 0, isUsed := setAt s.isUsed j 1,
                                pos := setAt s.pos s.cnt (toInt32 j), cnt := s.cnt + 1 }
              some { s with fl := setAt s.fl j (s.fl j + 1) }
            else none
          else some { s with fl := setAt s.fl j (s.fl j + 1) }
        else none) s
    else none) s

/-- Second loop of `p2` on scratch arrays of length `n`: `none` as soon as
`pos`, `isNgbh`, `fl` or `isUsed` is accessed at an index `≥ n`, or `c3` is
written outside the adjacency range of vertex `i`. -/
def p2_reduce_checked (n i : Nat) (jStart : Nat → Nat) (s : P2State) : Option P2State :=
  forRangeM 0 s.cnt (fun l s =>
    if l < n then
      let j := toIndex (s.pos l)
      if j < n then
        if s.isNgbh j ≠ 0 then
          if (jStart i : Int) ≤ s.isNgbh j - 1 ∧ s.isNgbh j - 1 < (jStart (i + 1) : Int) then
            let s := { s with c3 := setAt s.c3 (s.isNgbh j - 1) (s.fl j),
                              f4 := s.f4 + s.fl j }
            some { s with isUsed := setAt s.isUsed j 0 }
          else none
        else some { s with isUsed := setAt s.isUsed j 0 }
      else none
    else none) s

/-- Source `p2` with every access to `fl`, `pos`, `isNgbh`, `isUsed` and
`c3` checked: `none` if some access is out of range. -/
def p2_checked (n : Nat) (f4_i : ℚ) (c3 : Int → ℚ) (i : Nat) (jStart ii : Nat → Nat)
    (fl : Nat → ℚ) (pos isNgbh : Nat → Int) (isUsed : Nat → Nat) : Option P2State :=
  (p2_scan_checked n i jStart ii ⟨f4_i, c3, fl, pos, isNgbh, isUsed, 0⟩).bind (fun s =>
    (p2_reduce_checked n i jStart s).bind (fun s =>
      some { s with f4 := s.f4 / 2 }))

/-- Source `remove_neighbors` on an array of length `n`: `none` as soon as
`isNgbh` is written at an index `≥ n`. -/
def remove_neighbors_checked (n : Nat) (isNgbh : Nat → Int) (i : Nat)
    (ii jStart : Nat → Nat) : Option (Nat → Int) :=
  forRangeM (jStart i) (jStart (i + 1)) (fun id_i isNgbh =>
    let k := ii id_i
    if k < n then some (setAt isNgbh k 0) else none) isNgbh

/-- The loop body `workerStep` with every access of `p2` and
`remove_neighbors` to the scratch partition of worker `ip` checked against
the partition length `n`, and every write of `c3` checked against the
adjacency range of vertex `i`: `none` if some access leaves them. -/
def workerStep_checked (ii jStart : Nat → Nat) (n ip i : Nat) (s : PassState) :
    Option PassState :=
  (p2_checked n (s.f 4 i) s.c3 i jStart ii (view s.fl (ip * n)) (view s.pos (ip * n))
    (view s.isNgbh (ip * n)) (view s.isUsed (ip * n))).bind (fun r =>
    (remove_neighbors_checked n r.isNgbh i ii jStart).bind (fun isNgbh =>
      let f := setCell s.f 4 i r.f4
      let f := setCell f 2 i (spmv_first_pass (f 2 i) (f 1) i jStart ii)
      let f := compute_all_available f i
      some ⟨f, r.c3, store s.fl (ip * n) r.fl, store s.pos (ip * n) r.pos,
        store s.isNgbh (ip * n) isNgbh, store s.isUsed (ip * n) r.isUsed⟩))

/-- The columns counted so far are vertices other than `i`. -/
def ScanBound (n i : Nat) (s : P2State) : Prop :=
  ∃ seen, Touched n seen s ∧ ∀ j, j ∈ seen → j ≠ i

/-! ## Memory and loop lemmas -/

@[simp] theorem setCell_apply (f : Mat) (r i : Nat) (v : ℚ) (r' i' : Nat) :
    setCell f r i v r' i' = if r' = r ∧ i' = i then v else f r' i' := rfl

@[simp] theorem setAt_apply {ι α : Type} [DecidableEq ι] (a : ι → α) (k : ι) (v : α)
    (k' : ι) : setAt a k v k' = if k' = k then v else a k' := rfl

theorem forRange_eq_foldl {σ : Type} (lo hi : Nat) (body : Nat → σ → σ) (s : σ) :
    forRange lo hi body s = (List.range' lo (hi - lo)).foldl (fun s x => body x s) s := rfl

theorem forRange_zero_eq {σ : Type} (n : Nat) (body : Nat → σ → σ) (s : σ) :
    forRange 0 n body s = (List.range n).foldl (fun s x => body x s) s := by
  simp [forRange, List.range_eq_range']

theorem mem_nbrPos {jStart : Nat → Nat} {i p : Nat} :
    p ∈ nbrPos jStart i ↔ jStart i ≤ p ∧ p < jStart (i + 1) := by
  unfold nbrPos
  rw [List.mem_range'_1]
  omega

theorem nodup_nbrPos (jStart : Nat → Nat) (i : Nat) : (nbrPos jStart i).Nodup :=
  List.nodup_range' _ _

theorem sum_map_range' {M : Type} [AddCommMonoid M] (g : Nat → M) (a k : Nat) :
    ((List.range' a k).map g).sum = ∑ p in Finset.Ico a (a + k), g p := by
  induction k generalizing a with
  | zero => simp
  | succ k ih =>
    rw [List.range'_succ, List.map_cons, List.sum_cons, ih (a + 1),
      Finset.sum_eq_sum_Ico_succ_bot (by omega : a < a + (k + 1)),
      show a + 1 + k = a + (k + 1) by omega]

theorem sum_map_nbrPos {M : Type} [AddCommMonoid M] (jStart : Nat → Nat) (i : Nat)
    (g : Nat → M) :
    ((nbrPos jStart i).map g).sum = ∑ p in Finset.Ico (jStart i) (jStart (i + 1)), g p := by
  unfold nbrPos
  rcases Nat.le_total (jStart i) (jStart (i + 1)) with h | h
  · rw [sum_map_range', show jStart i + (jStart (i + 1) - jStart i) = jStart (i + 1) by omega]
  · rw [Nat.sub_eq_zero_of_le h, Finset.Ico_eq_empty (by omega)]
    simp

theorem foldl_add_eq (g : Nat → ℚ) (L : List Nat) (a : ℚ) :
    L.foldl (fun acc p => acc + g p) a = a + (L.map g).sum := by
  induction L generalizing a with
  | nil => simp
  | cons x L ih => simp [ih, add_assoc]

theorem mono_le {jStart : Nat → Nat} {n : Nat} (h : MonoOffsets jStart n) :
    ∀ k, k ≤ n → ∀ i, i ≤ k → jStart i ≤ jStart k := by
  intro k
  induction k with
  | zero => intro _ i hi; simp [Nat.le_zero.mp hi]
  | succ k ih =>
    intro hk i hi
    rcases Nat.lt_or_ge i (k + 1) with hlt | hge
    · exact le_trans (ih (by omega) i (by omega)) (h k (by omega))
    · have : i = k + 1 := by omega
      simp [this]

/-! ## The degree loop and the net loop -/

theorem foldl_setCell_row (g : Nat → ℚ) (row : Nat) (L : List Nat) (f : Mat) (r c : Nat) :
    (L.foldl (fun f i => setCell f row i (g i)) f) r c =
      if r = row ∧ c ∈ L then g c else f r c := by
  induction L generalizing f with
  | nil => simp
  | cons x L ih =>
    rw [List.foldl_cons, ih]
    by_cases hr : r = row <;> by_cases hc : c ∈ L <;> by_cases hx : c = x <;>
      simp [hr, hc, hx]

theorem degreePass_apply (f : Mat) (jStart : Nat → Nat) (n r c : Nat) :
    degreePass f jStart n r c = if r = 1 ∧ c < n then (degree jStart c : ℚ) else f r c := by
  unfold degreePass
  rw [forRange_zero_eq]
  have h := foldl_setCell_row (fun i => ((jStart (i + 1) - jStart i : Nat) : ℚ)) 1
    (List.range n) f r c
  simpa [degree] using h

theorem raw2net_apply (f d : Mat) (i r c : Nat) :
    raw2net f d i r c = if c = i ∧ r < 16 then netCombination d i r else f r c := by
  by_cases hc : c = i
  · by_cases hr : r < 16
    · subst hc
      interval_cases r <;> simp [raw2net, netCombination]
    · have h0 : ∀ k, k < 16 → r ≠ k := fun k hk => by omega
      simp [raw2net, hr, h0]
  · simp [raw2net, hc]

theorem netPass_apply (fn d : Mat) (n r c : Nat) :
    netPass fn d n r c = if c < n ∧ r < 16 then netCombination d c r else fn r c := by
  unfold netPass
  rw [forRange_zero_eq]
  have key : ∀ (L : List Nat) (fn : Mat),
      (L.foldl (fun fn i => raw2net fn d i) fn) r c =
        if c ∈ L ∧ r < 16 then netCombination d c r else fn r c := by
    intro L
    induction L with
    | nil => intro fn; simp
    | cons x L ih =>
      intro fn
      rw [List.foldl_cons, ih, raw2net_apply]
      by_cases hr : r < 16 <;> by_cases hc : c ∈ L <;> by_cases hx : c = x <;>
        simp [hr, hc, hx]
  simpa using key (List.range n) fn

/-! ## Frame of one iteration of the raw-count loop -/

theorem step_f_other (ii jStart : Nat → Nat) (i : Nat) (s : PassState) (r c : Nat)
    (h : c ≠ i) : (firstPassStep ii jStart i s).f r c = s.f r c := by
  simp [firstPassStep, compute_all_available, h]

theorem step_f_row (ii jStart : Nat → Nat) (i : Nat) (s : PassState) (r c : Nat)
    (h0 : r ≠ 0) (h2 : r ≠ 2) (h3 : r ≠ 3) (h4 : r ≠ 4) :
    (firstPassStep ii jStart i s).f r c = s.f r c := by
  simp [firstPassStep, compute_all_available, h0, h2, h3, h4]

theorem step_f0 (ii jStart : Nat → Nat) (i : Nat) (s : PassState) :
    (firstPassStep ii jStart i s).f 0 i = 1 := by
  simp [firstPassStep, compute_all_available]

theorem step_f2 (ii jStart : Nat → Nat) (i : Nat) (s : PassState) :
    (firstPassStep ii jStart i s).f 2 i =
      spmv_first_pass (s.f 2 i) (s.f 1) i jStart ii := by
  have h : setCell s.f 4 i
      (p2 (s.f 4 i) s.c3 i jStart ii s.fl s.pos s.isNgbh s.isUsed).f4 1 = s.f 1 := by
    funext c; simp
  simp [firstPassStep, compute_all_available, h]

theorem step_f3 (ii jStart : Nat → Nat) (i : Nat) (s : PassState) :
    (firstPassStep ii jStart i s).f 3 i = starProduct (s.f 1 i) := by
  simp [firstPassStep, compute_all_available]

theorem step_f4 (ii jStart : Nat → Nat) (i : Nat) (s : PassState) :
    (firstPassStep ii jStart i s).f 4 i =
      (p2 (s.f 4 i) s.c3 i jStart ii s.fl s.pos s.isNgbh s.isUsed).f4 := by
  simp [firstPassStep, compute_all_available]

theorem fold_f_row (ii jStart : Nat → Nat) (vs : List Nat) (s : PassState) (r c : Nat)
    (h0 : r ≠ 0) (h2 : r ≠ 2) (h3 : r ≠ 3) (h4 : r ≠ 4) :
    (passFold ii jStart vs s).f r c = s.f r c := by
  induction vs generalizing s with
  | nil => rfl
  | cons x vs ih =>
    show (passFold ii jStart vs (firstPassStep ii jStart x s)).f r c = _
    rw [ih, step_f_row _ _ _ _ _ _ h0 h2 h3 h4]

theorem fold_f_notin (ii jStart : Nat → Nat) (vs : List Nat) (s : PassState) (r c : Nat)
    (h : c ∉ vs) : (passFold ii jStart vs s).f r c = s.f r c := by
  induction vs generalizing s with
  | nil => rfl
  | cons x vs ih =>
    show (passFold ii jStart vs (firstPassStep ii jStart x s)).f r c = _
    rw [ih _ (fun hc => h (List.mem_cons_of_mem _ hc)),
      step_f_other _ _ _ _ _ _ (fun hc => h (by simp [hc]))]

theorem passFold_append (ii jStart : Nat → Nat) (us vs : List Nat) (s : PassState) :
    passFold ii jStart (us ++ vs) s = passFold ii jStart vs (passFold ii jStart us s) := by
  simp [passFold, List.foldl_append]

theorem passFold_cons (ii jStart : Nat → Nat) (x : Nat) (vs : List Nat) (s : PassState) :
    passFold ii jStart (x :: vs) s = passFold ii jStart vs (firstPassStep ii jStart x s) :=
  rfl

/-- A vertex of a duplicate-free list splits it into the vertices before
and after it. -/
theorem split_of_mem_nodup {vs : List Nat} (hn : vs.Nodup) {i : Nat} (hi : i ∈ vs) :
    ∃ pre post, vs = pre ++ i :: post ∧ i ∉ pre ∧ i ∉ post := by
  obtain ⟨pre, post, rfl⟩ := List.append_of_mem hi
  refine ⟨pre, post, rfl, ?_, ?_⟩
  · intro h
    have := (List.nodup_append.mp hn).2.2
    exact this h (List.mem_cons_self _ _)
  · have := (List.nodup_append.mp hn).2.1
    exact (List.nodup_cons.mp this).1

/-- Column `i` of the raw matrix after the pass is the one left by the
iteration of vertex `i`. -/
theorem fold_f_col (ii jStart : Nat → Nat) (pre post : List Nat) (i : Nat)
    (s : PassState) (r : Nat) (hpost : i ∉ post) :
    (passFold ii jStart (pre ++ i :: post) s).f r i =
      (firstPassStep ii jStart i (passFold ii jStart pre s)).f r i := by
  rw [passFold_append, passFold_cons, fold_f_notin _ _ _ _ _ _ hpost]

theorem rawPass_eq (f : Mat) (ii jStart : Nat → Nat) (n : Nat) :
    rawPass f ii jStart n = passFold ii jStart (List.range n)
      ⟨f, fun _ => 0, fun _ => 0, fun _ => 0, fun _ => 0, fun _ => 0⟩ := by
  unfold rawPass passFold
  rw [forRange_zero_eq]

theorem compute_ok (a : Alloc) (f fn : Mat) (ii jStart : Nat → Nat) (n m np : Nat)
    (h : a.ok = true) :
    compute a f fn ii jStart n m np =
      ⟨0, (rawPass (degreePass f jStart n) ii jStart n).f,
        netPass fn (rawPass (degreePass f jStart n) ii jStart n).f n⟩ := by
  simp [compute, h]

theorem compute_fail (a : Alloc) (f fn : Mat) (ii jStart : Nat → Nat) (n m np : Nat)
    (h : a.ok = false) :
    compute a f fn ii jStart n m np = ⟨1, degreePass f jStart n, fn⟩ := by
  simp [compute, h]

theorem linMap_apply (M : Fin 16 → Fin 16 → ℤ) (x : Fin 16 → ℚ) (r : Fin 16) :
    linMap M x r =
      (M r ⟨0, by decide⟩ : ℚ) * x ⟨0, by decide⟩
      + (M r ⟨1, by decide⟩ : ℚ) * x ⟨1, by decide⟩
      + (M r ⟨2, by decide⟩ : ℚ) * x ⟨2, by decide⟩
      + (M r ⟨3, by decide⟩ : ℚ) * x ⟨3, by decide⟩
      + (M r ⟨4, by decide⟩ : ℚ) * x ⟨4, by decide⟩
      + (M r ⟨5, by decide⟩ : ℚ) * x ⟨5, by decide⟩
      + (M r ⟨6, by decide⟩ : ℚ) * x ⟨6, by decide⟩
      + (M r ⟨7, by decide⟩ : ℚ) * x ⟨7, by decide⟩
      + (M r ⟨8, by decide⟩ : ℚ) * x ⟨8, by decide⟩
      + (M r ⟨9, by decide⟩ : ℚ) * x ⟨9, by decide⟩
      + (M r ⟨10, by decide⟩ : ℚ) * x ⟨10, by decide⟩
      + (M r ⟨11, by decide⟩ : ℚ) * x ⟨11, by decide⟩
      + (M r ⟨12, by decide⟩ : ℚ) * x ⟨12, by decide⟩
      + (M r ⟨13, by decide⟩ : ℚ) * x ⟨13, by decide⟩
      + (M r ⟨14, by decide⟩ : ℚ) * x ⟨14, by decide⟩
      + (M r ⟨15, by decide⟩ : ℚ) * x ⟨15, by decide⟩ := by
  unfold linMap
  simp only [Fin.sum_univ_succ, Fin.sum_univ_zero]
  simp only [add_assoc, add_zero]
  rfl

theorem raw2netVec_apply (d : Fin 16 → ℚ) (r : Nat) (h : r < 16) :
    raw2netVec d ⟨r, h⟩ =
      netCombination (fun c _ => if h : c < 16 then d ⟨c, h⟩ else 0) 0 r := by
  unfold raw2netVec
  rw [raw2net_apply, if_pos ⟨rfl, h⟩]

theorem raw2net_eq_vec (f d : Mat) (i : Nat) (r : Fin 16) :
    raw2net f d i r i = raw2netVec (fun c => d c i) r := by
  obtain ⟨r, hr⟩ := r
  rw [raw2netVec_apply, raw2net_apply, if_pos ⟨rfl, hr⟩]
  interval_cases r <;> simp [netCombination]

set_option maxHeartbeats 1000000 in
theorem net2raw_raw2net (d : Fin 16 → ℚ) : linMap net2rawCoeff (raw2netVec d) = d := by
  funext r
  obtain ⟨r, hr⟩ := r
  rw [linMap_apply]
  simp only [raw2netVec_apply]
  interval_cases r <;> simp [net2rawCoeff, net2rawTable, netCombination] <;> ring

set_option maxHeartbeats 1000000 in
theorem raw2net_net2raw (x : Fin 16 → ℚ) : raw2netVec (linMap net2rawCoeff x) = x := by
  funext r
  obtain ⟨r, hr⟩ := r
  rw [raw2netVec_apply]
  interval_cases r <;>
    simp only [netCombination, linMap_apply, show (4 : ℕ) < 16 by decide, dite_true] <;>
    simp [net2rawCoeff, net2rawTable] <;> ring

/-! ## Conversions between indices and `int` cells -/

theorem toInt32_of_lt {v : Nat} (h : v < 2 ^ 31) : toInt32 v = (v : Int) := by
  unfold toInt32
  rw [Int.bmod_def]
  have h1 : ((v : Int)) % ((2 ^ 32 : Nat) : Int) = (v : Int) := by
    apply Int.emod_eq_of_lt
    · omega
    · push_cast
      omega
  rw [h1, if_pos]
  push_cast
  omega

theorem toIndex_natCast {v : Nat} (h : v < 2 ^ 64) : toIndex (v : Int) = v := by
  unfold toIndex
  have h1 : ((v : Int)) % (2 ^ 64) = (v : Int) := by
    apply Int.emod_eq_of_lt
    · omega
    · omega
  rw [h1]
  simp

theorem toIndex_toInt32 {v : Nat} (h : v < 2 ^ 31) : toIndex (toInt32 v) = v := by
  rw [toInt32_of_lt h, toIndex_natCast (by omega)]

theorem toInt32_succ_ne_zero {p : Nat} (h : p + 1 < 2 ^ 31) : toInt32 (p + 1) ≠ 0 := by
  rw [toInt32_of_lt h]
  omega

theorem toInt32_succ_sub_one {p : Nat} (h : p + 1 < 2 ^ 31) :
    toInt32 (p + 1) - 1 = (p : Int) := by
  rw [toInt32_of_lt h]
  omega

/-! ## The scan loops of `p2` -/

theorem p2_scan_eq (i : Nat) (jStart ii : Nat → Nat) (s : P2State) :
    p2_scan i jStart ii s = (nbrPos jStart i).foldl (scanStep i jStart ii) s := by
  have h : scanStep i jStart ii = fun s id_i =>
      forRange (jStart (ii id_i)) (jStart (ii id_i + 1)) (fun id_k s => touch i (ii id_k) s)
        { s with isNgbh := setAt s.isNgbh (ii id_i) (toInt32 (id_i + 1)) } := by
    funext s p
    unfold scanStep forRange nbrPos
    rw [List.foldl_map]
  rw [h]
  rfl

theorem p2_reduce_eq (s : P2State) :
    p2_reduce s =
      (List.range s.cnt).foldl (fun s l => reduceStep (toIndex (s.pos l)) s) s := by
  unfold p2_reduce
  rw [forRange_zero_eq]
  rfl

theorem touch_self (i : Nat) (s : P2State) : touch i i s = s := by
  simp [touch]

theorem touch_frame (i j : Nat) (s : P2State) :
    (touch i j s).isNgbh = s.isNgbh ∧ (touch i j s).c3 = s.c3 ∧ (touch i j s).f4 = s.f4 := by
  unfold touch
  by_cases h : i = j
  · simp [h]
  · by_cases hu : s.isUsed j = 0 <;> simp [h, hu]

theorem visited_push (s : P2State) (x : Int) :
    (List.range (s.cnt + 1)).map (fun l => toIndex (setAt s.pos s.cnt x l)) =
      visited s ++ [toIndex x] := by
  rw [List.range_succ, List.map_append]
  congr 1
  · refine List.map_congr_left (fun l hl => ?_)
    have : l ≠ s.cnt := Nat.ne_of_lt (List.mem_range.mp hl)
    simp [this]
  · simp

theorem visited_length (s : P2State) : (visited s).length = s.cnt := by
  simp [visited]

/-- A column below `n` that was not counted yet leaves room in `pos`. -/
theorem Touched.cnt_lt {n : Nat} {seen : List Nat} {s : P2State} (h : Touched n seen s)
    {j : Nat} (hj : j < n) (hns : j ∉ seen) : s.cnt < n := by
  have hsub : (visited s).toFinset ⊆ (Finset.range n).erase j := by
    intro k hk
    have hks := (h.mem k).mp (List.mem_toFinset.mp hk)
    exact Finset.mem_erase.mpr
      ⟨fun e => hns (e ▸ hks), Finset.mem_range.mpr (h.small k hks)⟩
  have hcard := Finset.card_le_card hsub
  rw [List.toFinset_card_of_nodup h.nodup, visited_length,
    Finset.card_erase_of_mem (Finset.mem_range.mpr hj), Finset.card_range] at hcard
  omega

theorem SameAbove.refl (n : Nat) (s : P2State) : SameAbove n s s :=
  fun _ _ => ⟨rfl, rfl, rfl, rfl⟩

theorem SameAbove.trans {n : Nat} {s t u : P2State} (h1 : SameAbove n s t)
    (h2 : SameAbove n t u) : SameAbove n s u := by
  intro x hx
  obtain ⟨a1, a2, a3, a4⟩ := h1 x hx
  obtain ⟨b1, b2, b3, b4⟩ := h2 x hx
  exact ⟨b1.trans a1, b2.trans a2, b3.trans a3, b4.trans a4⟩

theorem touch_touched {n : Nat} (hn : n ≤ 2 ^ 31) {seen : List Nat} {s : P2State}
    (h : Touched n seen s) {i j : Nat} (hj : j ≠ i) (hjn : j < n) :
    Touched n (seen ++ [j]) (touch i j s) ∧ SameAbove n s (touch i j s) := by
  have hij : ¬ i = j := fun e => hj e.symm
  have hj31 : j < 2 ^ 31 := lt_of_lt_of_le hjn hn
  have hsmall : ∀ k, k ∈ seen ++ [j] → k < n := by
    intro k hk
    rcases List.mem_append.mp hk with h1 | h1
    · exact h.small k h1
    · rw [List.mem_singleton.mp h1]; exact hjn
  by_cases hu : s.isUsed j = 0
  · have hns : j ∉ seen := by
      intro hm
      have := h.used j hjn
      rw [if_pos hm, hu] at this
      exact absurd this (by decide)
    have hcnt := h.cnt_lt hjn hns
    have e : touch i j s =
        { s with fl := setAt (setAt s.fl j 0) j (0 + 1), isUsed := setAt s.isUsed j 1,
                 pos := setAt s.pos s.cnt (toInt32 j), cnt := s.cnt + 1 } := by
      simp [touch, hij, hu]
    rw [e]
    refine ⟨⟨?_, ?_, ?_, ?_, hsmall⟩, ?_⟩
    · intro k hk
      by_cases hkj : k = j
      · simp [hkj]
      · simp [hkj, h.used k hk]
    · intro k hk
      by_cases hkj : k = j
      · subst hkj
        simp [List.count_eq_zero_of_not_mem hns]
      · have hks : k ∈ seen := by
          rcases List.mem_append.mp hk with h1 | h1
          · exact h1
          · exact absurd (List.mem_singleton.mp h1) hkj
        simp [hkj, h.count k hks, List.count_cons]
    · show ((List.range (s.cnt + 1)).map
        (fun l => toIndex (setAt s.pos s.cnt (toInt32 j) l))).Nodup
      rw [visited_push, toIndex_toInt32 hj31, List.nodup_append]
      refine ⟨h.nodup, List.nodup_singleton j, ?_⟩
      intro a ha hb
      rw [List.mem_singleton.mp hb] at ha
      exact hns ((h.mem j).mp ha)
    · intro k
      show k ∈ (List.range (s.cnt + 1)).map
        (fun l => toIndex (setAt s.pos s.cnt (toInt32 j) l)) ↔ _
      rw [visited_push, toIndex_toInt32 hj31, List.mem_append, List.mem_append, h.mem k]
    · intro x hx
      have hxj : x ≠ j := by omega
      have hxc : x ≠ s.cnt := by omega
      simp [hxj, hxc]
  · have hs : j ∈ seen := by
      by_contra hm
      have := h.used j hjn
      rw [if_neg hm] at this
      exact hu this
    have e : touch i j s = { s with fl := setAt s.fl j (s.fl j + 1) } := by
      simp [touch, hij, hu]
    rw [e]
    refine ⟨⟨?_, ?_, h.nodup, ?_, hsmall⟩, ?_⟩
    · intro k hk
      by_cases hkj : k = j
      · simp [hkj, hs, h.used j hjn]
      · simp [hkj, h.used k hk]
    · intro k hk
      by_cases hkj : k = j
      · subst hkj
        simp [h.count k hs]
      · have hks : k ∈ seen := by
          rcases List.mem_append.mp hk with h1 | h1
          · exact h1
          · exact absurd (List.mem_singleton.mp h1) hkj
        simp [hkj, h.count k hks, List.count_cons]
    · intro k
      show k ∈ visited s ↔ _
      rw [h.mem k, List.mem_append]
      constructor
      · exact Or.inl
      · rintro (h1 | h1)
        · exact h1
        · rw [List.mem_singleton.mp h1]; exact hs
    · intro x hx
      have hxj : x ≠ j := by omega
      simp [hxj]

theorem touch_foldl_touched {n : Nat} (hn : n ≤ 2 ^ 31) (i : Nat) (L : List Nat) :
    (∀ j, j ∈ L → j < n) → ∀ (seen : List Nat) (s : P2State), Touched n seen s →
      Touched n (seen ++ L.filter (fun j => j ≠ i)) (L.foldl (fun s j => touch i j s) s) ∧
      SameAbove n s (L.foldl (fun s j => touch i j s) s) := by
  induction L with
  | nil => intro _ seen s h; exact ⟨by simpa using h, SameAbove.refl n s⟩
  | cons x L ih =>
    intro hL seen s h
    have hL' : ∀ j, j ∈ L → j < n := fun j hj => hL j (List.mem_cons_of_mem _ hj)
    rw [List.foldl_cons]
    by_cases hx : x = i
    · subst hx
      rw [touch_self]
      simpa using ih hL' seen s h
    · obtain ⟨h1, h2⟩ := touch_touched hn h hx (hL x (List.mem_cons_self _ _))
      obtain ⟨h3, h4⟩ := ih hL' (seen ++ [x]) (touch i x s) h1
      exact ⟨by simpa [List.filter_cons, hx] using h3, h2.trans h4⟩

theorem touch_foldl_frame (i : Nat) (L : List Nat) (s : P2State) :
    (L.foldl (fun s j => touch i j s) s).isNgbh = s.isNgbh ∧
    (L.foldl (fun s j => touch i j s) s).c3 = s.c3 ∧
    (L.foldl (fun s j => touch i j s) s).f4 = s.f4 := by
  induction L generalizing s with
  | nil => exact ⟨rfl, rfl, rfl⟩
  | cons x L ih =>
    rw [List.foldl_cons]
    obtain ⟨h1, h2, h3⟩ := ih (touch i x s)
    obtain ⟨g1, g2, g3⟩ := touch_frame i x s
    exact ⟨h1.trans g1, h2.trans g2, h3.trans g3⟩

theorem Touched.withMark {n : Nat} {seen : List Nat} {s : P2State} (h : Touched n seen s)
    (k : Nat) (v : Int) : Touched n seen { s with isNgbh := setAt s.isNgbh k v } :=
  ⟨h.used, h.count, h.nodup, h.mem, h.small⟩

theorem scanStep_touched {n : Nat} (hn : n ≤ 2 ^ 31) (i : Nat) (jStart ii : Nat → Nat)
    {seen : List Nat} {s : P2State} (h : Touched n seen s) (p : Nat) (hp : ii p < n)
    (hq : ∀ q, q ∈ nbrPos jStart (ii p) → ii q < n) :
    Touched n (seen ++ walkEnds i jStart ii [p]) (scanStep i jStart ii s p) ∧
      SameAbove n s (scanStep i jStart ii s p) := by
  have hL : ∀ j, j ∈ (nbrPos jStart (ii p)).map ii → j < n := by
    intro j hj
    obtain ⟨q, hq1, rfl⟩ := List.mem_map.mp hj
    exact hq q hq1
  obtain ⟨h1, h2⟩ := touch_foldl_touched hn i ((nbrPos jStart (ii p)).map ii) hL seen _
    (h.withMark (ii p) (toInt32 (p + 1)))
  refine ⟨by simpa [walkEnds, scanStep] using h1, ?_⟩
  have h0 : SameAbove n s { s with isNgbh := setAt s.isNgbh (ii p) (toInt32 (p + 1)) } := by
    intro x hx
    have hxp : x ≠ ii p := by omega
    simp [hxp]
  exact h0.trans h2

theorem scanStep_frame (i : Nat) (jStart ii : Nat → Nat) (s : P2State) (p : Nat) :
    (scanStep i jStart ii s p).isNgbh = setAt s.isNgbh (ii p) (toInt32 (p + 1)) ∧
    (scanStep i jStart ii s p).c3 = s.c3 ∧ (scanStep i jStart ii s p).f4 = s.f4 :=
  touch_foldl_frame i _ _

theorem scan_foldl_touched {n : Nat} (hn : n ≤ 2 ^ 31) (i : Nat) (jStart ii : Nat → Nat)
    (P : List Nat) :
    (∀ p, p ∈ P → ii p < n ∧ ∀ q, q ∈ nbrPos jStart (ii p) → ii q < n) →
    ∀ (seen : List Nat) (s : P2State), Touched n seen s →
      Touched n (seen ++ walkEnds i jStart ii P) (P.foldl (scanStep i jStart ii) s) ∧
      SameAbove n s (P.foldl (scanStep i jStart ii) s) := by
  induction P with
  | nil => intro _ seen s h; exact ⟨by simpa [walkEnds] using h, SameAbove.refl n s⟩
  | cons p P ih =>
    intro hP seen s h
    rw [List.foldl_cons]
    obtain ⟨hp1, hp2⟩ := hP p (List.mem_cons_self _ _)
    obtain ⟨h1, h2⟩ := scanStep_touched hn i jStart ii h p hp1 hp2
    obtain ⟨h3, h4⟩ := ih (fun q hq => hP q (List.mem_cons_of_mem _ hq)) _ _ h1
    exact ⟨by simpa [walkEnds, List.append_assoc] using h3, h2.trans h4⟩

theorem scan_foldl_frame (i : Nat) (jStart ii : Nat → Nat) (P : List Nat) (s : P2State) :
    (P.foldl (scanStep i jStart ii) s).isNgbh = markAll ii P s.isNgbh ∧
    (P.foldl (scanStep i jStart ii) s).c3 = s.c3 ∧
    (P.foldl (scanStep i jStart ii) s).f4 = s.f4 := by
  induction P generalizing s with
  | nil => exact ⟨rfl, rfl, rfl⟩
  | cons p P ih =>
    rw [List.foldl_cons]
    obtain ⟨h1, h2, h3⟩ := ih (scanStep i jStart ii s p)
    obtain ⟨g1, g2, g3⟩ := scanStep_frame i jStart ii s p
    refine ⟨?_, h2.trans g2, h3.trans g3⟩
    rw [h1, g1]
    rfl

/-- A state whose `isUsed` flags are clear below `n` and whose counter is
`0` has counted no column yet. -/
theorem touched_nil {n : Nat} (s : P2State) (hu : ∀ j, j < n → s.isUsed j = 0)
    (hc : s.cnt = 0) : Touched n [] s :=
  ⟨fun j hj => by simp [hu j hj], fun j hj => absurd hj (List.not_mem_nil j),
    by simp [visited, hc], fun j => by simp [visited, hc],
    fun j hj => absurd hj (List.not_mem_nil j)⟩

/-! ## The reduction loop of `p2` -/

theorem reduceStep_frame (j : Nat) (s : P2State) :
    (reduceStep j s).pos = s.pos ∧ (reduceStep j s).fl = s.fl ∧
    (reduceStep j s).isNgbh = s.isNgbh ∧ (reduceStep j s).cnt = s.cnt := by
  unfold reduceStep
  by_cases h : s.isNgbh j ≠ 0 <;> simp [h]

theorem reduce_foldl_map (Ls : List Nat) (s : P2State) :
    Ls.foldl (fun s l => reduceStep (toIndex (s.pos l)) s) s =
      (Ls.map (fun l => toIndex (s.pos l))).foldl (fun s j => reduceStep j s) s := by
  induction Ls generalizing s with
  | nil => rfl
  | cons l Ls ih =>
    rw [List.foldl_cons, ih, (reduceStep_frame (toIndex (s.pos l)) s).1]
    rfl

theorem p2_reduce_visited (s : P2State) :
    p2_reduce s = (visited s).foldl (fun s j => reduceStep j s) s := by
  rw [p2_reduce_eq, reduce_foldl_map]
  rfl

theorem reduce_foldl_frame (Pl : List Nat) (s : P2State) :
    (Pl.foldl (fun s j => reduceStep j s) s).fl = s.fl ∧
    (Pl.foldl (fun s j => reduceStep j s) s).isNgbh = s.isNgbh ∧
    (Pl.foldl (fun s j => reduceStep j s) s).pos = s.pos := by
  induction Pl generalizing s with
  | nil => exact ⟨rfl, rfl, rfl⟩
  | cons x Pl ih =>
    rw [List.foldl_cons]
    obtain ⟨h1, h2, h3⟩ := ih (reduceStep x s)
    obtain ⟨g0, g1, g2, -⟩ := reduceStep_frame x s
    exact ⟨h1.trans g1, h2.trans g2, h3.trans g0⟩

theorem reduce_foldl_isUsed (Pl : List Nat) (s : P2State) (j : Nat) :
    (Pl.foldl (fun s j => reduceStep j s) s).isUsed j =
      if j ∈ Pl then 0 else s.isUsed j := by
  induction Pl generalizing s with
  | nil => simp
  | cons x Pl ih =>
    rw [List.foldl_cons, ih]
    have hx : (reduceStep x s).isUsed j = if j = x then 0 else s.isUsed j := by
      unfold reduceStep
      by_cases h : s.isNgbh x ≠ 0 <;> simp [h]
    rw [hx]
    by_cases h1 : j ∈ Pl <;> by_cases h2 : j = x <;> simp [h1, h2]

theorem reduce_foldl_f4 (Pl : List Nat) (s : P2State) :
    (Pl.foldl (fun s j => reduceStep j s) s).f4 =
      s.f4 + (Pl.map (fun j => if s.isNgbh j ≠ 0 then s.fl j else 0)).sum := by
  induction Pl generalizing s with
  | nil => simp
  | cons x Pl ih =>
    rw [List.foldl_cons, ih]
    obtain ⟨-, g1, g2, -⟩ := reduceStep_frame x s
    rw [g1, g2]
    have hx : (reduceStep x s).f4 = s.f4 + (if s.isNgbh x ≠ 0 then s.fl x else 0) := by
      unfold reduceStep
      by_cases h : s.isNgbh x ≠ 0 <;> simp [h]
    rw [hx, List.map_cons, List.sum_cons, add_assoc]

theorem reduceStep_c3 (x : Nat) (s : P2State) (q : Int) :
    (reduceStep x s).c3 q =
      if s.isNgbh x ≠ 0 ∧ q = s.isNgbh x - 1 then s.fl x else s.c3 q := by
  unfold reduceStep
  by_cases h : s.isNgbh x ≠ 0
  · by_cases hq : q = s.isNgbh x - 1 <;> simp [h, hq]
  · simp [h]

/-- A position no visited column points to keeps its `c3` value. -/
theorem reduce_foldl_c3_other (Pl : List Nat) (s : P2State) (q : Int)
    (h : ∀ j, j ∈ Pl → s.isNgbh j ≠ 0 → s.isNgbh j - 1 ≠ q) :
    (Pl.foldl (fun s j => reduceStep j s) s).c3 q = s.c3 q := by
  induction Pl generalizing s with
  | nil => rfl
  | cons x Pl ih =>
    rw [List.foldl_cons, ih, reduceStep_c3]
    · by_cases hx : s.isNgbh x ≠ 0
      · have := h x (List.mem_cons_self _ _) hx
        rw [if_neg (fun hc => this hc.2.symm)]
      · rw [if_neg (fun hc => hx hc.1)]
    · intro j hj
      rw [(reduceStep_frame x s).2.2.1]
      exact h j (List.mem_cons_of_mem _ hj)

/-- A position some visited column points to receives the counter of
that column, provided all columns pointing to it carry the same counter. -/
theorem reduce_foldl_c3_hit (Pl : List Nat) (s : P2State) (q : Int) (v : ℚ)
    (hex : ∃ j, j ∈ Pl ∧ s.isNgbh j ≠ 0 ∧ s.isNgbh j - 1 = q)
    (hall : ∀ j, j ∈ Pl → s.isNgbh j ≠ 0 → s.isNgbh j - 1 = q → s.fl j = v) :
    (Pl.foldl (fun s j => reduceStep j s) s).c3 q = v := by
  induction Pl generalizing s with
  | nil => obtain ⟨j, hj, -⟩ := hex; exact absurd hj (List.not_mem_nil j)
  | cons x Pl ih =>
    rw [List.foldl_cons]
    obtain ⟨-, g1, g2, -⟩ := reduceStep_frame x s
    by_cases hlater : ∃ j, j ∈ Pl ∧ s.isNgbh j ≠ 0 ∧ s.isNgbh j - 1 = q
    · apply ih
      · rw [g2]; exact hlater
      · intro j hj
        rw [g1, g2]
        exact hall j (List.mem_cons_of_mem _ hj)
    · rw [reduce_foldl_c3_other, reduceStep_c3]
      · obtain ⟨j, hj, hj1, hj2⟩ := hex
        rcases List.mem_cons.mp hj with rfl | hj'
        · rw [if_pos ⟨hj1, hj2.symm⟩]
          exact hall j (List.mem_cons_self _ _) hj1 hj2
        · exact absurd ⟨j, hj', hj1, hj2⟩ hlater
      · intro j hj hj1 hj2
        rw [g2] at hj1 hj2
        exact hlater ⟨j, hj, hj1, hj2⟩

/-! ## Neighbour marks -/

theorem markAll_notin (ii : Nat → Nat) (P : List Nat) (a : Nat → Int) (v : Nat)
    (h : v ∉ P.map ii) : markAll ii P a v = a v := by
  induction P generalizing a with
  | nil => rfl
  | cons p P ih =>
    have h1 : v ∉ P.map ii := fun hc => h (by simp at hc ⊢; exact Or.inr hc)
    have h2 : v ≠ ii p := fun hc => h (by simp [hc])
    show markAll ii P (setAt a (ii p) (toInt32 (p + 1))) v = a v
    rw [ih _ h1]
    simp [h2]

theorem markAll_cases (ii : Nat → Nat) (P : List Nat) (a : Nat → Int) (v : Nat) :
    markAll ii P a v = a v ∨
      ∃ p, p ∈ P ∧ ii p = v ∧ markAll ii P a v = toInt32 (p + 1) := by
  induction P generalizing a with
  | nil => exact Or.inl rfl
  | cons p P ih =>
    show markAll ii P (setAt a (ii p) (toInt32 (p + 1))) v = a v ∨
      ∃ q, q ∈ p :: P ∧ ii q = v ∧
        markAll ii P (setAt a (ii p) (toInt32 (p + 1))) v = toInt32 (q + 1)
    rcases ih (setAt a (ii p) (toInt32 (p + 1))) with h | ⟨q, hq, hqv, hm⟩
    · by_cases hv : v = ii p
      · refine Or.inr ⟨p, List.mem_cons_self _ _, hv.symm, ?_⟩
        rw [h]; simp [hv]
      · refine Or.inl ?_
        rw [h]; simp [hv]
    · exact Or.inr ⟨q, List.mem_cons_of_mem _ hq, hqv, hm⟩

theorem markAll_mem (ii : Nat → Nat) (P : List Nat) (a : Nat → Int)
    (hinj : ∀ p, p ∈ P → ∀ q, q ∈ P → ii p = ii q → p = q) (p : Nat) (hp : p ∈ P) :
    markAll ii P a (ii p) = toInt32 (p + 1) := by
  induction P generalizing a with
  | nil => exact absurd hp (List.not_mem_nil p)
  | cons x P ih =>
    show markAll ii P (setAt a (ii x) (toInt32 (x + 1))) (ii p) = toInt32 (p + 1)
    by_cases hpP : p ∈ P
    · exact ih _ (fun p hp q hq => hinj p (List.mem_cons_of_mem _ hp) q
        (List.mem_cons_of_mem _ hq)) hpP
    · have hpx : p = x := by
        rcases List.mem_cons.mp hp with h | h
        · exact h
        · exact absurd h hpP
      subst hpx
      rw [markAll_notin]
      · simp
      · intro hc
        obtain ⟨q, hq, hqe⟩ := List.mem_map.mp hc
        have := hinj q (List.mem_cons_of_mem _ hq) p (List.mem_cons_self _ _) hqe
        exact hpP (this ▸ hq)

theorem remove_neighbors_apply (a : Nat → Int) (i : Nat) (ii jStart : Nat → Nat) (v : Nat) :
    remove_neighbors a i ii jStart v =
      if v ∈ (nbrPos jStart i).map ii then 0 else a v := by
  unfold remove_neighbors
  rw [forRange_eq_foldl]
  show ((nbrPos jStart i).foldl (fun a p => setAt a (ii p) 0) a) v = _
  generalize nbrPos jStart i = P
  induction P generalizing a with
  | nil => simp
  | cons p P ih =>
    rw [List.foldl_cons, ih]
    by_cases h1 : v ∈ P.map ii <;> by_cases h2 : v = ii p
    · simp [h1]
    · simp [h1]
    · have : v ∈ (p :: P).map ii := by simp [h2]
      rw [if_neg h1, if_pos this]; simp [h2]
    · have : v ∉ (p :: P).map ii := by
        simp only [List.map_cons, List.mem_cons, not_or]
        exact ⟨h2, h1⟩
      rw [if_neg h1, if_neg this]; simp [h2]

/-! ## What one call of `p2` leaves behind -/

theorem p2_eq (f4 : ℚ) (c3 : Int → ℚ) (fl : Nat → ℚ) (pos isNgbh : Nat → Int)
    (isUsed : Nat → Nat) (i : Nat) (jStart ii : Nat → Nat) :
    p2 f4 c3 i jStart ii fl pos isNgbh isUsed =
      { p2_reduce (p2_scan i jStart ii ⟨f4, c3, fl, pos, isNgbh, isUsed, 0⟩) with
        f4 := (p2_reduce (p2_scan i jStart ii ⟨f4, c3, fl, pos, isNgbh, isUsed, 0⟩)).f4 / 2 } :=
  rfl

/-- What the scan loops leave, whatever the scratch arrays held. -/
theorem scan_frame (f4 : ℚ) (c3 : Int → ℚ) (fl : Nat → ℚ) (pos isNgbh : Nat → Int)
    (isUsed : Nat → Nat) (i : Nat) (jStart ii : Nat → Nat) :
    (p2_scan i jStart ii ⟨f4, c3, fl, pos, isNgbh, isUsed, 0⟩).isNgbh =
      markAll ii (nbrPos jStart i) isNgbh ∧
    (p2_scan i jStart ii ⟨f4, c3, fl, pos, isNgbh, isUsed, 0⟩).c3 = c3 ∧
    (p2_scan i jStart ii ⟨f4, c3, fl, pos, isNgbh, isUsed, 0⟩).f4 = f4 := by
  rw [p2_scan_eq]
  exact scan_foldl_frame i jStart ii (nbrPos jStart i) _

theorem scan_facts {n : Nat} (hn : n ≤ 2 ^ 31) (f4 : ℚ) (c3 : Int → ℚ) (fl : Nat → ℚ)
    (pos isNgbh : Nat → Int) (isUsed : Nat → Nat) (i : Nat) (jStart ii : Nat → Nat)
    (hu : ∀ j, j < n → isUsed j = 0) (hc : ColsBelow ii jStart n i) :
    Touched n (walkEnds i jStart ii (nbrPos jStart i))
      (p2_scan i jStart ii ⟨f4, c3, fl, pos, isNgbh, isUsed, 0⟩) ∧
    SameAbove n ⟨f4, c3, fl, pos, isNgbh, isUsed, 0⟩
      (p2_scan i jStart ii ⟨f4, c3, fl, pos, isNgbh, isUsed, 0⟩) := by
  rw [p2_scan_eq]
  have h0 : Touched n [] (⟨f4, c3, fl, pos, isNgbh, isUsed, 0⟩ : P2State) :=
    touched_nil _ hu rfl
  have h1 := scan_foldl_touched hn i jStart ii (nbrPos jStart i) hc [] _ h0
  rw [List.nil_append] at h1
  exact h1

theorem p2_isNgbh (f4 : ℚ) (c3 : Int → ℚ) (fl : Nat → ℚ) (pos isNgbh : Nat → Int)
    (isUsed : Nat → Nat) (i : Nat) (jStart ii : Nat → Nat) :
    (p2 f4 c3 i jStart ii fl pos isNgbh isUsed).isNgbh =
      markAll ii (nbrPos jStart i) isNgbh := by
  rw [p2_eq]
  show (p2_reduce _).isNgbh = _
  rw [p2_reduce_visited, (reduce_foldl_frame _ _).2.1, (scan_frame _ _ _ _ _ _ _ _ _).1]

/-- A position no mark points to keeps its `c3` value, whatever the scratch
arrays held. -/
theorem p2_c3_frame (f4 : ℚ) (c3 : Int → ℚ) (fl : Nat → ℚ) (pos isNgbh : Nat → Int)
    (isUsed : Nat → Nat) (i : Nat) (jStart ii : Nat → Nat) (q : Int)
    (h : ∀ j, markAll ii (nbrPos jStart i) isNgbh j ≠ 0 →
      markAll ii (nbrPos jStart i) isNgbh j - 1 ≠ q) :
    (p2 f4 c3 i jStart ii fl pos isNgbh isUsed).c3 q = c3 q := by
  obtain ⟨hN, hc, -⟩ := scan_frame f4 c3 fl pos isNgbh isUsed i jStart ii
  rw [p2_eq]
  show (p2_reduce _).c3 q = _
  rw [p2_reduce_visited, reduce_foldl_c3_other, hc]
  intro j _
  rw [hN]
  exact h j

/-- The accumulator of `p2` after the reduction loop, before the halving. -/
theorem reduce_scan_f4 {n : Nat} (hn : n ≤ 2 ^ 31) (f4 : ℚ) (c3 : Int → ℚ) (fl : Nat → ℚ)
    (pos isNgbh : Nat → Int) (isUsed : Nat → Nat) (i : Nat) (jStart ii : Nat → Nat)
    (hu : ∀ j, j < n → isUsed j = 0) (hc : ColsBelow ii jStart n i) :
    (p2_reduce (p2_scan i jStart ii ⟨f4, c3, fl, pos, isNgbh, isUsed, 0⟩)).f4 =
      f4 + ∑ j in (walkEnds i jStart ii (nbrPos jStart i)).toFinset,
        if markAll ii (nbrPos jStart i) isNgbh j ≠ 0
          then (walkCount ii jStart i j : ℚ) else 0 := by
  obtain ⟨ht, -⟩ := scan_facts hn f4 c3 fl pos isNgbh isUsed i jStart ii hu hc
  obtain ⟨hN, -, hf⟩ := scan_frame f4 c3 fl pos isNgbh isUsed i jStart ii
  rw [p2_reduce_visited, reduce_foldl_f4, hf, hN]
  congr 1
  rw [← List.sum_toFinset _ ht.nodup]
  have hset : (visited (p2_scan i jStart ii ⟨f4, c3, fl, pos, isNgbh, isUsed, 0⟩)).toFinset =
      (walkEnds i jStart ii (nbrPos jStart i)).toFinset := by
    ext j
    simp only [List.mem_toFinset]
    exact ht.mem j
  rw [hset]
  refine Finset.sum_congr rfl (fun j hj => ?_)
  rw [ht.count j (List.mem_toFinset.mp hj)]
  rfl

theorem p2_isUsed {n : Nat} (hn : n ≤ 2 ^ 31) (f4 : ℚ) (c3 : Int → ℚ) (fl : Nat → ℚ)
    (pos isNgbh : Nat → Int) (isUsed : Nat → Nat) (i : Nat) (jStart ii : Nat → Nat)
    (hu : ∀ j, j < n → isUsed j = 0) (hc : ColsBelow ii jStart n i) (j : Nat) (hj : j < n) :
    (p2 f4 c3 i jStart ii fl pos isNgbh isUsed).isUsed j = 0 := by
  obtain ⟨ht, -⟩ := scan_facts hn f4 c3 fl pos isNgbh isUsed i jStart ii hu hc
  rw [p2_eq]
  show (p2_reduce _).isUsed j = 0
  rw [p2_reduce_visited, reduce_foldl_isUsed]
  by_cases hjv : j ∈ visited (p2_scan i jStart ii ⟨f4, c3, fl, pos, isNgbh, isUsed, 0⟩)
  · rw [if_pos hjv]
  · rw [if_neg hjv, ht.used j hj, if_neg (fun hc => hjv ((ht.mem j).mpr hc))]

/-- The scratch cells at the indices `≥ n` are left as they were. -/
theorem p2_above {n : Nat} (hn : n ≤ 2 ^ 31) (f4 : ℚ) (c3 : Int → ℚ) (fl : Nat → ℚ)
    (pos isNgbh : Nat → Int) (isUsed : Nat → Nat) (i : Nat) (jStart ii : Nat → Nat)
    (hu : ∀ j, j < n → isUsed j = 0) (hc : ColsBelow ii jStart n i) :
    SameAbove n ⟨f4, c3, fl, pos, isNgbh, isUsed, 0⟩
      (p2 f4 c3 i jStart ii fl pos isNgbh isUsed) := by
  obtain ⟨ht, ha⟩ := scan_facts hn f4 c3 fl pos isNgbh isUsed i jStart ii hu hc
  intro x hx
  obtain ⟨a1, a2, a3, a4⟩ := ha x hx
  rw [p2_eq]
  show (p2_reduce _).fl x = _ ∧ (p2_reduce _).isUsed x = _ ∧ (p2_reduce _).pos x = _ ∧
    (p2_reduce _).isNgbh x = _
  rw [p2_reduce_visited]
  obtain ⟨r1, r2, r3⟩ := reduce_foldl_frame
    (visited (p2_scan i jStart ii ⟨f4, c3, fl, pos, isNgbh, isUsed, 0⟩))
    (p2_scan i jStart ii ⟨f4, c3, fl, pos, isNgbh, isUsed, 0⟩)
  rw [r1, r2, r3, reduce_foldl_isUsed]
  refine ⟨a1, ?_, a3, a4⟩
  rw [if_neg, a2]
  intro hv
  have := ht.small x ((ht.mem x).mp hv)
  omega

theorem p2_f4 {n : Nat} (hn : n ≤ 2 ^ 31) (f4 : ℚ) (c3 : Int → ℚ) (fl : Nat → ℚ)
    (pos isNgbh : Nat → Int) (isUsed : Nat → Nat) (i : Nat) (jStart ii : Nat → Nat)
    (hu : ∀ j, j < n → isUsed j = 0) (hc : ColsBelow ii jStart n i) :
    (p2 f4 c3 i jStart ii fl pos isNgbh isUsed).f4 =
      (f4 + ∑ j in (walkEnds i jStart ii (nbrPos jStart i)).toFinset,
        if markAll ii (nbrPos jStart i) isNgbh j ≠ 0
          then (walkCount ii jStart i j : ℚ) else 0) / 2 := by
  rw [p2_eq]
  show (p2_reduce _).f4 / 2 = _
  rw [reduce_scan_f4 hn f4 c3 fl pos isNgbh isUsed i jStart ii hu hc]

/-- A position that is no mark of a counted column keeps its `c3` value. -/
theorem p2_c3_other {n : Nat} (hn : n ≤ 2 ^ 31) (f4 : ℚ) (c3 : Int → ℚ) (fl : Nat → ℚ)
    (pos isNgbh : Nat → Int) (isUsed : Nat → Nat) (i : Nat) (jStart ii : Nat → Nat)
    (hu : ∀ j, j < n → isUsed j = 0) (hc : ColsBelow ii jStart n i) (q : Int)
    (h : ∀ j, j ∈ walkEnds i jStart ii (nbrPos jStart i) →
      markAll ii (nbrPos jStart i) isNgbh j ≠ 0 →
      markAll ii (nbrPos jStart i) isNgbh j - 1 ≠ q) :
    (p2 f4 c3 i jStart ii fl pos isNgbh isUsed).c3 q = c3 q := by
  obtain ⟨ht, -⟩ := scan_facts hn f4 c3 fl pos isNgbh isUsed i jStart ii hu hc
  obtain ⟨hN, hc3, -⟩ := scan_frame f4 c3 fl pos isNgbh isUsed i jStart ii
  rw [p2_eq]
  show (p2_reduce _).c3 q = _
  rw [p2_reduce_visited, reduce_foldl_c3_other, hc3]
  intro j hj
  rw [hN]
  exact h j ((ht.mem j).mp hj)

/-- The position marked for a counted column `j`, and for no other counted
column, receives the walk count of `j`. -/
theorem p2_c3_hit {n : Nat} (hn : n ≤ 2 ^ 31) (f4 : ℚ) (c3 : Int → ℚ) (fl : Nat → ℚ)
    (pos isNgbh : Nat → Int) (isUsed : Nat → Nat) (i : Nat) (jStart ii : Nat → Nat)
    (hu : ∀ j, j < n → isUsed j = 0) (hc : ColsBelow ii jStart n i) (q : Int) (j : Nat)
    (hj : j ∈ walkEnds i jStart ii (nbrPos jStart i))
    (hm : markAll ii (nbrPos jStart i) isNgbh j ≠ 0)
    (hq : markAll ii (nbrPos jStart i) isNgbh j - 1 = q)
    (huniq : ∀ k, k ∈ walkEnds i jStart ii (nbrPos jStart i) →
      markAll ii (nbrPos jStart i) isNgbh k ≠ 0 →
      markAll ii (nbrPos jStart i) isNgbh k - 1 = q → k = j) :
    (p2 f4 c3 i jStart ii fl pos isNgbh isUsed).c3 q = (walkCount ii jStart i j : ℚ) := by
  obtain ⟨ht, -⟩ := scan_facts hn f4 c3 fl pos isNgbh isUsed i jStart ii hu hc
  obtain ⟨hN, -, -⟩ := scan_frame f4 c3 fl pos isNgbh isUsed i jStart ii
  rw [p2_eq]
  show (p2_reduce _).c3 q = _
  rw [p2_reduce_visited]
  apply reduce_foldl_c3_hit
  · rw [hN]
    exact ⟨j, (ht.mem j).mpr hj, hm, hq⟩
  · intro k hk
    rw [hN]
    intro hk1 hk2
    have hkw := (ht.mem k).mp hk
    rw [huniq k hkw hk1 hk2, ht.count j hj]
    rfl

/-! ## The counters of `p2` are non-negative -/

theorem touch_fl_nonneg (i j : Nat) (s : P2State) (h : ∀ x, 0 ≤ s.fl x) :
    ∀ x, 0 ≤ (touch i j s).fl x := by
  intro x
  unfold touch
  by_cases hij : i = j
  · simp only [hij, if_true]; exact h x
  · by_cases hu : s.isUsed j = 0 <;> by_cases hx : x = j <;> simp [hij, hu, hx, h x]
    exact add_nonneg (h j) zero_le_one

theorem touch_foldl_fl_nonneg (i : Nat) (L : List Nat) (s : P2State)
    (h : ∀ x, 0 ≤ s.fl x) : ∀ x, 0 ≤ (L.foldl (fun s j => touch i j s) s).fl x := by
  induction L generalizing s with
  | nil => exact h
  | cons a L ih => exact ih _ (touch_fl_nonneg i a s h)

theorem scan_foldl_fl_nonneg (i : Nat) (jStart ii : Nat → Nat) (P : List Nat) (s : P2State)
    (h : ∀ x, 0 ≤ s.fl x) : ∀ x, 0 ≤ (P.foldl (scanStep i jStart ii) s).fl x := by
  induction P generalizing s with
  | nil => exact h
  | cons p P ih => exact ih _ (touch_foldl_fl_nonneg i _ _ h)

/-- On non-negative counters `p2` leaves non-negative counters and a
non-negative `*f4_i`. -/
theorem p2_nonneg (f4 : ℚ) (c3 : Int → ℚ) (fl : Nat → ℚ) (pos isNgbh : Nat → Int)
    (isUsed : Nat → Nat) (i : Nat) (jStart ii : Nat → Nat) (hf : 0 ≤ f4)
    (hfl : ∀ x, 0 ≤ fl x) :
    0 ≤ (p2 f4 c3 i jStart ii fl pos isNgbh isUsed).f4 ∧
      ∀ x, 0 ≤ (p2 f4 c3 i jStart ii fl pos isNgbh isUsed).fl x := by
  have h1 : ∀ x, 0 ≤ (p2_scan i jStart ii ⟨f4, c3, fl, pos, isNgbh, isUsed, 0⟩).fl x := by
    rw [p2_scan_eq]
    exact scan_foldl_fl_nonneg i jStart ii _ _ hfl
  obtain ⟨-, -, h4⟩ := scan_frame f4 c3 fl pos isNgbh isUsed i jStart ii
  rw [p2_eq]
  constructor
  · show 0 ≤ (p2_reduce _).f4 / 2
    rw [p2_reduce_visited, reduce_foldl_f4, h4]
    apply div_nonneg _ (by norm_num)
    apply add_nonneg hf
    apply List.sum_nonneg
    intro y hy
    obtain ⟨j, -, rfl⟩ := List.mem_map.mp hy
    split_ifs
    · exact h1 j
    · exact le_refl 0
  · intro x
    show 0 ≤ (p2_reduce _).fl x
    rw [p2_reduce_visited, (reduce_foldl_frame _ _).1]
    exact h1 x

/-! ## The scratch arrays do not depend on `*f4_i` -/

theorem touch_f4 (i j : Nat) (s : P2State) (x : ℚ) :
    touch i j { s with f4 := x } = { touch i j s with f4 := x } := by
  unfold touch
  by_cases hij : i = j
  · simp [hij]
  · by_cases hu : s.isUsed j = 0 <;> simp [hij, hu]

theorem touch_foldl_f4 (i : Nat) (L : List Nat) (s : P2State) (x : ℚ) :
    L.foldl (fun s j => touch i j s) { s with f4 := x } =
      { L.foldl (fun s j => touch i j s) s with f4 := x } := by
  induction L generalizing s with
  | nil => rfl
  | cons a L ih => rw [List.foldl_cons, List.foldl_cons, touch_f4, ih]

theorem scanStep_f4 (i : Nat) (jStart ii : Nat → Nat) (s : P2State) (p : Nat) (x : ℚ) :
    scanStep i jStart ii { s with f4 := x } p = { scanStep i jStart ii s p with f4 := x } := by
  unfold scanStep
  exact touch_foldl_f4 i _ { s with isNgbh := setAt s.isNgbh (ii p) (toInt32 (p + 1)) } x

theorem scan_foldl_f4 (i : Nat) (jStart ii : Nat → Nat) (P : List Nat) (s : P2State)
    (x : ℚ) :
    P.foldl (scanStep i jStart ii) { s with f4 := x } =
      { P.foldl (scanStep i jStart ii) s with f4 := x } := by
  induction P generalizing s with
  | nil => rfl
  | cons p P ih => rw [List.foldl_cons, List.foldl_cons, scanStep_f4, ih]

theorem reduceStep_f4 (j : Nat) (s : P2State) (x : ℚ) :
    reduceStep j { s with f4 := s.f4 + x } =
      { reduceStep j s with f4 := (reduceStep j s).f4 + x } := by
  unfold reduceStep
  by_cases h : s.isNgbh j ≠ 0
  · simp [h, add_right_comm]
  · simp [h]

theorem reduce_foldl_add_f4 (Pl : List Nat) (s : P2State) (x : ℚ) :
    Pl.foldl (fun s j => reduceStep j s) { s with f4 := s.f4 + x } =
      { Pl.foldl (fun s j => reduceStep j s) s with
        f4 := (Pl.foldl (fun s j => reduceStep j s) s).f4 + x } := by
  induction Pl generalizing s with
  | nil => rfl
  | cons a Pl ih =>
    rw [List.foldl_cons, List.foldl_cons, reduceStep_f4]
    exact ih (reduceStep a s)

/-- The cell `*f4_i` enters `p2` only through the halved sum: the call on
the entry value `x` leaves `x / 2` plus what the call on `0` leaves, and the
same buffer and scratch arrays. -/
theorem p2_entry (x : ℚ) (c3 : Int → ℚ) (fl : Nat → ℚ) (pos isNgbh : Nat → Int)
    (isUsed : Nat → Nat) (i : Nat) (jStart ii : Nat → Nat) :
    p2 x c3 i jStart ii fl pos isNgbh isUsed =
      { p2 0 c3 i jStart ii fl pos isNgbh isUsed with
        f4 := x / 2 + (p2 0 c3 i jStart ii fl pos isNgbh isUsed).f4 } := by
  have hs : p2_scan i jStart ii ⟨x, c3, fl, pos, isNgbh, isUsed, 0⟩ =
      { p2_scan i jStart ii ⟨0, c3, fl, pos, isNgbh, isUsed, 0⟩ with f4 := x } := by
    rw [p2_scan_eq, p2_scan_eq]
    exact scan_foldl_f4 i jStart ii _ ⟨0, c3, fl, pos, isNgbh, isUsed, 0⟩ x
  have h0 : (p2_scan i jStart ii ⟨0, c3, fl, pos, isNgbh, isUsed, 0⟩).f4 = 0 :=
    (scan_frame 0 c3 fl pos isNgbh isUsed i jStart ii).2.2
  have hr : p2_reduce (p2_scan i jStart ii ⟨x, c3, fl, pos, isNgbh, isUsed, 0⟩) =
      { p2_reduce (p2_scan i jStart ii ⟨0, c3, fl, pos, isNgbh, isUsed, 0⟩) with
        f4 := (p2_reduce (p2_scan i jStart ii ⟨0, c3, fl, pos, isNgbh, isUsed, 0⟩)).f4 + x } := by
    rw [hs, p2_reduce_visited, p2_reduce_visited]
    have hv : visited { p2_scan i jStart ii ⟨0, c3, fl, pos, isNgbh, isUsed, 0⟩ with f4 := x } =
        visited (p2_scan i jStart ii ⟨0, c3, fl, pos, isNgbh, isUsed, 0⟩) := rfl
    rw [hv]
    have := reduce_foldl_add_f4
      (visited (p2_scan i jStart ii ⟨0, c3, fl, pos, isNgbh, isUsed, 0⟩))
      (p2_scan i jStart ii ⟨0, c3, fl, pos, isNgbh, isUsed, 0⟩) x
    rw [h0, zero_add] at this
    exact this
  rw [p2_eq, p2_eq, hr]
  simp only [P2State.mk.injEq, and_true, true_and]
  ring

/-! ## One iteration of the raw-count loop on clean scratch arrays -/

theorem col_lt {ii jStart : Nat → Nat} {n : Nat} (hmono : MonoOffsets jStart n)
    (hcols : ColsInRange ii jStart n) {i : Nat} (hi : i < n) {p : Nat}
    (hp : p ∈ Finset.Ico (jStart i) (jStart (i + 1))) : ii p < n :=
  hcols p (lt_of_lt_of_le (Finset.mem_Ico.mp hp).2 (mono_le hmono n le_rfl (i + 1) hi))

/-- On a well-formed input the columns met for a vertex are below `n`. -/
theorem colsBelow_of {ii jStart : Nat → Nat} {n : Nat} (hmono : MonoOffsets jStart n)
    (hcols : ColsInRange ii jStart n) {i : Nat} (hi : i < n) : ColsBelow ii jStart n i := by
  intro p hp
  have hk : ii p < n := col_lt hmono hcols hi (Finset.mem_Ico.mpr (mem_nbrPos.mp hp))
  exact ⟨hk, fun q hq => col_lt hmono hcols hk (Finset.mem_Ico.mpr (mem_nbrPos.mp hq))⟩

/-- On a well-formed input with fewer than `2^31` adjacency entries every
vertex fits the scratch arrays. -/
theorem fits_of {ii jStart : Nat → Nat} {n m : Nat} (hmono : MonoOffsets jStart n)
    (hcols : ColsInRange ii jStart n) (hstop : jStart n = m) (hm : m < 2 ^ 31) {i : Nat}
    (hi : i < n) : Fits ii jStart n i := by
  refine ⟨colsBelow_of hmono hcols hi, ?_⟩
  have := mono_le hmono n le_rfl (i + 1) hi
  omega

theorem mem_walkEnds_lt {ii jStart : Nat → Nat} {n i : Nat} (hc : ColsBelow ii jStart n i)
    {j : Nat} (hj : j ∈ walkEnds i jStart ii (nbrPos jStart i)) : j < n := by
  unfold walkEnds at hj
  obtain ⟨p, hp, hjp⟩ := List.mem_flatMap.mp hj
  obtain ⟨q, hq, rfl⟩ := List.mem_map.mp (List.mem_filter.mp hjp).1
  exact (hc p hp).2 q hq

theorem step_clean {n : Nat} (hn : n ≤ 2 ^ 31) (ii jStart : Nat → Nat) (i : Nat)
    (s : PassState) (h : Clean n s) (hc : ColsBelow ii jStart n i) :
    Clean n (firstPassStep ii jStart i s) := by
  refine ⟨fun j hj => p2_isUsed hn _ _ _ _ _ _ _ _ _ h.1 hc j hj, fun v hv => ?_⟩
  show remove_neighbors (p2 (s.f 4 i) s.c3 i jStart ii s.fl s.pos s.isNgbh s.isUsed).isNgbh
    i ii jStart v = 0
  rw [remove_neighbors_apply]
  by_cases hvm : v ∈ (nbrPos jStart i).map ii
  · rw [if_pos hvm]
  · rw [if_neg hvm, p2_isNgbh, markAll_notin _ _ _ _ hvm, h.2 v hv]

/-- The marks are cleared again whatever the columns are. -/
theorem step_noMarks (ii jStart : Nat → Nat) (i : Nat) (s : PassState) (h : NoMarks s) :
    NoMarks (firstPassStep ii jStart i s) := by
  intro v
  show remove_neighbors (p2 (s.f 4 i) s.c3 i jStart ii s.fl s.pos s.isNgbh s.isUsed).isNgbh
    i ii jStart v = 0
  rw [remove_neighbors_apply]
  by_cases hvm : v ∈ (nbrPos jStart i).map ii
  · rw [if_pos hvm]
  · rw [if_neg hvm, p2_isNgbh, markAll_notin _ _ _ _ hvm, h v]

theorem mark_zero_cases (ii : Nat → Nat) (P : List Nat) (a : Nat → Int) (j : Nat)
    (ha : a j = 0) (hj : markAll ii P a j ≠ 0) :
    ∃ p, p ∈ P ∧ ii p = j ∧ markAll ii P a j = toInt32 (p + 1) := by
  rcases markAll_cases ii P a j with h | h
  · exact absurd (h.trans ha) hj
  · exact h

/-- A mark of vertex `i` points to a position of its adjacency range. -/
theorem mark_pos {ii jStart : Nat → Nat} {i : Nat} (hm : jStart (i + 1) < 2 ^ 31)
    (a : Nat → Int) (j : Nat) (ha : a j = 0)
    (hj : markAll ii (nbrPos jStart i) a j ≠ 0) :
    ∃ p, p ∈ nbrPos jStart i ∧ ii p = j ∧
      markAll ii (nbrPos jStart i) a j - 1 = (p : Int) := by
  obtain ⟨p, hp, hpj, hN⟩ := mark_zero_cases ii _ a j ha hj
  refine ⟨p, hp, hpj, ?_⟩
  rw [hN]
  exact toInt32_succ_sub_one (by have := (mem_nbrPos.mp hp).2; omega)

/-- Without marks on entry, the iteration of vertex `i` writes `c3` only at
the `int` values of the marks of `i`, whatever the columns are. -/
theorem step_c3_frame (ii jStart : Nat → Nat) (i : Nat) (s : PassState) (h : NoMarks s)
    (q : Int) (hq : ∀ p, p ∈ nbrPos jStart i → toInt32 (p + 1) - 1 ≠ q) :
    (firstPassStep ii jStart i s).c3 q = s.c3 q := by
  show (p2 (s.f 4 i) s.c3 i jStart ii s.fl s.pos s.isNgbh s.isUsed).c3 q = s.c3 q
  apply p2_c3_frame
  intro j hm
  obtain ⟨p, hp, -, hN⟩ := mark_zero_cases ii _ _ j (h j) hm
  rw [hN]
  exact hq p hp

/-- On clean flags the iteration of a vertex that fits writes `c3` only
at the positions of its adjacency range. -/
theorem step_c3_outside {n : Nat} (hn : n ≤ 2 ^ 31) (ii jStart : Nat → Nat) (i : Nat)
    (s : PassState) (h : Clean n s) (hf : Fits ii jStart n i)
    (q : Int) (hq : ∀ p, p ∈ nbrPos jStart i → (p : Int) ≠ q) :
    (firstPassStep ii jStart i s).c3 q = s.c3 q := by
  show (p2 (s.f 4 i) s.c3 i jStart ii s.fl s.pos s.isNgbh s.isUsed).c3 q = s.c3 q
  apply p2_c3_other hn _ _ _ _ _ _ _ _ _ h.1 hf.cols
  intro j hjw hm he
  obtain ⟨p, hp, -, hN⟩ := mark_pos hf.marks s.isNgbh j (h.2 j (mem_walkEnds_lt hf.cols hjw)) hm
  rw [hN] at he
  exact hq p hp he

theorem step_c3_other {n : Nat} (hn : n ≤ 2 ^ 31) (ii jStart : Nat → Nat) (i : Nat)
    (s : PassState) (h : Clean n s) (hf : Fits ii jStart n i)
    (q : Nat) (hq : q ∉ nbrPos jStart i) :
    (firstPassStep ii jStart i s).c3 (q : Int) = s.c3 (q : Int) := by
  apply step_c3_outside hn ii jStart i s h hf
  intro p hp he
  have : p = q := by exact_mod_cast he
  exact hq (this ▸ hp)

theorem step_c3_hit {n : Nat} (hn : n ≤ 2 ^ 31) (ii jStart : Nat → Nat) (i : Nat)
    (s : PassState) (h : Clean n s) (hf : Fits ii jStart n i)
    (hd : DistinctNbrs ii jStart i) (p : Nat) (hp : p ∈ nbrPos jStart i)
    (h0 : s.c3 (p : Int) = 0) :
    (firstPassStep ii jStart i s).c3 (p : Int) = (walkCount ii jStart i (ii p) : ℚ) := by
  show (p2 (s.f 4 i) s.c3 i jStart ii s.fl s.pos s.isNgbh s.isUsed).c3 p = _
  have hone : ∀ k, k ∈ walkEnds i jStart ii (nbrPos jStart i) →
      markAll ii (nbrPos jStart i) s.isNgbh k ≠ 0 →
      markAll ii (nbrPos jStart i) s.isNgbh k - 1 = (p : Int) → k = ii p := by
    intro k hkw hk1 hk2
    obtain ⟨p', -, hp'k, hN⟩ :=
      mark_pos hf.marks s.isNgbh k (h.2 k (mem_walkEnds_lt hf.cols hkw)) hk1
    rw [hN] at hk2
    have : p' = p := by exact_mod_cast hk2
    rw [← hp'k, this]
  have hp31 : p + 1 < 2 ^ 31 := by have := (mem_nbrPos.mp hp).2; have := hf.marks; omega
  by_cases hj : ii p ∈ walkEnds i jStart ii (nbrPos jStart i)
  · have hN := markAll_mem ii (nbrPos jStart i) s.isNgbh hd p hp
    exact p2_c3_hit hn _ _ _ _ _ _ _ _ _ h.1 hf.cols p (ii p) hj
      (by rw [hN]; exact toInt32_succ_ne_zero hp31)
      (by rw [hN]; exact toInt32_succ_sub_one hp31) hone
  · rw [p2_c3_other hn _ _ _ _ _ _ _ _ _ h.1 hf.cols, h0]
    · unfold walkCount
      rw [List.count_eq_zero_of_not_mem hj]
      simp
    · intro j hjw hm he
      exact hj (hone j hjw hm he ▸ hjw)

theorem walkCount_eq_zero (ii jStart : Nat → Nat) (i j : Nat)
    (h : j ∉ walkEnds i jStart ii (nbrPos jStart i)) : walkCount ii jStart i j = 0 :=
  List.count_eq_zero_of_not_mem h

theorem step_f4_value {n : Nat} (hn : n ≤ 2 ^ 31) (ii jStart : Nat → Nat) (i : Nat)
    (s : PassState) (h : Clean n s) (hf : Fits ii jStart n i)
    (hd : DistinctNbrs ii jStart i) :
    (p2 (s.f 4 i) s.c3 i jStart ii s.fl s.pos s.isNgbh s.isUsed).f4 =
      (s.f 4 i + ∑ p in Finset.Ico (jStart i) (jStart (i + 1)),
        (walkCount ii jStart i (ii p) : ℚ)) / 2 := by
  rw [p2_f4 hn _ _ _ _ _ _ _ _ _ h.1 hf.cols]
  congr 2
  have hmark : ∀ j, j ∈ (walkEnds i jStart ii (nbrPos jStart i)).toFinset →
      (markAll ii (nbrPos jStart i) s.isNgbh j ≠ 0 ↔
        j ∈ ((nbrPos jStart i).map ii).toFinset) := by
    intro j hjw
    rw [List.mem_toFinset, List.mem_map]
    constructor
    · intro hm
      obtain ⟨p, hp, hpj, -⟩ := mark_zero_cases ii _ _ j
        (h.2 j (mem_walkEnds_lt hf.cols (List.mem_toFinset.mp hjw))) hm
      exact ⟨p, hp, hpj⟩
    · rintro ⟨p, hp, rfl⟩
      rw [markAll_mem ii _ _ hd p hp]
      exact toInt32_succ_ne_zero (by have := (mem_nbrPos.mp hp).2; have := hf.marks; omega)
  have hnd : ((nbrPos jStart i).map ii).Nodup :=
    (List.nodup_map_iff_inj_on (nodup_nbrPos jStart i)).mpr
      (fun p hp q hq e => hd p hp q hq e)
  rw [← sum_map_nbrPos jStart i (fun p => (walkCount ii jStart i (ii p) : ℚ)),
    show (nbrPos jStart i).map (fun p => (walkCount ii jStart i (ii p) : ℚ)) =
      ((nbrPos jStart i).map ii).map (fun k => (walkCount ii jStart i k : ℚ)) by
      rw [List.map_map]; rfl,
    ← List.sum_toFinset _ hnd]
  have hl : ∑ j in (walkEnds i jStart ii (nbrPos jStart i)).toFinset,
      (if markAll ii (nbrPos jStart i) s.isNgbh j ≠ 0
        then (walkCount ii jStart i j : ℚ) else 0) =
      ∑ j in (walkEnds i jStart ii (nbrPos jStart i)).toFinset,
        if j ∈ ((nbrPos jStart i).map ii).toFinset
          then (walkCount ii jStart i j : ℚ) else 0 := by
    refine Finset.sum_congr rfl (fun j hj => ?_)
    by_cases hm : markAll ii (nbrPos jStart i) s.isNgbh j ≠ 0
    · rw [if_pos hm, if_pos ((hmark j hj).mp hm)]
    · rw [if_neg hm, if_neg (fun hc => hm ((hmark j hj).mpr hc))]
  rw [hl, Finset.sum_ite_mem]
  have hr : ∑ k in ((nbrPos jStart i).map ii).toFinset, (walkCount ii jStart i k : ℚ) =
      ∑ k in ((nbrPos jStart i).map ii).toFinset,
        if k ∈ (walkEnds i jStart ii (nbrPos jStart i)).toFinset
          then (walkCount ii jStart i k : ℚ) else 0 := by
    refine Finset.sum_congr rfl (fun k _ => ?_)
    by_cases hk : k ∈ (walkEnds i jStart ii (nbrPos jStart i)).toFinset
    · rw [if_pos hk]
    · rw [if_neg hk, walkCount_eq_zero ii jStart i k (fun hc => hk (List.mem_toFinset.mpr hc))]
      simp
  rw [hr, Finset.sum_ite_mem, Finset.inter_comm]

/-! ## The raw-count loop over a list of vertices -/

theorem fold_clean_cols {n : Nat} (hn : n ≤ 2 ^ 31) (ii jStart : Nat → Nat)
    (vs : List Nat) (s : PassState) (h : Clean n s)
    (hvs : ∀ v, v ∈ vs → ColsBelow ii jStart n v) :
    Clean n (passFold ii jStart vs s) := by
  induction vs generalizing s with
  | nil => exact h
  | cons x vs ih =>
    exact ih _ (step_clean hn ii jStart x s h (hvs x (List.mem_cons_self _ _)))
      (fun v hv => hvs v (List.mem_cons_of_mem _ hv))

theorem fold_clean {n : Nat} (hn : n ≤ 2 ^ 31) (ii jStart : Nat → Nat) (vs : List Nat)
    (s : PassState) (h : Clean n s) (hvs : ∀ v, v ∈ vs → Fits ii jStart n v) :
    Clean n (passFold ii jStart vs s) :=
  fold_clean_cols hn ii jStart vs s h (fun v hv => (hvs v hv).cols)

theorem fold_noMarks (ii jStart : Nat → Nat) (vs : List Nat) (s : PassState)
    (h : NoMarks s) : NoMarks (passFold ii jStart vs s) := by
  induction vs generalizing s with
  | nil => exact h
  | cons x vs ih => exact ih _ (step_noMarks ii jStart x s h)

/-- Without marks on entry, the iterations of the vertices of `vs` leave a
`c3` position alone that is the `int` value of none of their marks. -/
theorem fold_c3_frame (ii jStart : Nat → Nat) (vs : List Nat) (s : PassState)
    (h : NoMarks s) (q : Int)
    (hq : ∀ v, v ∈ vs → ∀ p, p ∈ nbrPos jStart v → toInt32 (p + 1) - 1 ≠ q) :
    (passFold ii jStart vs s).c3 q = s.c3 q := by
  induction vs generalizing s with
  | nil => rfl
  | cons x vs ih =>
    rw [passFold_cons, ih _ (step_noMarks ii jStart x s h)
      (fun v hv => hq v (List.mem_cons_of_mem _ hv)),
      step_c3_frame ii jStart x s h q (hq x (List.mem_cons_self _ _))]

theorem fold_c3_outside {n : Nat} (hn : n ≤ 2 ^ 31) (ii jStart : Nat → Nat)
    (vs : List Nat) (s : PassState) (h : Clean n s)
    (hvs : ∀ v, v ∈ vs → Fits ii jStart n v)
    (q : Int) (hq : ∀ v, v ∈ vs → ∀ p, p ∈ nbrPos jStart v → (p : Int) ≠ q) :
    (passFold ii jStart vs s).c3 q = s.c3 q := by
  induction vs generalizing s with
  | nil => rfl
  | cons x vs ih =>
    have hx := hvs x (List.mem_cons_self _ _)
    rw [passFold_cons, ih _ (step_clean hn ii jStart x s h hx.cols)
      (fun v hv => hvs v (List.mem_cons_of_mem _ hv))
      (fun v hv => hq v (List.mem_cons_of_mem _ hv)),
      step_c3_outside hn ii jStart x s h hx q (hq x (List.mem_cons_self _ _))]

theorem fold_c3_other {n : Nat} (hn : n ≤ 2 ^ 31) (ii jStart : Nat → Nat) (vs : List Nat)
    (s : PassState) (h : Clean n s) (hvs : ∀ v, v ∈ vs → Fits ii jStart n v)
    (q : Nat) (hq : ∀ v, v ∈ vs → q ∉ nbrPos jStart v) :
    (passFold ii jStart vs s).c3 (q : Int) = s.c3 (q : Int) := by
  apply fold_c3_outside hn ii jStart vs s h hvs
  intro v hv p hp he
  have : p = q := by exact_mod_cast he
  exact hq v hv (this ▸ hp)

theorem fold_c3_hit {n : Nat} (hn : n ≤ 2 ^ 31) (ii jStart : Nat → Nat)
    (pre post : List Nat) (i : Nat) (s : PassState) (h : Clean n s)
    (hvs : ∀ v, v ∈ pre ++ i :: post → Fits ii jStart n v)
    (hd : DistinctNbrs ii jStart i) (p : Nat)
    (hp : p ∈ nbrPos jStart i) (h0 : s.c3 (p : Int) = 0)
    (hpre : ∀ v, v ∈ pre → p ∉ nbrPos jStart v)
    (hpost : ∀ v, v ∈ post → p ∉ nbrPos jStart v) :
    (passFold ii jStart (pre ++ i :: post) s).c3 (p : Int) =
      (walkCount ii jStart i (ii p) : ℚ) := by
  have hvpre : ∀ v, v ∈ pre → Fits ii jStart n v :=
    fun v hv => hvs v (List.mem_append_left _ hv)
  have hvi : Fits ii jStart n i := hvs i (by simp)
  have hvpost : ∀ v, v ∈ post → Fits ii jStart n v :=
    fun v hv => hvs v (List.mem_append_right _ (List.mem_cons_of_mem _ hv))
  have hc := fold_clean hn ii jStart pre s h hvpre
  rw [passFold_append, passFold_cons,
    fold_c3_other hn ii jStart post _ (step_clean hn ii jStart i _ hc hvi.cols) hvpost p hpost]
  apply step_c3_hit hn ii jStart i _ hc hvi hd p hp
  rw [fold_c3_other hn ii jStart pre s h hvpre p hpre, h0]

theorem fold_f4 {n : Nat} (hn : n ≤ 2 ^ 31) (ii jStart : Nat → Nat) (pre post : List Nat)
    (i : Nat) (s : PassState) (h : Clean n s)
    (hvs : ∀ v, v ∈ pre ++ i :: post → Fits ii jStart n v)
    (hd : DistinctNbrs ii jStart i)
    (hpre : i ∉ pre) (hpost : i ∉ post) :
    (passFold ii jStart (pre ++ i :: post) s).f 4 i =
      (s.f 4 i + ∑ p in Finset.Ico (jStart i) (jStart (i + 1)),
        (walkCount ii jStart i (ii p) : ℚ)) / 2 := by
  have hvpre : ∀ v, v ∈ pre → Fits ii jStart n v :=
    fun v hv => hvs v (List.mem_append_left _ hv)
  have hvi : Fits ii jStart n i := hvs i (by simp)
  rw [fold_f_col _ _ _ _ _ _ _ hpost, step_f4,
    step_f4_value hn ii jStart i _ (fold_clean hn ii jStart pre s h hvpre) hvi hd,
    fold_f_notin _ _ _ _ _ _ hpre]

theorem nbrPos_disjoint {jStart : Nat → Nat} {n : Nat} (hmono : MonoOffsets jStart n)
    {v i : Nat} (hv : v < n) (hi : i < n) (hne : v ≠ i) {p : Nat}
    (hp : p ∈ nbrPos jStart i) : p ∉ nbrPos jStart v := by
  intro hpv
  rw [mem_nbrPos] at hp hpv
  rcases Nat.lt_or_gt_of_ne hne with hlt | hgt
  · have := mono_le hmono i (le_of_lt hi) (v + 1) hlt
    omega
  · have := mono_le hmono v (le_of_lt hv) (i + 1) hgt
    omega

theorem clean_init (n : Nat) (f : Mat) :
    Clean n ⟨f, fun _ => 0, fun _ => 0, fun _ => 0, fun _ => 0, fun _ => 0⟩ :=
  ⟨fun _ _ => rfl, fun _ _ => rfl⟩

theorem noMarks_init (f : Mat) :
    NoMarks ⟨f, fun _ => 0, fun _ => 0, fun _ => 0, fun _ => 0, fun _ => 0⟩ :=
  fun _ => rfl

/-- After the raw-count loop, the `c3` entry at an adjacency position of
vertex `i` is the walk count of its column. -/
theorem rawPass_c3 (f : Mat) (ii jStart : Nat → Nat) (n m : Nat)
    (hmono : MonoOffsets jStart n) (hcols : ColsInRange ii jStart n) (hstop : jStart n = m)
    (hn : n ≤ 2 ^ 31) (hm : m < 2 ^ 31) (i : Nat) (hi : i < n)
    (hd : DistinctNbrs ii jStart i) (p : Nat) (hp : p ∈ nbrPos jStart i) :
    (rawPass f ii jStart n).c3 (p : Int) = (walkCount ii jStart i (ii p) : ℚ) := by
  obtain ⟨pre, post, hsplit, hpre, hpost⟩ :=
    split_of_mem_nodup (List.nodup_range n) (List.mem_range.mpr hi)
  have hmem : ∀ v, v ∈ pre ∨ v ∈ post → v < n := by
    intro v hv
    apply List.mem_range.mp
    rw [hsplit]
    rcases hv with hv | hv
    · exact List.mem_append_left _ hv
    · exact List.mem_append_right _ (List.mem_cons_of_mem _ hv)
  have hfit : ∀ v, v ∈ pre ++ i :: post → Fits ii jStart n v := by
    intro v hv
    rw [← hsplit] at hv
    exact fits_of hmono hcols hstop hm (List.mem_range.mp hv)
  rw [rawPass_eq, hsplit]
  apply fold_c3_hit hn ii jStart pre post i _ (clean_init n f) hfit hd p hp rfl
  · intro v hv
    exact nbrPos_disjoint hmono (hmem v (Or.inl hv)) hi (fun e => hpre (e ▸ hv)) hp
  · intro v hv
    exact nbrPos_disjoint hmono (hmem v (Or.inr hv)) hi (fun e => hpost (e ▸ hv)) hp

/-- After the raw-count loop, `f[4][i]` is half the entry value plus the
walk counts of the columns of vertex `i`. -/
theorem rawPass_f4 (f : Mat) (ii jStart : Nat → Nat) (n m : Nat)
    (hmono : MonoOffsets jStart n) (hcols : ColsInRange ii jStart n) (hstop : jStart n = m)
    (hn : n ≤ 2 ^ 31) (hm : m < 2 ^ 31) (i : Nat) (hi : i < n)
    (hd : DistinctNbrs ii jStart i) :
    (rawPass f ii jStart n).f 4 i =
      (f 4 i + ∑ p in Finset.Ico (jStart i) (jStart (i + 1)),
        (walkCount ii jStart i (ii p) : ℚ)) / 2 := by
  obtain ⟨pre, post, hsplit, hpre, hpost⟩ :=
    split_of_mem_nodup (List.nodup_range n) (List.mem_range.mpr hi)
  have hfit : ∀ v, v ∈ pre ++ i :: post → Fits ii jStart n v := by
    intro v hv
    rw [← hsplit] at hv
    exact fits_of hmono hcols hstop hm (List.mem_range.mp hv)
  rw [rawPass_eq, hsplit]
  exact fold_f4 hn ii jStart pre post i _ (clean_init n f) hfit hd hpre hpost

/-! ## Adjacency in a well-formed simple graph -/

theorem adjacent_iff_mem (ii jStart : Nat → Nat) (i j : Nat) :
    adjacent ii jStart i j ↔ j ∈ (nbrPos jStart i).map ii := by
  unfold adjacent
  rw [List.mem_map]
  constructor
  · rintro ⟨p, h1, h2, h3⟩
    exact ⟨p, mem_nbrPos.mpr ⟨h2, h1⟩, h3⟩
  · rintro ⟨p, hp, h3⟩
    obtain ⟨h2, h1⟩ := mem_nbrPos.mp hp
    exact ⟨p, h1, h2, h3⟩

theorem adjacent_iff_Ico (ii jStart : Nat → Nat) (i j : Nat) :
    adjacent ii jStart i j ↔ ∃ p, p ∈ Finset.Ico (jStart i) (jStart (i + 1)) ∧ ii p = j := by
  unfold adjacent
  constructor
  · rintro ⟨p, h1, h2, h3⟩
    exact ⟨p, Finset.mem_Ico.mpr ⟨h2, h1⟩, h3⟩
  · rintro ⟨p, hp, h3⟩
    obtain ⟨h2, h1⟩ := Finset.mem_Ico.mp hp
    exact ⟨p, h1, h2, h3⟩

section Simple

variable {ii jStart : Nat → Nat} {n m : Nat}

theorem SimpleCSR.distinct (h : SimpleCSR ii jStart n m) {i : Nat} (hi : i < n) :
    DistinctNbrs ii jStart i := by
  intro p hp q hq e
  obtain ⟨hp1, hp2⟩ := mem_nbrPos.mp hp
  obtain ⟨hq1, hq2⟩ := mem_nbrPos.mp hq
  exact h.noDup i hi p hp2 q hq2 ⟨hp1, hq1, e⟩

theorem SimpleCSR.adj_lt (h : SimpleCSR ii jStart n m) {i j : Nat} (hi : i < n)
    (ha : adjacent ii jStart i j) : j < n := by
  obtain ⟨p, h1, -, h3⟩ := ha
  rw [← h3]
  exact h.cols p (lt_of_lt_of_le h1 (mono_le h.mono n le_rfl (i + 1) hi))

theorem SimpleCSR.adj_symm (h : SimpleCSR ii jStart n m) {i j : Nat} (hi : i < n)
    (ha : adjacent ii jStart i j) : adjacent ii jStart j i :=
  h.symm i hi j (h.adj_lt hi ha) ha

theorem SimpleCSR.adj_ne (h : SimpleCSR ii jStart n m) {i j : Nat} (hi : i < n)
    (ha : adjacent ii jStart i j) : i ≠ j := by
  rintro rfl
  exact h.noLoop i hi ha

theorem SimpleCSR.adj_comm (h : SimpleCSR ii jStart n m) {i j : Nat} (hi : i < n)
    (hj : j < n) : adjacent ii jStart i j ↔ adjacent ii jStart j i :=
  ⟨h.adj_symm hi, h.adj_symm hj⟩

/-- The columns of the adjacency range of `i` are the vertices adjacent to `i`. -/
theorem SimpleCSR.image_cols (h : SimpleCSR ii jStart n m) {i : Nat} (hi : i < n) :
    (Finset.Ico (jStart i) (jStart (i + 1))).image ii =
      (Finset.range n).filter (fun v => adjacent ii jStart i v) := by
  ext v
  rw [Finset.mem_image, Finset.mem_filter, Finset.mem_range, adjacent_iff_Ico]
  constructor
  · intro hv
    exact ⟨h.adj_lt hi ((adjacent_iff_Ico ii jStart i v).mpr hv), hv⟩
  · exact fun hv => hv.2

theorem SimpleCSR.injOn_cols (h : SimpleCSR ii jStart n m) {i : Nat} (hi : i < n) :
    ∀ p, p ∈ Finset.Ico (jStart i) (jStart (i + 1)) →
      ∀ q, q ∈ Finset.Ico (jStart i) (jStart (i + 1)) → ii p = ii q → p = q := by
  intro p hp q hq e
  obtain ⟨hp1, hp2⟩ := Finset.mem_Ico.mp hp
  obtain ⟨hq1, hq2⟩ := Finset.mem_Ico.mp hq
  exact h.noDup i hi p hp2 q hq2 ⟨hp1, hq1, e⟩

/-- A sum over the adjacency entries of `i` is a sum over its neighbours. -/
theorem SimpleCSR.sum_cols (h : SimpleCSR ii jStart n m) {i : Nat} (hi : i < n)
    (g : Nat → Nat) :
    ∑ p in Finset.Ico (jStart i) (jStart (i + 1)), g (ii p) =
      ∑ v in (Finset.range n).filter (fun v => adjacent ii jStart i v), g v := by
  rw [← h.image_cols hi, Finset.sum_image (h.injOn_cols hi)]

theorem count_flatMap_eq (j : Nat) (g : Nat → List Nat) (P : List Nat) :
    (P.flatMap g).count j = (P.map (fun p => (g p).count j)).sum := by
  induction P with
  | nil => rfl
  | cons p P ih => simp [List.flatMap_cons, List.count_append, ih]

/-- In a simple graph the walk count of a neighbour `j` of `i` is the number
of common neighbours of `i` and `j`. -/
theorem SimpleCSR.walkCount_eq (h : SimpleCSR ii jStart n m) {i j : Nat} (hi : i < n)
    (ha : adjacent ii jStart i j) :
    walkCount ii jStart i j = commonNeighbours ii jStart n i j := by
  have hj : j < n := h.adj_lt hi ha
  have hji : j ≠ i := fun e => h.adj_ne hi ha e.symm
  unfold walkCount walkEnds
  rw [count_flatMap_eq]
  have hterm : ∀ p, p ∈ nbrPos jStart i →
      (((nbrPos jStart (ii p)).map ii).filter (fun j => j ≠ i)).count j =
        if adjacent ii jStart (ii p) j then 1 else 0 := by
    intro p hp
    have hk : ii p < n :=
      h.adj_lt hi ((adjacent_iff_mem ii jStart i (ii p)).mpr (List.mem_map_of_mem ii hp))
    have hnd : ((nbrPos jStart (ii p)).map ii).Nodup :=
      (List.nodup_map_iff_inj_on (nodup_nbrPos jStart (ii p))).mpr
        (fun a ha b hb e => h.distinct hk a ha b hb e)
    rw [List.count_filter (by simpa using hji), List.count_eq_of_nodup hnd]
    simp only [adjacent_iff_mem]
  rw [List.map_congr_left hterm, sum_map_nbrPos jStart i
    (fun p => if adjacent ii jStart (ii p) j then 1 else 0),
    h.sum_cols hi (fun v => if adjacent ii jStart v j then 1 else 0),
    ← Finset.card_filter, Finset.filter_filter]
  unfold commonNeighbours
  congr 1
  refine Finset.filter_congr (fun v hv => ?_)
  rw [h.adj_comm (Finset.mem_range.mp hv) hj]

end Simple

/-! ## Counting triangles -/

section Simple

variable {ii jStart : Nat → Nat} {n m : Nat}

/-- Ordered pairs of adjacent neighbours of `i`. -/
theorem SimpleCSR.sum_common (h : SimpleCSR ii jStart n m) {i : Nat} (hi : i < n) :
    ∑ p in Finset.Ico (jStart i) (jStart (i + 1)), commonNeighbours ii jStart n i (ii p) =
      ((Finset.range n ×ˢ Finset.range n).filter
        (fun e => adjacent ii jStart i e.1 ∧ adjacent ii jStart i e.2 ∧
          adjacent ii jStart e.1 e.2)).card := by
  rw [h.sum_cols hi (fun v => commonNeighbours ii jStart n i v), Finset.sum_filter,
    Finset.card_filter, Finset.sum_product]
  refine Finset.sum_congr rfl (fun v _ => ?_)
  unfold commonNeighbours
  by_cases hv : adjacent ii jStart i v
  · rw [if_pos hv, Finset.card_filter]
    refine Finset.sum_congr rfl (fun w _ => ?_)
    simp [hv]
  · rw [if_neg hv]
    symm
    apply Finset.sum_eq_zero
    intro w _
    simp [hv]

theorem SimpleCSR.pairs_eq_two_mul (h : SimpleCSR ii jStart n m) {i : Nat} (_hi : i < n) :
    ((Finset.range n ×ˢ Finset.range n).filter
        (fun e => adjacent ii jStart i e.1 ∧ adjacent ii jStart i e.2 ∧
          adjacent ii jStart e.1 e.2)).card = 2 * trianglesAt ii jStart n i := by
  rw [← Finset.filter_card_add_filter_neg_card_eq_card (fun e : Nat × Nat => e.1 < e.2),
    Finset.filter_filter, Finset.filter_filter, two_mul]
  have hlt : (Finset.range n ×ˢ Finset.range n).filter
      (fun e => (adjacent ii jStart i e.1 ∧ adjacent ii jStart i e.2 ∧
        adjacent ii jStart e.1 e.2) ∧ e.1 < e.2) =
      (Finset.range n ×ˢ Finset.range n).filter
        (fun e => e.1 < e.2 ∧ adjacent ii jStart i e.1 ∧ adjacent ii jStart i e.2 ∧
          adjacent ii jStart e.1 e.2) :=
    Finset.filter_congr (fun e _ => by tauto)
  have hgt : ((Finset.range n ×ˢ Finset.range n).filter
      (fun e => (adjacent ii jStart i e.1 ∧ adjacent ii jStart i e.2 ∧
        adjacent ii jStart e.1 e.2) ∧ ¬ e.1 < e.2)).card =
      ((Finset.range n ×ˢ Finset.range n).filter
        (fun e => e.1 < e.2 ∧ adjacent ii jStart i e.1 ∧ adjacent ii jStart i e.2 ∧
          adjacent ii jStart e.1 e.2)).card := by
    apply Finset.card_nbij' Prod.swap Prod.swap
    · rintro ⟨v, w⟩ he
      simp only [Finset.mem_filter, Finset.mem_product, Finset.mem_range] at he
      obtain ⟨⟨hv, hw⟩, ⟨h1, h2, h3⟩, h4⟩ := he
      have hne : v ≠ w := h.adj_ne hv h3
      simp only [Finset.mem_filter, Finset.mem_product, Finset.mem_range, Prod.swap_prod_mk]
      exact ⟨⟨hw, hv⟩, by omega, h2, h1, h.adj_symm hv h3⟩
    · rintro ⟨v, w⟩ he
      simp only [Finset.mem_filter, Finset.mem_product, Finset.mem_range] at he
      obtain ⟨⟨hv, hw⟩, h4, h1, h2, h3⟩ := he
      simp only [Finset.mem_filter, Finset.mem_product, Finset.mem_range, Prod.swap_prod_mk]
      exact ⟨⟨hw, hv⟩, ⟨h2, h1, h.adj_symm hv h3⟩, by omega⟩
    · intro e _; exact Prod.swap_swap e
    · intro e _; exact Prod.swap_swap e
  rw [hlt, hgt]
  rfl

/-- The walk counts of the columns of vertex `i` add up to twice the
number of triangles incident to `i`. -/
theorem SimpleCSR.sum_walkCount (h : SimpleCSR ii jStart n m) {i : Nat} (hi : i < n) :
    ∑ p in Finset.Ico (jStart i) (jStart (i + 1)), (walkCount ii jStart i (ii p) : ℚ) =
      2 * (trianglesAt ii jStart n i : ℚ) := by
  have hN : ∑ p in Finset.Ico (jStart i) (jStart (i + 1)), walkCount ii jStart i (ii p) =
      2 * trianglesAt ii jStart n i := by
    rw [← h.pairs_eq_two_mul hi, ← h.sum_common hi]
    refine Finset.sum_congr rfl (fun p hp => ?_)
    exact h.walkCount_eq hi ((adjacent_iff_Ico ii jStart i (ii p)).mpr ⟨p, hp, rfl⟩)
  rw [← Nat.cast_sum, hN]
  push_cast
  rfl

/-- Triples `(i, j, k)` with `j < k` forming a triangle: one per vertex `i`
and triangle incident to `i`. -/
theorem sum_trianglesAt_eq_card (ii jStart : Nat → Nat) (n : Nat) :
    ∑ i in Finset.range n, trianglesAt ii jStart n i =
      ((Finset.range n ×ˢ Finset.range n ×ˢ Finset.range n).filter
        (fun t => t.2.1 < t.2.2 ∧ adjacent ii jStart t.1 t.2.1 ∧
          adjacent ii jStart t.1 t.2.2 ∧ adjacent ii jStart t.2.1 t.2.2)).card := by
  rw [Finset.card_filter, Finset.sum_product]
  refine Finset.sum_congr rfl (fun i _ => ?_)
  unfold trianglesAt
  rw [Finset.card_filter]

theorem SimpleCSR.rooted_eq_three_mul (h : SimpleCSR ii jStart n m) :
    ((Finset.range n ×ˢ Finset.range n ×ˢ Finset.range n).filter
        (fun t => t.2.1 < t.2.2 ∧ adjacent ii jStart t.1 t.2.1 ∧
          adjacent ii jStart t.1 t.2.2 ∧ adjacent ii jStart t.2.1 t.2.2)).card =
      3 * totalTriangles ii jStart n := by
  rw [← Finset.filter_card_add_filter_neg_card_eq_card (fun t : Nat × Nat × Nat => t.1 < t.2.1),
    Finset.filter_filter, Finset.filter_filter,
    ← Finset.filter_card_add_filter_neg_card_eq_card (fun t : Nat × Nat × Nat => t.1 < t.2.2)
      (s := (Finset.range n ×ˢ Finset.range n ×ˢ Finset.range n).filter
        (fun t => (t.2.1 < t.2.2 ∧ adjacent ii jStart t.1 t.2.1 ∧
          adjacent ii jStart t.1 t.2.2 ∧ adjacent ii jStart t.2.1 t.2.2) ∧ ¬ t.1 < t.2.1)),
    Finset.filter_filter, Finset.filter_filter]
  have h1 : ((Finset.range n ×ˢ Finset.range n ×ˢ Finset.range n).filter
      (fun t => (t.2.1 < t.2.2 ∧ adjacent ii jStart t.1 t.2.1 ∧
        adjacent ii jStart t.1 t.2.2 ∧ adjacent ii jStart t.2.1 t.2.2) ∧ t.1 < t.2.1)).card =
      totalTriangles ii jStart n := by
    unfold totalTriangles
    congr 1
    exact Finset.filter_congr (fun t _ => by tauto)
  have h2 : ((Finset.range n ×ˢ Finset.range n ×ˢ Finset.range n).filter
      (fun t => ((t.2.1 < t.2.2 ∧ adjacent ii jStart t.1 t.2.1 ∧
        adjacent ii jStart t.1 t.2.2 ∧ adjacent ii jStart t.2.1 t.2.2) ∧ ¬ t.1 < t.2.1) ∧
        t.1 < t.2.2)).card = totalTriangles ii jStart n := by
    unfold totalTriangles
    apply Finset.card_nbij' (fun t => (t.2.1, t.1, t.2.2)) (fun t => (t.2.1, t.1, t.2.2))
    · rintro ⟨i, j, k⟩ ht
      simp only [Finset.mem_filter, Finset.mem_product, Finset.mem_range] at ht
      obtain ⟨⟨hi, hj, hk⟩, ⟨⟨hjk, a1, a2, a3⟩, hn⟩, hik⟩ := ht
      have hne : i ≠ j := h.adj_ne hi a1
      simp only [Finset.mem_filter, Finset.mem_product, Finset.mem_range]
      exact ⟨⟨hj, hi, hk⟩, by omega, hik, h.adj_symm hi a1, a2, a3⟩
    · rintro ⟨a, b, c⟩ ht
      simp only [Finset.mem_filter, Finset.mem_product, Finset.mem_range] at ht
      obtain ⟨⟨ha, hb, hc⟩, hab, hbc, a1, a2, a3⟩ := ht
      simp only [Finset.mem_filter, Finset.mem_product, Finset.mem_range]
      exact ⟨⟨hb, ha, hc⟩, ⟨⟨by omega, h.adj_symm ha a1, a2, a3⟩, by omega⟩, hbc⟩
    · intro t _; rfl
    · intro t _; rfl
  have h3 : ((Finset.range n ×ˢ Finset.range n ×ˢ Finset.range n).filter
      (fun t => ((t.2.1 < t.2.2 ∧ adjacent ii jStart t.1 t.2.1 ∧
        adjacent ii jStart t.1 t.2.2 ∧ adjacent ii jStart t.2.1 t.2.2) ∧ ¬ t.1 < t.2.1) ∧
        ¬ t.1 < t.2.2)).card = totalTriangles ii jStart n := by
    unfold totalTriangles
    apply Finset.card_nbij' (fun t => (t.2.1, t.2.2, t.1)) (fun t => (t.2.2, t.1, t.2.1))
    · rintro ⟨i, j, k⟩ ht
      simp only [Finset.mem_filter, Finset.mem_product, Finset.mem_range] at ht
      obtain ⟨⟨hi, hj, hk⟩, ⟨⟨hjk, a1, a2, a3⟩, -⟩, hik⟩ := ht
      have hne : i ≠ k := h.adj_ne hi a2
      simp only [Finset.mem_filter, Finset.mem_product, Finset.mem_range]
      exact ⟨⟨hj, hk, hi⟩, hjk, by omega, a3, h.adj_symm hi a2, h.adj_symm hi a1⟩
    · rintro ⟨a, b, c⟩ ht
      simp only [Finset.mem_filter, Finset.mem_product, Finset.mem_range] at ht
      obtain ⟨⟨ha, hb, hc⟩, hab, hbc, a1, a2, a3⟩ := ht
      simp only [Finset.mem_filter, Finset.mem_product, Finset.mem_range]
      exact ⟨⟨hc, ha, hb⟩, ⟨⟨hab, h.adj_symm ha a3, h.adj_symm hb a2, a1⟩, by omega⟩, by omega⟩
    · intro t _; rfl
    · intro t _; rfl
  rw [h1, h2, h3]
  ring

/-- The triangle counts of the vertices add up to three times the number
of triangles of the graph. -/
theorem SimpleCSR.sum_trianglesAt (h : SimpleCSR ii jStart n m) :
    ∑ i in Finset.range n, trianglesAt ii jStart n i = 3 * totalTriangles ii jStart n := by
  rw [sum_trianglesAt_eq_card, h.rooted_eq_three_mul]

end Simple

/-! ## Counting walks and neighbour pairs -/

section Simple

variable {ii jStart : Nat → Nat} {n m : Nat}

theorem SimpleCSR.card_nbrs (h : SimpleCSR ii jStart n m) {i : Nat} (hi : i < n) :
    ((Finset.range n).filter (fun v => adjacent ii jStart i v)).card = degree jStart i := by
  rw [← h.image_cols hi, Finset.card_image_of_injOn, Nat.card_Ico]
  · rfl
  · intro p hp q hq e
    exact h.injOn_cols hi p (Finset.mem_coe.mp hp) q (Finset.mem_coe.mp hq) e

/-- Walks `i - k - j` of length two, the end point `j = i` included. -/
theorem SimpleCSR.sum_degree_eq_card (h : SimpleCSR ii jStart n m) {i : Nat} (hi : i < n) :
    ∑ p in Finset.Ico (jStart i) (jStart (i + 1)), degree jStart (ii p) =
      ((Finset.range n ×ˢ Finset.range n).filter
        (fun e => adjacent ii jStart i e.1 ∧ adjacent ii jStart e.1 e.2)).card := by
  rw [h.sum_cols hi (fun k => degree jStart k), Finset.sum_filter, Finset.card_filter,
    Finset.sum_product]
  refine Finset.sum_congr rfl (fun k hk => ?_)
  by_cases hk' : adjacent ii jStart i k
  · rw [if_pos hk', ← h.card_nbrs (Finset.mem_range.mp hk), Finset.card_filter]
    refine Finset.sum_congr rfl (fun j _ => ?_)
    simp [hk']
  · rw [if_neg hk']
    symm
    apply Finset.sum_eq_zero
    intro j _
    simp [hk']

theorem SimpleCSR.sum_degree (h : SimpleCSR ii jStart n m) {i : Nat} (hi : i < n) :
    ∑ p in Finset.Ico (jStart i) (jStart (i + 1)), degree jStart (ii p) =
      walksFrom ii jStart n i + degree jStart i := by
  rw [h.sum_degree_eq_card hi,
    ← Finset.filter_card_add_filter_neg_card_eq_card (fun e : Nat × Nat => e.2 = i),
    Finset.filter_filter, Finset.filter_filter, add_comm]
  congr 1
  · unfold walksFrom
    congr 1
    exact Finset.filter_congr (fun e _ => by tauto)
  · rw [← h.card_nbrs hi]
    apply Finset.card_nbij' (fun e => e.1) (fun k => (k, i))
    · rintro ⟨k, j⟩ he
      simp only [Finset.mem_filter, Finset.mem_product, Finset.mem_range] at he
      simp only [Finset.mem_filter, Finset.mem_range]
      exact ⟨he.1.1, he.2.1.1⟩
    · intro k hk
      simp only [Finset.mem_filter, Finset.mem_range] at hk
      simp only [Finset.mem_filter, Finset.mem_product, Finset.mem_range]
      exact ⟨⟨hk.1, hi⟩, ⟨hk.2, h.adj_symm hi hk.2⟩, trivial⟩
    · rintro ⟨k, j⟩ he
      simp only [Finset.mem_filter, Finset.mem_product, Finset.mem_range] at he
      simp only [Prod.mk.injEq, true_and]
      exact he.2.2.symm
    · intro k _
      rfl

/-- The walks from `i` split into those ending at a neighbour of `i`, two
per triangle at `i`, and the induced 2-paths. -/
theorem SimpleCSR.walksFrom_split (h : SimpleCSR ii jStart n m) {i : Nat} (hi : i < n) :
    walksFrom ii jStart n i =
      2 * trianglesAt ii jStart n i + inducedPathEnds ii jStart n i := by
  unfold walksFrom
  rw [← Finset.filter_card_add_filter_neg_card_eq_card
      (fun e : Nat × Nat => adjacent ii jStart i e.2),
    Finset.filter_filter, Finset.filter_filter, ← h.pairs_eq_two_mul hi]
  congr 1
  · congr 1
    refine Finset.filter_congr (fun e he => ?_)
    constructor
    · rintro ⟨⟨h1, h2, -⟩, h4⟩
      exact ⟨h1, h4, h2⟩
    · rintro ⟨h1, h2, h3⟩
      exact ⟨⟨h1, h3, fun e2 => h.adj_ne hi h2 e2.symm⟩, h2⟩
  · unfold inducedPathEnds
    congr 1
    exact Finset.filter_congr (fun e _ => by tauto)

theorem orderedNbrPairs_eq (ii jStart : Nat → Nat) (n i : Nat) :
    orderedNbrPairs ii jStart n i = 2 * nbrPairs ii jStart n i := by
  unfold orderedNbrPairs nbrPairs
  rw [← Finset.filter_card_add_filter_neg_card_eq_card (fun e : Nat × Nat => e.1 < e.2),
    Finset.filter_filter, Finset.filter_filter, two_mul]
  congr 1
  · congr 1
    exact Finset.filter_congr (fun e _ => by
      constructor
      · rintro ⟨⟨-, h2, h3⟩, h4⟩; exact ⟨h4, h2, h3⟩
      · rintro ⟨h4, h2, h3⟩; exact ⟨⟨Nat.ne_of_lt h4, h2, h3⟩, h4⟩)
  · apply Finset.card_nbij' Prod.swap Prod.swap
    · rintro ⟨v, w⟩ he
      simp only [Finset.mem_filter, Finset.mem_product, Finset.mem_range] at he
      obtain ⟨⟨hv, hw⟩, ⟨hne, h2, h3⟩, h4⟩ := he
      simp only [Finset.mem_filter, Finset.mem_product, Finset.mem_range, Prod.swap_prod_mk]
      exact ⟨⟨hw, hv⟩, by omega, h3, h2⟩
    · rintro ⟨v, w⟩ he
      simp only [Finset.mem_filter, Finset.mem_product, Finset.mem_range] at he
      obtain ⟨⟨hv, hw⟩, h4, h2, h3⟩ := he
      simp only [Finset.mem_filter, Finset.mem_product, Finset.mem_range, Prod.swap_prod_mk]
      exact ⟨⟨hw, hv⟩, ⟨by omega, h3, h2⟩, by omega⟩
    · intro e _; exact Prod.swap_swap e
    · intro e _; exact Prod.swap_swap e

theorem SimpleCSR.orderedNbrPairs_card (h : SimpleCSR ii jStart n m) {i : Nat} (hi : i < n) :
    orderedNbrPairs ii jStart n i = degree jStart i * degree jStart i - degree jStart i := by
  rw [← h.card_nbrs hi, ← Finset.offDiag_card]
  unfold orderedNbrPairs
  congr 1
  ext ⟨v, w⟩
  simp only [Finset.mem_filter, Finset.mem_product, Finset.mem_range, Finset.mem_offDiag]
  tauto

/-- Twice the number of neighbour pairs of `i` is `degree * (degree - 1)`. -/
theorem SimpleCSR.nbrPairs_cast (h : SimpleCSR ii jStart n m) {i : Nat} (hi : i < n) :
    (nbrPairs ii jStart n i : ℚ) =
      (degree jStart i : ℚ) * ((degree jStart i : ℚ) - 1) * (1 / 2) := by
  have h1 : 2 * nbrPairs ii jStart n i =
      degree jStart i * degree jStart i - degree jStart i := by
    rw [← orderedNbrPairs_eq, h.orderedNbrPairs_card hi]
  have h2 : ((2 * nbrPairs ii jStart n i : Nat) : ℚ) =
      (degree jStart i : ℚ) * (degree jStart i : ℚ) - (degree jStart i : ℚ) := by
    rw [h1, Nat.cast_sub (Nat.le_mul_self _), Nat.cast_mul]
  push_cast at h2
  linarith

theorem nbrPairs_split (ii jStart : Nat → Nat) (n i : Nat) :
    nbrPairs ii jStart n i = trianglesAt ii jStart n i + openPairs ii jStart n i := by
  unfold nbrPairs
  rw [← Finset.filter_card_add_filter_neg_card_eq_card
      (fun e : Nat × Nat => adjacent ii jStart e.1 e.2),
    Finset.filter_filter, Finset.filter_filter]
  congr 1
  · unfold trianglesAt
    congr 1
    exact Finset.filter_congr (fun e _ => by tauto)
  · unfold openPairs
    congr 1
    exact Finset.filter_congr (fun e _ => by tauto)

theorem SimpleCSR.choose_eq_nbrPairs (h : SimpleCSR ii jStart n m) {i : Nat} (hi : i < n) :
    (degree jStart i).choose 2 = nbrPairs ii jStart n i := by
  have h1 := h.nbrPairs_cast hi
  have h2 : (((degree jStart i).choose 2 : Nat) : ℚ) = (nbrPairs ii jStart n i : ℚ) := by
    rw [h1, Nat.cast_choose_two]
    ring
  exact_mod_cast h2

end Simple

/-! ## Rounding to `double` is exact on integers below `2^53` -/

theorem bitLenAux_zero (fuel : Nat) : bitLenAux fuel 0 = 0 := by
  cases fuel <;> simp [bitLenAux]

theorem bitLenAux_spec (fuel : Nat) : ∀ n, n ≤ fuel → 0 < n →
    2 ^ (bitLenAux fuel n - 1) ≤ n ∧ n < 2 ^ bitLenAux fuel n := by
  induction fuel with
  | zero => intro n h1 h2; omega
  | succ fuel ih =>
    intro n h1 h2
    have hn : n ≠ 0 := by omega
    have e : bitLenAux (fuel + 1) n = bitLenAux fuel (n / 2) + 1 := by
      simp [bitLenAux, hn]
    rw [e, Nat.add_sub_cancel]
    by_cases h0 : n / 2 = 0
    · rw [h0, bitLenAux_zero]
      have : n = 1 := by omega
      subst this
      simp
    · obtain ⟨a, b⟩ := ih (n / 2) (by omega) (by omega)
      have hb : bitLenAux fuel (n / 2) ≠ 0 := by
        intro hc
        rw [hc] at b
        simp at b
        exact h0 b
      obtain ⟨c, hc⟩ := Nat.exists_eq_succ_of_ne_zero hb
      rw [hc] at a b ⊢
      simp only [Nat.succ_eq_add_one, Nat.add_sub_cancel] at a
      rw [pow_succ] at b ⊢
      rw [pow_succ]
      constructor <;> omega

theorem bitLen_spec {n : Nat} (h : 0 < n) : 2 ^ (bitLen n - 1) ≤ n ∧ n < 2 ^ bitLen n :=
  bitLenAux_spec n n le_rfl h

theorem bitLen_one : bitLen 1 = 1 := by decide

/-- A positive integer below `2^53` is a double. -/
theorem roundMag_nat {k : Nat} (h0 : 0 < k) (h : k < 2 ^ 53) : roundMag k 1 = (k : ℚ) := by
  obtain ⟨a, b⟩ := bitLen_spec h0
  have hL : bitLen k ≠ 0 := by
    intro hc
    rw [hc] at b
    simp at b
    omega
  obtain ⟨l, hl⟩ := Nat.exists_eq_succ_of_ne_zero hL
  rw [hl] at a
  simp only [Nat.succ_eq_add_one, Nat.add_sub_cancel] at a
  have hl52 : l ≤ 52 := by
    by_contra hc
    have : 2 ^ 53 ≤ 2 ^ l := Nat.pow_le_pow_right (by norm_num) (by omega)
    omega
  have e0 : ((bitLen k : Int) - (bitLen 1 : Int)) = (l : Int) := by
    rw [hl, bitLen_one]
    push_cast
    omega
  have t1 : ((l : Int) - 52).toNat = 0 := by omega
  have t2 : (-((l : Int) - 52)).toNat = 52 - l := by omega
  unfold roundMag
  simp only [e0, Int.toNat_ofNat, Int.toNat_neg_nat, pow_zero, mul_one, one_mul, a, if_true,
    t1, t2, Nat.div_one, Nat.mod_one, Nat.mul_zero, Nat.pos_pow_of_pos]
  have hpos : 0 < 2 ^ (52 - l) := Nat.pos_pow_of_pos _ (by norm_num)
  rw [if_pos (by decide : 0 < 1)]
  push_cast
  field_simp

theorem roundDouble_nat {k : Nat} (h : k < 2 ^ 53) : roundDouble (k : ℚ) = (k : ℚ) := by
  unfold roundDouble
  by_cases h0 : k = 0
  · simp [h0]
  · have hk : (0 : ℚ) < k := by exact_mod_cast Nat.pos_of_ne_zero h0
    rw [if_neg (ne_of_gt hk), if_neg (not_lt.mpr (le_of_lt hk))]
    simp only [Rat.num_natCast, Rat.den_natCast, Int.natAbs_ofNat]
    exact roundMag_nat (Nat.pos_of_ne_zero h0) h

theorem roundDouble_neg_one : roundDouble (-1) = -1 := by decide!

theorem choose_two_cast (d : Nat) : ((d.choose 2 : Nat) : ℚ) = (d : ℚ) * ((d : ℚ) - 1) / 2 := by
  rw [Nat.cast_choose_two]

/-- The double product of `compute_all_available` is exact as long as
`d * (d - 1)` is below `2^53`. -/
theorem starProduct_choose {d : Nat} (h : d * (d - 1) < 2 ^ 53) :
    starProduct (d : ℚ) = (d.choose 2 : ℚ) := by
  unfold starProduct
  rcases Nat.eq_zero_or_pos d with h0 | hpos
  · subst h0
    have e : ((0 : Nat) : ℚ) - 1 = -1 := by norm_num
    rw [e, roundDouble_neg_one]
    have e2 : ((0 : Nat) : ℚ) * -1 = ((0 : Nat) : ℚ) := by norm_num
    rw [e2, roundDouble_nat (by norm_num)]
    have e3 : ((0 : Nat) : ℚ) * (1 / 2) = ((0 : Nat) : ℚ) := by norm_num
    rw [e3, roundDouble_nat (by norm_num)]
    simp
  · have hd1 : d - 1 < 2 ^ 53 := by
      rcases Nat.lt_or_ge d 2 with h2 | h2
      · have : d - 1 = 0 := by omega
        rw [this]; norm_num
      · have : d - 1 ≤ d * (d - 1) := Nat.le_mul_of_pos_left _ hpos
        omega
    have e1 : (d : ℚ) - 1 = ((d - 1 : Nat) : ℚ) := by
      rw [Nat.cast_sub hpos]; simp
    rw [e1, roundDouble_nat hd1]
    have e2 : (d : ℚ) * ((d - 1 : Nat) : ℚ) = ((d * (d - 1) : Nat) : ℚ) := by
      push_cast; rfl
    rw [e2, roundDouble_nat h]
    have e3 : ((d * (d - 1) : Nat) : ℚ) * (1 / 2) = ((d.choose 2 : Nat) : ℚ) := by
      rw [choose_two_cast, Nat.cast_mul, ← e1]
      ring
    rw [e3]
    apply roundDouble_nat
    rw [Nat.choose_two_right]
    have : d * (d - 1) / 2 ≤ d * (d - 1) := Nat.div_le_self _ _
    omega

theorem spmv_first_pass_eq (a : ℚ) (f1 : Nat → ℚ) (i : Nat) (jStart ii : Nat → Nat) :
    spmv_first_pass a f1 i jStart ii =
      a + ∑ p in Finset.Ico (jStart i) (jStart (i + 1)), f1 (ii p) - f1 i := by
  unfold spmv_first_pass
  simp only []
  rw [forRange_eq_foldl, foldl_add_eq (fun p => f1 (ii p)), ← sum_map_nbrPos jStart i]
  rfl

/-- A row `r ≠ 4` of column `c` after the iteration of vertex `c` depends
on the state only through the degree row at `c` and at the columns of `c`,
and through the cell itself. -/
theorem step_row_congr (ii jStart : Nat → Nat) (c : Nat) (S S' : PassState) (r : Nat)
    (r4 : r ≠ 4)
    (h1 : ∀ p, p ∈ Finset.Ico (jStart c) (jStart (c + 1)) → S.f 1 (ii p) = S'.f 1 (ii p))
    (h1c : S.f 1 c = S'.f 1 c) (hr : r ≠ 0 → r ≠ 3 → S.f r c = S'.f r c) :
    (firstPassStep ii jStart c S).f r c = (firstPassStep ii jStart c S').f r c := by
  by_cases r0 : r = 0
  · subst r0; rw [step_f0, step_f0]
  by_cases r3 : r = 3
  · subst r3; rw [step_f3, step_f3, h1c]
  have hcell := hr r0 r3
  by_cases r2 : r = 2
  · subst r2
    rw [step_f2, step_f2, spmv_first_pass_eq, spmv_first_pass_eq, hcell, h1c,
      Finset.sum_congr rfl h1]
  rw [step_f_row _ _ _ _ _ _ r0 r2 r3 r4, step_f_row _ _ _ _ _ _ r0 r2 r3 r4, hcell]

theorem markAll_congr (ii : Nat → Nat) (P : List Nat) (a b : Nat → Int) (j : Nat)
    (h : a j = b j) : markAll ii P a j = markAll ii P b j := by
  induction P generalizing a b with
  | nil => exact h
  | cons p P ih =>
    show markAll ii P (setAt a (ii p) (toInt32 (p + 1))) j =
      markAll ii P (setAt b (ii p) (toInt32 (p + 1))) j
    apply ih
    by_cases hj : j = ii p <;> simp [hj, h]

/-- On clean scratch flags the triangle cell `f[4][c]` after the iteration
of vertex `c` depends on the state only through the cell itself. -/
theorem step_f4_congr {n : Nat} (hn : n ≤ 2 ^ 31) (ii jStart : Nat → Nat) (c : Nat)
    (S S' : PassState) (hS : Clean n S) (hS' : Clean n S') (hf : Fits ii jStart n c)
    (h4 : S.f 4 c = S'.f 4 c) :
    (firstPassStep ii jStart c S).f 4 c = (firstPassStep ii jStart c S').f 4 c := by
  rw [step_f4, step_f4, p2_f4 hn _ _ _ _ _ _ _ _ _ hS.1 hf.cols,
    p2_f4 hn _ _ _ _ _ _ _ _ _ hS'.1 hf.cols, h4]
  congr 2
  refine Finset.sum_congr rfl (fun j hj => ?_)
  have hjn : j < n := mem_walkEnds_lt hf.cols (List.mem_toFinset.mp hj)
  rw [markAll_congr ii _ S.isNgbh S'.isNgbh j ((hS.2 j hjn).trans (hS'.2 j hjn).symm)]

/-- On clean scratch flags the `c3` entry at `q` after the iteration of a
vertex depends on the state only through the entry itself. -/
theorem step_c3_congr {n : Nat} (hn : n ≤ 2 ^ 31) (ii jStart : Nat → Nat) (v : Nat)
    (S S' : PassState) (hS : Clean n S) (hS' : Clean n S') (hf : Fits ii jStart n v)
    (q : Int) (h : S.c3 q = S'.c3 q) :
    (firstPassStep ii jStart v S).c3 q = (firstPassStep ii jStart v S').c3 q := by
  show (p2 (S.f 4 v) S.c3 v jStart ii S.fl S.pos S.isNgbh S.isUsed).c3 q =
    (p2 (S'.f 4 v) S'.c3 v jStart ii S'.fl S'.pos S'.isNgbh S'.isUsed).c3 q
  have hsame : ∀ k, k ∈ walkEnds v jStart ii (nbrPos jStart v) →
      markAll ii (nbrPos jStart v) S'.isNgbh k = markAll ii (nbrPos jStart v) S.isNgbh k := by
    intro k hk
    have hkn : k < n := mem_walkEnds_lt hf.cols hk
    exact markAll_congr ii _ _ _ k ((hS'.2 k hkn).trans (hS.2 k hkn).symm)
  have hcol : ∀ k, k ∈ walkEnds v jStart ii (nbrPos jStart v) →
      markAll ii (nbrPos jStart v) S.isNgbh k ≠ 0 →
      markAll ii (nbrPos jStart v) S.isNgbh k - 1 = q →
      ∃ p : Nat, ii p = k ∧ (p : Int) = q := by
    intro k hkw hk1 hk2
    obtain ⟨p, -, hpk, hN⟩ :=
      mark_pos hf.marks S.isNgbh k (hS.2 k (mem_walkEnds_lt hf.cols hkw)) hk1
    exact ⟨p, hpk, by rw [← hN, hk2]⟩
  by_cases hit : ∃ j, j ∈ walkEnds v jStart ii (nbrPos jStart v) ∧
      markAll ii (nbrPos jStart v) S.isNgbh j ≠ 0 ∧
      markAll ii (nbrPos jStart v) S.isNgbh j - 1 = q
  · obtain ⟨j, hj, hm, hq⟩ := hit
    have huniq : ∀ k, k ∈ walkEnds v jStart ii (nbrPos jStart v) →
        markAll ii (nbrPos jStart v) S.isNgbh k ≠ 0 →
        markAll ii (nbrPos jStart v) S.isNgbh k - 1 = q → k = j := by
      intro k hkw hk1 hk2
      obtain ⟨p, hp1, hp2⟩ := hcol k hkw hk1 hk2
      obtain ⟨p', hp1', hp2'⟩ := hcol j hj hm hq
      have : p = p' := by exact_mod_cast hp2.trans hp2'.symm
      rw [← hp1, ← hp1', this]
    rw [p2_c3_hit hn _ _ _ _ _ _ _ _ _ hS.1 hf.cols q j hj hm hq huniq,
      p2_c3_hit hn _ _ _ _ _ _ _ _ _ hS'.1 hf.cols q j hj
        (by rw [hsame j hj]; exact hm) (by rw [hsame j hj]; exact hq)
        (fun k hkw hk1 hk2 => huniq k hkw (by rw [← hsame k hkw]; exact hk1)
          (by rw [← hsame k hkw]; exact hk2))]
  · have hno : ∀ j, j ∈ walkEnds v jStart ii (nbrPos jStart v) →
        markAll ii (nbrPos jStart v) S.isNgbh j ≠ 0 →
        markAll ii (nbrPos jStart v) S.isNgbh j - 1 ≠ q :=
      fun j hj hm hq => hit ⟨j, hj, hm, hq⟩
    rw [p2_c3_other hn _ _ _ _ _ _ _ _ _ hS.1 hf.cols q hno,
      p2_c3_other hn _ _ _ _ _ _ _ _ _ hS'.1 hf.cols q
        (fun j hj hm hq => hno j hj (by rw [← hsame j hj]; exact hm)
          (by rw [← hsame j hj]; exact hq)), h]

/-! ## The raw-count loop over a duplicate-free list of vertices -/

/-- A row `r ≠ 4` of column `c` after the loop is the one the iteration of
`c` computes from the initial state. -/
theorem fold_row_eq_step (ii jStart : Nat → Nat) (vs : List Nat) (hn : vs.Nodup)
    (s : PassState) (r c : Nat) (r4 : r ≠ 4) (hc : c ∈ vs) :
    (passFold ii jStart vs s).f r c = (firstPassStep ii jStart c s).f r c := by
  obtain ⟨pre, post, rfl, hpre, hpost⟩ := split_of_mem_nodup hn hc
  rw [fold_f_col _ _ _ _ _ _ _ hpost]
  apply step_row_congr ii jStart c _ _ r r4
  · intro p _
    exact fold_f_row _ _ _ _ _ _ (by decide) (by decide) (by decide) (by decide)
  · exact fold_f_row _ _ _ _ _ _ (by decide) (by decide) (by decide) (by decide)
  · intro _ _
    exact fold_f_notin _ _ _ _ _ _ hpre

/-- Column `c` after the loop is the column the iteration of `c` computes
from the initial state, when every listed vertex fits the scratch arrays. -/
theorem fold_f_eq_step {n : Nat} (hn31 : n ≤ 2 ^ 31) (ii jStart : Nat → Nat)
    (vs : List Nat) (hn : vs.Nodup) (hvs : ∀ v, v ∈ vs → Fits ii jStart n v)
    (s : PassState) (hs : Clean n s) (r c : Nat) (hc : c ∈ vs) :
    (passFold ii jStart vs s).f r c = (firstPassStep ii jStart c s).f r c := by
  by_cases r4 : r = 4
  · subst r4
    obtain ⟨pre, post, rfl, hpre, hpost⟩ := split_of_mem_nodup hn hc
    rw [fold_f_col _ _ _ _ _ _ _ hpost]
    apply step_f4_congr hn31 ii jStart c _ _
      (fold_clean hn31 ii jStart pre s hs (fun v hv => hvs v (List.mem_append_left _ hv)))
      hs (hvs c hc)
    exact fold_f_notin _ _ _ _ _ _ hpre
  · exact fold_row_eq_step ii jStart vs hn s r c r4 hc

theorem fold_f_apply {n : Nat} (hn31 : n ≤ 2 ^ 31) (ii jStart : Nat → Nat)
    (vs : List Nat) (hn : vs.Nodup) (hvs : ∀ v, v ∈ vs → Fits ii jStart n v)
    (s : PassState) (hs : Clean n s) (r c : Nat) :
    (passFold ii jStart vs s).f r c =
      if c ∈ vs then (firstPassStep ii jStart c s).f r c else s.f r c := by
  by_cases hc : c ∈ vs
  · rw [if_pos hc, fold_f_eq_step hn31 ii jStart vs hn hvs s hs r c hc]
  · rw [if_neg hc, fold_f_notin _ _ _ _ _ _ hc]

/-- An entry of `c3` in the range of a vertex `v` of the list is the one the
iteration of `v` computes from the initial state, when the ranges of the
listed vertices are pairwise disjoint. -/
theorem fold_c3_eq_step {n : Nat} (hn31 : n ≤ 2 ^ 31) (ii jStart : Nat → Nat)
    (vs : List Nat) (hn : vs.Nodup) (hvs : ∀ v, v ∈ vs → Fits ii jStart n v)
    (hdisj : ∀ u, u ∈ vs → ∀ w, w ∈ vs → u ≠ w → ∀ q, q ∈ nbrPos jStart u →
      q ∉ nbrPos jStart w)
    (s : PassState) (hs : Clean n s) (v : Nat) (hv : v ∈ vs) (q : Nat)
    (hq : q ∈ nbrPos jStart v) :
    (passFold ii jStart vs s).c3 (q : Int) = (firstPassStep ii jStart v s).c3 (q : Int) := by
  obtain ⟨pre, post, rfl, hpre, hpost⟩ := split_of_mem_nodup hn hv
  have hvpre : ∀ w, w ∈ pre → Fits ii jStart n w :=
    fun w hw => hvs w (List.mem_append_left _ hw)
  have hvpost : ∀ w, w ∈ post → Fits ii jStart n w :=
    fun w hw => hvs w (List.mem_append_right _ (List.mem_cons_of_mem _ hw))
  have hc := fold_clean hn31 ii jStart pre s hs hvpre
  rw [passFold_append, passFold_cons,
    fold_c3_other hn31 ii jStart post _ (step_clean hn31 ii jStart v _ hc (hvs v hv).cols)
      hvpost q]
  · apply step_c3_congr hn31 ii jStart v _ _ hc hs (hvs v hv)
    apply fold_c3_other hn31 ii jStart pre s hs hvpre
    intro w hw
    exact hdisj v hv w (List.mem_append_left _ hw) (fun e => hpre (e ▸ hw)) q hq
  · intro w hw
    exact hdisj v hv w (List.mem_append_right _ (List.mem_cons_of_mem _ hw))
      (fun e => hpost (e ▸ hw)) q hq

/-! ## The raw matrix left by `compute`, row by row -/

theorem compute_f_ok (a : Alloc) (f fn : Mat) (ii jStart : Nat → Nat) (n m np : Nat)
    (h : a.ok = true) :
    (compute a f fn ii jStart n m np).f = (rawPass (degreePass f jStart n) ii jStart n).f := by
  rw [compute_ok a f fn ii jStart n m np h]

theorem compute_fn_ok (a : Alloc) (f fn : Mat) (ii jStart : Nat → Nat) (n m np : Nat)
    (h : a.ok = true) :
    (compute a f fn ii jStart n m np).fn =
      netPass fn (rawPass (degreePass f jStart n) ii jStart n).f n := by
  rw [compute_ok a f fn ii jStart n m np h]

theorem raw_col_eq_step (g : Mat) (ii jStart : Nat → Nat) (n r c : Nat) (r4 : r ≠ 4)
    (hc : c < n) :
    (rawPass g ii jStart n).f r c =
      (firstPassStep ii jStart c
        ⟨g, fun _ => 0, fun _ => 0, fun _ => 0, fun _ => 0, fun _ => 0⟩).f r c := by
  rw [rawPass_eq]
  exact fold_row_eq_step ii jStart _ (List.nodup_range n) _ r c r4 (List.mem_range.mpr hc)

theorem raw_row (g : Mat) (ii jStart : Nat → Nat) (n r c : Nat)
    (h0 : r ≠ 0) (h2 : r ≠ 2) (h3 : r ≠ 3) (h4 : r ≠ 4) :
    (rawPass g ii jStart n).f r c = g r c := by
  rw [rawPass_eq, fold_f_row _ _ _ _ _ _ h0 h2 h3 h4]

theorem raw_notin (g : Mat) (ii jStart : Nat → Nat) (n r c : Nat) (hc : ¬ c < n) :
    (rawPass g ii jStart n).f r c = g r c := by
  rw [rawPass_eq, fold_f_notin _ _ _ _ _ _ (fun h => hc (List.mem_range.mp h))]

theorem raw_f2 (g : Mat) (ii jStart : Nat → Nat) (n i : Nat) (hi : i < n) :
    (rawPass g ii jStart n).f 2 i =
      g 2 i + ∑ p in Finset.Ico (jStart i) (jStart (i + 1)), g 1 (ii p) - g 1 i := by
  rw [raw_col_eq_step g ii jStart n 2 i (by decide) hi, step_f2, spmv_first_pass_eq]

theorem raw_f3 (g : Mat) (ii jStart : Nat → Nat) (n i : Nat) (hi : i < n) :
    (rawPass g ii jStart n).f 3 i = starProduct (g 1 i) := by
  rw [raw_col_eq_step g ii jStart n 3 i (by decide) hi, step_f3]

theorem degreePass_row1 (f : Mat) (jStart : Nat → Nat) (n c : Nat) (hc : c < n) :
    degreePass f jStart n 1 c = (degree jStart c : ℚ) := by
  rw [degreePass_apply, if_pos ⟨rfl, hc⟩]

theorem degreePass_other (f : Mat) (jStart : Nat → Nat) (n r c : Nat) (hr : r ≠ 1) :
    degreePass f jStart n r c = f r c := by
  rw [degreePass_apply, if_neg (fun h => hr h.1)]

/-- Two states with the same buffer and scratch arrays keep them the same
through an iteration, and the triangle cell of the vertex receives half its
entry value plus an amount that is the same in both. -/
theorem step_sameScratch (ii jStart : Nat → Nat) (i : Nat) (S S' : PassState)
    (h : SameScratch S S') :
    SameScratch (firstPassStep ii jStart i S) (firstPassStep ii jStart i S') ∧
      (firstPassStep ii jStart i S).f 4 i - S.f 4 i / 2 =
        (firstPassStep ii jStart i S').f 4 i - S'.f 4 i / 2 := by
  obtain ⟨h1, h2, h3, h4, h5⟩ := h
  have e := p2_entry (S.f 4 i) S.c3 S.fl S.pos S.isNgbh S.isUsed i jStart ii
  have e' := p2_entry (S'.f 4 i) S'.c3 S'.fl S'.pos S'.isNgbh S'.isUsed i jStart ii
  rw [← h1, ← h2, ← h3, ← h4, ← h5] at e'
  refine ⟨⟨?_, ?_, ?_, ?_, ?_⟩, ?_⟩
  · show (p2 (S.f 4 i) S.c3 i jStart ii S.fl S.pos S.isNgbh S.isUsed).c3 =
      (p2 (S'.f 4 i) S'.c3 i jStart ii S'.fl S'.pos S'.isNgbh S'.isUsed).c3
    rw [e, ← h1, ← h2, ← h3, ← h4, ← h5, e']
  · show (p2 (S.f 4 i) S.c3 i jStart ii S.fl S.pos S.isNgbh S.isUsed).fl =
      (p2 (S'.f 4 i) S'.c3 i jStart ii S'.fl S'.pos S'.isNgbh S'.isUsed).fl
    rw [e, ← h1, ← h2, ← h3, ← h4, ← h5, e']
  · show (p2 (S.f 4 i) S.c3 i jStart ii S.fl S.pos S.isNgbh S.isUsed).pos =
      (p2 (S'.f 4 i) S'.c3 i jStart ii S'.fl S'.pos S'.isNgbh S'.isUsed).pos
    rw [e, ← h1, ← h2, ← h3, ← h4, ← h5, e']
  · show remove_neighbors
        (p2 (S.f 4 i) S.c3 i jStart ii S.fl S.pos S.isNgbh S.isUsed).isNgbh i ii jStart =
      remove_neighbors
        (p2 (S'.f 4 i) S'.c3 i jStart ii S'.fl S'.pos S'.isNgbh S'.isUsed).isNgbh i ii jStart
    rw [e, ← h1, ← h2, ← h3, ← h4, ← h5, e']
  · show (p2 (S.f 4 i) S.c3 i jStart ii S.fl S.pos S.isNgbh S.isUsed).isUsed =
      (p2 (S'.f 4 i) S'.c3 i jStart ii S'.fl S'.pos S'.isNgbh S'.isUsed).isUsed
    rw [e, ← h1, ← h2, ← h3, ← h4, ← h5, e']
  · rw [step_f4, step_f4, e, ← h1, ← h2, ← h3, ← h4, ← h5, e']
    simp only []
    ring

theorem fold_sameScratch (ii jStart : Nat → Nat) (vs : List Nat) (S S' : PassState)
    (h : SameScratch S S') :
    SameScratch (passFold ii jStart vs S) (passFold ii jStart vs S') := by
  induction vs generalizing S S' with
  | nil => exact h
  | cons x vs ih => exact ih _ _ (step_sameScratch ii jStart x S S' h).1

/-- After the loop over a duplicate-free list, the triangle cell of a listed
vertex holds half its entry value plus an amount that does not depend on
the raw matrix. -/
theorem fold_f4_entry (ii jStart : Nat → Nat) (vs : List Nat) (hn : vs.Nodup)
    (S S' : PassState) (h : SameScratch S S') (c : Nat) (hc : c ∈ vs) :
    (passFold ii jStart vs S).f 4 c - S.f 4 c / 2 =
      (passFold ii jStart vs S').f 4 c - S'.f 4 c / 2 := by
  obtain ⟨pre, post, rfl, hpre, hpost⟩ := split_of_mem_nodup hn hc
  rw [fold_f_col _ _ _ _ _ _ _ hpost, fold_f_col _ _ _ _ _ _ _ hpost]
  have := (step_sameScratch ii jStart c _ _ (fold_sameScratch ii jStart pre S S' h)).2
  rw [fold_f_notin _ _ _ _ _ _ hpre, fold_f_notin _ _ _ _ _ _ hpre] at this
  exact this

/-- The per-edge buffer left by the raw-count loop does not depend on the
raw matrix. -/
theorem rawPass_c3_indep (g g' : Mat) (ii jStart : Nat → Nat) (n : Nat) :
    (rawPass g ii jStart n).c3 = (rawPass g' ii jStart n).c3 := by
  rw [rawPass_eq, rawPass_eq]
  exact (fold_sameScratch ii jStart (List.range n)
    ⟨g, fun _ => 0, fun _ => 0, fun _ => 0, fun _ => 0, fun _ => 0⟩
    ⟨g', fun _ => 0, fun _ => 0, fun _ => 0, fun _ => 0, fun _ => 0⟩
    ⟨rfl, rfl, rfl, rfl, rfl⟩).1

/-- The triangle cell left by the raw-count loop is half its entry value
plus the value the loop leaves on a zero matrix. -/
theorem rawPass_f4_entry (g : Mat) (ii jStart : Nat → Nat) (n c : Nat) (hc : c < n) :
    (rawPass g ii jStart n).f 4 c = g 4 c / 2 + (rawPass zeroMat ii jStart n).f 4 c := by
  have := fold_f4_entry ii jStart (List.range n) (List.nodup_range n)
    ⟨g, fun _ => 0, fun _ => 0, fun _ => 0, fun _ => 0, fun _ => 0⟩
    ⟨zeroMat, fun _ => 0, fun _ => 0, fun _ => 0, fun _ => 0, fun _ => 0⟩
    ⟨rfl, rfl, rfl, rfl, rfl⟩ c (List.mem_range.mpr hc)
  rw [← rawPass_eq, ← rawPass_eq] at this
  simp only [zeroMat] at this
  linarith

/-! ## The triangle cells are non-negative -/

theorem step_nonneg (ii jStart : Nat → Nat) (i : Nat) (S : PassState)
    (hfl : ∀ x, 0 ≤ S.fl x) (hf : ∀ c, 0 ≤ S.f 4 c) :
    (∀ x, 0 ≤ (firstPassStep ii jStart i S).fl x) ∧
      ∀ c, 0 ≤ (firstPassStep ii jStart i S).f 4 c := by
  obtain ⟨h1, h2⟩ := p2_nonneg (S.f 4 i) S.c3 S.fl S.pos S.isNgbh S.isUsed i jStart ii
    (hf i) hfl
  refine ⟨h2, fun c => ?_⟩
  by_cases hc : c = i
  · subst hc
    rw [step_f4]
    exact h1
  · rw [step_f_other _ _ _ _ _ _ hc]
    exact hf c

theorem fold_nonneg (ii jStart : Nat → Nat) (vs : List Nat) (S : PassState)
    (hfl : ∀ x, 0 ≤ S.fl x) (hf : ∀ c, 0 ≤ S.f 4 c) :
    ∀ c, 0 ≤ (passFold ii jStart vs S).f 4 c := by
  induction vs generalizing S with
  | nil => exact hf
  | cons x vs ih =>
    obtain ⟨h1, h2⟩ := step_nonneg ii jStart x S hfl hf
    exact ih _ h1 h2

theorem rawPass_f4_nonneg (g : Mat) (ii jStart : Nat → Nat) (n : Nat)
    (hg : ∀ c, 0 ≤ g 4 c) (c : Nat) : 0 ≤ (rawPass g ii jStart n).f 4 c := by
  rw [rawPass_eq]
  exact fold_nonneg ii jStart _ _ (fun _ => le_refl 0) hg c

/-! ## The graph with the edges `0 - 3`, `3 - 1`, `1 - 2` and `1 - farCol` -/

theorem farStart_le (v : Nat) : farStart v ≤ 8 := by
  simp only [farStart]
  split_ifs <;> omega

theorem farStart_stop : farStart farN = 8 := by decide

theorem far_mono : MonoOffsets farStart farN := by
  intro i _
  simp only [farStart, farCol]
  split_ifs <;> first | omega | contradiction

theorem far_cols : ColsInRange farCols farStart farN := by
  intro p hp
  rw [farStart_stop] at hp
  interval_cases p <;> decide

/-- The vertex whose adjacency range holds the position `p`. -/
theorem far_owner {u p : Nat} (h1 : farStart u ≤ p) (h2 : p < farStart (u + 1)) :
    (p = 0 ∧ u = 0) ∨ (p = 1 ∧ u = 1) ∨ (p = 2 ∧ u = 1) ∨ (p = 3 ∧ u = 1) ∨
    (p = 4 ∧ u = 2) ∨ (p = 5 ∧ u = 3) ∨ (p = 6 ∧ u = 3) ∨ (p = 7 ∧ u = farCol) := by
  simp only [farStart, farCol] at h1 h2 ⊢
  split_ifs at h1 h2 <;> omega

theorem far_adj {u v : Nat} (h : adjacent farCols farStart u v) :
    (u = 0 ∧ v = 3) ∨ (u = 1 ∧ v = 3) ∨ (u = 1 ∧ v = 2) ∨ (u = 1 ∧ v = farCol) ∨
    (u = 2 ∧ v = 1) ∨ (u = 3 ∧ v = 0) ∨ (u = 3 ∧ v = 1) ∨ (u = farCol ∧ v = 1) := by
  obtain ⟨p, hp1, hp2, hp3⟩ := h
  rcases far_owner hp2 hp1 with e | e | e | e | e | e | e | e <;>
    obtain ⟨rfl, rfl⟩ := e <;> subst hp3 <;> decide

theorem far_simple : SimpleCSR farCols farStart farN 8 := by
  refine ⟨by decide, farStart_stop, far_mono, far_cols, ?_, ?_, ?_⟩
  · intro i _ j _ h
    rcases far_adj h with e | e | e | e | e | e | e | e <;>
      obtain ⟨rfl, rfl⟩ := e <;> decide
  · intro i _ h
    rcases far_adj h with ⟨h1, h2⟩ | ⟨h1, h2⟩ | ⟨h1, h2⟩ | ⟨h1, h2⟩ |
      ⟨h1, h2⟩ | ⟨h1, h2⟩ | ⟨h1, h2⟩ | ⟨h1, h2⟩ <;>
      first | omega | (simp only [farCol] at h1 h2; omega)
  · intro i _ p hp q hq ⟨h1, h2, h3⟩
    rcases far_owner h1 hp with e | e | e | e | e | e | e | e <;>
    obtain ⟨rfl, rfl⟩ := e <;>
    rcases far_owner h2 hq with e | e | e | e | e | e | e | e <;>
    obtain ⟨rfl, hu⟩ := e <;>
    first
      | rfl
      | exact absurd hu (by decide!)
      | exact absurd h3 (by decide!)

theorem far_range : List.range farN = [0, 1, 2] ++ List.range' 3 (farN - 3) := by
  rw [List.range_eq_range']
  have h : farN = (farN - 3) + 3 := by decide
  conv_lhs => rw [h]
  rw [← List.range'_append_1]
  simp only [Nat.zero_add]
  congr 1

/-- The adjacency positions of the vertices after `2` are `5`, `6`, `7`. -/
theorem far_later_pos {v p : Nat} (hv : v ∈ List.range' 3 (farN - 3))
    (hp : p ∈ nbrPos farStart v) : 5 ≤ p ∧ p < 8 := by
  rw [List.mem_range'_1] at hv
  rw [mem_nbrPos] at hp
  have := farStart_le (v + 1)
  have h5 : 5 ≤ farStart v := by
    simp only [farStart, farCol]
    split_ifs <;> omega
  omega

/-- On this graph `compute` leaves `f[4][2] = 1/2` from a raw matrix that
is zero in row `4`: the column `farCol` is read back from `pos` as `1`. -/
theorem far_f4 (g : Mat) (hg : g 4 2 = 0) :
    (rawPass g farCols farStart farN).f 4 2 = 1 / 2 := by
  rw [rawPass_f4_entry g farCols farStart farN 2 (by decide), hg, rawPass_eq, far_range,
    passFold_append, fold_f_notin _ _ _ _ _ _ (by
      intro h
      rw [List.mem_range'_1] at h
      omega)]
  have : (passFold farCols farStart [0, 1, 2]
      ⟨zeroMat, fun _ => 0, fun _ => 0, fun _ => 0, fun _ => 0, fun _ => 0⟩).f 4 2 = 1 / 2 := by
    decide!
  rw [this]
  norm_num

theorem far_later_frame (q : Int) (hq : q < 5) (v : Nat) (hv : v ∈ List.range' 3 (farN - 3))
    (p : Nat) (hp : p ∈ nbrPos farStart v) : toInt32 (p + 1) - 1 ≠ q := by
  obtain ⟨h1, h2⟩ := far_later_pos hv hp
  rw [toInt32_succ_sub_one (by omega)]
  omega

/-- On this graph the raw-count loop leaves `c3[4] = 1`, at the position of
vertex `1` in the range of vertex `2`. -/
theorem far_c3_four (g : Mat) :
    (rawPass g farCols farStart farN).c3 ((4 : Nat) : Int) = 1 := by
  rw [rawPass_c3_indep g zeroMat, rawPass_eq, far_range, passFold_append,
    fold_c3_frame _ _ _ _ (fold_noMarks _ _ _ _ (noMarks_init zeroMat)) _
      (far_later_frame _ (by norm_num))]
  decide!

/-- On this graph the raw-count loop leaves `c3[2] = 0`, at the position of
vertex `2` in the range of vertex `1`. -/
theorem far_c3_two (g : Mat) :
    (rawPass g farCols farStart farN).c3 ((2 : Nat) : Int) = 0 := by
  rw [rawPass_c3_indep g zeroMat, rawPass_eq, far_range, passFold_append,
    fold_c3_frame _ _ _ _ (fold_noMarks _ _ _ _ (noMarks_init zeroMat)) _
      (far_later_frame _ (by norm_num))]
  decide!

theorem far_degree_two : degree farStart 2 = 1 := by decide

theorem far_degree_one : degree farStart 1 = 3 := by decide

theorem far_two_lt : 2 < farN := by decide

theorem far_nbrPairs_two : nbrPairs farCols farStart farN 2 = 0 := by
  rw [← far_simple.choose_eq_nbrPairs far_two_lt, far_degree_two]
  rfl

theorem far_triangles_two : trianglesAt farCols farStart farN 2 = 0 := by
  have := nbrPairs_split farCols farStart farN 2
  rw [far_nbrPairs_two] at this
  omega

theorem far_induced_two : inducedPathEnds farCols farStart farN 2 = 2 := by
  have h1 := far_simple.sum_degree far_two_lt
  have h2 := far_simple.walksFrom_split far_two_lt
  rw [far_triangles_two] at h2
  have h3 : ∑ p in Finset.Ico (farStart 2) (farStart (2 + 1)), degree farStart (farCols p) = 3 := by
    decide
  rw [h3, far_degree_two] at h1
  omega

theorem far_common_two_one : commonNeighbours farCols farStart farN 2 1 = 0 := by
  unfold commonNeighbours
  rw [Finset.card_eq_zero, Finset.filter_eq_empty_iff]
  rintro v - ⟨h1, h2⟩
  rcases far_adj h1 with ⟨a, b⟩ | ⟨a, b⟩ | ⟨a, b⟩ | ⟨a, b⟩ | ⟨a, b⟩ | ⟨a, b⟩ | ⟨a, b⟩ |
    ⟨a, b⟩ <;>
  rcases far_adj h2 with ⟨c, d⟩ | ⟨c, d⟩ | ⟨c, d⟩ | ⟨c, d⟩ | ⟨c, d⟩ | ⟨c, d⟩ | ⟨c, d⟩ |
    ⟨c, d⟩ <;>
  first | omega | (simp only [farCol] at a b c d; omega)

theorem far_total : totalTriangles farCols farStart farN = 0 := by
  unfold totalTriangles
  rw [Finset.card_eq_zero, Finset.filter_eq_empty_iff]
  rintro ⟨x, y, z⟩ - ⟨h1, h2, h3, h4, -⟩
  simp only at h1 h2 h3 h4
  rcases far_adj h3 with ⟨a, b⟩ | ⟨a, b⟩ | ⟨a, b⟩ | ⟨a, b⟩ | ⟨a, b⟩ | ⟨a, b⟩ | ⟨a, b⟩ |
    ⟨a, b⟩ <;>
  rcases far_adj h4 with ⟨c, d⟩ | ⟨c, d⟩ | ⟨c, d⟩ | ⟨c, d⟩ | ⟨c, d⟩ | ⟨c, d⟩ | ⟨c, d⟩ |
    ⟨c, d⟩ <;>
  first | omega | (simp only [farCol] at a b c d; omega)

/-! ## The star with `starLeaves` leaves -/

/-- C1: for every vertex index `i` and raw matrix `d`, `raw2net f d i` sets
the sixteen net values of column `i` to the tabulated integer combinations
of the raw values of column `i`. -/
theorem raw2net_column (f d : Mat) (i : Nat) :
    raw2net f d i 0 i = d 0 i ∧
    raw2net f d i 1 i = d 1 i ∧
    raw2net f d i 2 i = d 2 i - 2 * d 4 i ∧
    raw2net f d i 3 i = d 3 i - d 4 i ∧
    raw2net f d i 4 i = d 4 i ∧
    raw2net f d i 5 i =
      d 5 i - 2 * d 9 i - d 10 i - 2 * d 12 i + 4 * d 13 i + 2 * d 14 i - 6 * d 15 i ∧
    raw2net f d i 6 i =
      d 6 i - d 10 i - 2 * d 11 i - 2 * d 12 i + 2 * d 13 i + 4 * d 14 i - 6 * d 15 i ∧
    raw2net f d i 7 i = d 7 i - d 9 i - d 10 i + 2 * d 13 i + d 14 i - 3 * d 15 i ∧
    raw2net f d i 8 i = d 8 i - d 11 i + d 14 i - d 15 i ∧
    raw2net f d i 9 i = d 9 i - 2 * d 13 i + 3 * d 15 i ∧
    raw2net f d i 10 i = d 10 i - 2 * d 13 i - 2 * d 14 i + 6 * d 15 i ∧
    raw2net f d i 11 i = d 11 i - 2 * d 14 i + 3 * d 15 i ∧
    raw2net f d i 12 i = d 12 i - d 13 i - d 14 i + 3 * d 15 i ∧
    raw2net f d i 13 i = d 13 i - 3 * d 15 i ∧
    raw2net f d i 14 i = d 14 i - 3 * d 15 i ∧
    raw2net f d i 15 i = d 15 i := by
  simp [raw2net]

/-- C9: the raw-to-net map of `raw2net` is the linear map `raw2netVec` on
sixteen-component vectors, and the linear map with the integer table
`net2rawCoeff` is its two-sided inverse. -/
theorem raw2net_invertible :
    (∀ (f d : Mat) (i : Nat) (r : Fin 16),
      raw2net f d i r i = raw2netVec (fun c => d c i) r) ∧
    ∃ M : Fin 16 → Fin 16 → ℤ,
      (∀ d : Fin 16 → ℚ, linMap M (raw2netVec d) = d) ∧
      (∀ x : Fin 16 → ℚ, raw2netVec (linMap M x) = x) :=
  ⟨raw2net_eq_vec, net2rawCoeff, net2raw_raw2net, raw2net_net2raw⟩

/-- C10 as stated fails: when an allocation fails on the triangle graph
with a zero raw matrix, `compute` returns `1` but the raw matrix is no
longer the one supplied (its degree row reads `2`). -/
theorem compute_fail_touches_raw :
    allocFail.ok = false ∧
    ¬ ((compute allocFail zeroMat zeroMat triangleCols triangleStart 3 6 1).status ≠ 0 ∧
       (compute allocFail zeroMat zeroMat triangleCols triangleStart 3 6 1).f = zeroMat ∧
       (compute allocFail zeroMat zeroMat triangleCols triangleStart 3 6 1).fn = zeroMat) := by
  refine ⟨by decide, ?_⟩
  rintro ⟨-, hf, -⟩
  have h := congrFun (congrFun hf 1) 0
  rw [compute_fail _ _ _ _ _ _ _ _ (by decide)] at h
  simp only [] at h
  rw [degreePass_apply] at h
  simp [degree, triangleStart, zeroMat] at h

/-- C10, amended: when any scratch allocation fails, `compute` returns the
failure status `1`, leaves the net matrix exactly as on entry, and leaves
every cell of the raw matrix as on entry except the degree cells `f[1][i]`,
`i < n`, written before the allocations; with non-decreasing row offsets
these hold `rowOffset[i+1] - rowOffset[i]`. -/
theorem compute_fail_outcome (a : Alloc) (f fn : Mat) (ii jStart : Nat → Nat)
    (n m np : Nat) (ha : a.ok = false) :
    (compute a f fn ii jStart n m np).status = 1 ∧
    (compute a f fn ii jStart n m np).fn = fn ∧
    (∀ r c, ¬ (r = 1 ∧ c < n) → (compute a f fn ii jStart n m np).f r c = f r c) ∧
    (MonoOffsets jStart n → ∀ c, c < n →
      (compute a f fn ii jStart n m np).f 1 c = (jStart (c + 1) : ℚ) - (jStart c : ℚ)) := by
  rw [compute_fail a f fn ii jStart n m np ha]
  refine ⟨rfl, rfl, fun r c hrc => ?_, fun hmono c hc => ?_⟩
  · simp only []
    rw [degreePass_apply, if_neg hrc]
  · simp only []
    rw [degreePass_apply, if_pos ⟨rfl, hc⟩]
    unfold degree
    exact Nat.cast_sub (hmono c hc)

theorem compute_fail_outcome_witness :
    allocFail.ok = false ∧
    (compute allocFail zeroMat zeroMat triangleCols triangleStart 3 6 1).status = 1 ∧
    (compute allocFail zeroMat zeroMat triangleCols triangleStart 3 6 1).fn = zeroMat :=
  ⟨by decide,
    (compute_fail_outcome allocFail zeroMat zeroMat triangleCols triangleStart 3 6 1
      (by decide)).1,
    (compute_fail_outcome allocFail zeroMat zeroMat triangleCols triangleStart 3 6 1
      (by decide)).2.1⟩

/-! ## Claims on the triangle count and the per-edge buffer -/

theorem stateBefore_eq (f : Mat) (ii jStart : Nat → Nat) (n i : Nat) :
    stateBefore f ii jStart n i = passFold ii jStart (List.range i)
      ⟨degreePass f jStart n, fun _ => 0, fun _ => 0, fun _ => 0, fun _ => 0, fun _ => 0⟩ := by
  unfold stateBefore passFold
  rw [forRange_zero_eq]

theorem p2Accumulator_eq {n : Nat} (hn : n ≤ 2 ^ 31) (ii jStart : Nat → Nat) (i : Nat)
    (s : PassState) (h : Clean n s) (hf : Fits ii jStart n i)
    (hd : DistinctNbrs ii jStart i) :
    p2Accumulator ii jStart i s =
      s.f 4 i + ∑ p in Finset.Ico (jStart i) (jStart (i + 1)),
        (walkCount ii jStart i (ii p) : ℚ) := by
  have h1 := step_f4_value hn ii jStart i s h hf hd
  rw [p2_eq] at h1
  have h2 : p2Accumulator ii jStart i s / 2 =
      (s.f 4 i + ∑ p in Finset.Ico (jStart i) (jStart (i + 1)),
        (walkCount ii jStart i (ii p) : ℚ)) / 2 := h1
  have h3 := congrArg (fun x => x * 2) h2
  simpa using h3

theorem commonNeighbours_comm (ii jStart : Nat → Nat) (n i j : Nat) :
    commonNeighbours ii jStart n i j = commonNeighbours ii jStart n j i := by
  unfold commonNeighbours
  congr 1
  exact Finset.filter_congr (fun v _ => and_comm)

theorem rawPass_c3_eq_common {ii jStart : Nat → Nat} {n m : Nat}
    (h : SimpleCSR ii jStart n m) (hn : n ≤ 2 ^ 31) (hm : m < 2 ^ 31) (f : Mat) {i : Nat}
    (hi : i < n) {p : Nat} (hp1 : jStart i ≤ p) (hp2 : p < jStart (i + 1)) :
    (rawPass f ii jStart n).c3 (p : Int) = (commonNeighbours ii jStart n i (ii p) : ℚ) := by
  have hp : p ∈ nbrPos jStart i := mem_nbrPos.mpr ⟨hp1, hp2⟩
  rw [rawPass_c3 f ii jStart n m h.mono h.cols h.stop hn hm i hi (h.distinct hi) p hp,
    h.walkCount_eq hi ((adjacent_iff_mem ii jStart i (ii p)).mpr (List.mem_map_of_mem ii hp))]

theorem rawPass_f4_eq_triangles {ii jStart : Nat → Nat} {n m : Nat}
    (h : SimpleCSR ii jStart n m) (hn : n ≤ 2 ^ 31) (hm : m < 2 ^ 31) (f : Mat) {i : Nat}
    (hi : i < n) :
    (rawPass f ii jStart n).f 4 i = (f 4 i + 2 * (trianglesAt ii jStart n i : ℚ)) / 2 := by
  rw [rawPass_f4 f ii jStart n m h.mono h.cols h.stop hn hm i hi (h.distinct hi),
    h.sum_walkCount hi]

/-- The raw triangle value `compute` leaves at vertex `2` of the graph with
the edges `0 - 3`, `3 - 1`, `1 - 2`, `1 - farCol`. -/
theorem far_compute_f4 :
    (compute allocOk zeroMat zeroMat farCols farStart farN 8 1).f 4 2 = 1 / 2 := by
  rw [compute_f_ok allocOk zeroMat zeroMat farCols farStart farN 8 1 (by decide)]
  exact far_f4 _ (by rw [degreePass_other _ _ _ _ _ (by decide)]; rfl)

/-- C2 as stated fails: on the simple graph with the edges `0 - 3`, `3 - 1`,
`1 - 2` and `1 - farCol`, `farCol = 2^32 + 1`, vertex `2` lies on no
triangle, but the column `farCol` is stored in the `int` array `pos` as `1`,
the stale counter `fl[1]` is added, and `compute` leaves `f[4][2] = 1/2`. -/
theorem compute_f4_far_column :
    allocOk.ok = true ∧ SimpleCSR farCols farStart farN 8 ∧ (∀ r c, zeroMat r c = 0) ∧
    2 < farN ∧
    (compute allocOk zeroMat zeroMat farCols farStart farN 8 1).f 4 2 = 1 / 2 ∧
    trianglesAt farCols farStart farN 2 = 0 ∧
    (compute allocOk zeroMat zeroMat farCols farStart farN 8 1).f 4 2 ≠
      (trianglesAt farCols farStart farN 2 : ℚ) := by
  refine ⟨by decide, far_simple, fun _ _ => rfl, far_two_lt, far_compute_f4,
    far_triangles_two, ?_⟩
  rw [far_compute_f4, far_triangles_two]
  norm_num

/-- C2, amended: on a well-formed simple graph with at most `2^31` vertices
and fewer than `2^31` adjacency entries, with successful allocation and a
zero raw matrix on entry, `compute` leaves in `f[4][i]` the number of
triangles incident to `i` (unordered pairs of adjacent neighbours of `i`),
and the accumulator of `p2` before the halving is twice that number. -/
theorem compute_f4_triangles (a : Alloc) (f fn : Mat) (ii jStart : Nat → Nat)
    (n m np : Nat) (ha : a.ok = true) (h : SimpleCSR ii jStart n m)
    (hn : n ≤ 2 ^ 31) (hm : m < 2 ^ 31)
    (hzero : ∀ r c, f r c = 0) (i : Nat) (hi : i < n) :
    (compute a f fn ii jStart n m np).f 4 i = (trianglesAt ii jStart n i : ℚ) ∧
    p2Accumulator ii jStart i (stateBefore f ii jStart n i) =
      2 * (trianglesAt ii jStart n i : ℚ) := by
  rw [compute_ok a f fn ii jStart n m np ha]
  have hz : degreePass f jStart n 4 i = 0 := by
    rw [degreePass_apply, if_neg (by simp), hzero]
  constructor
  · simp only []
    rw [rawPass_f4_eq_triangles h hn hm _ hi, hz]
    ring
  · have hfit : ∀ v, v ∈ List.range i → Fits ii jStart n v := fun v hv =>
      fits_of h.mono h.cols h.stop hm (lt_trans (List.mem_range.mp hv) hi)
    rw [stateBefore_eq, p2Accumulator_eq hn ii jStart i _
      (fold_clean hn ii jStart _ _ (clean_init n _) hfit)
      (fits_of h.mono h.cols h.stop hm hi) (h.distinct hi),
      fold_f_notin _ _ _ _ _ _ (by simp), h.sum_walkCount hi]
    simp only []
    rw [hz, zero_add]

theorem compute_f4_triangles_witness :
    allocOk.ok = true ∧ SimpleCSR triangleCols triangleStart 3 6 ∧
    3 ≤ 2 ^ 31 ∧ 6 < 2 ^ 31 ∧ (∀ r c, zeroMat r c = 0) ∧
    ∀ i, i < 3 →
      (compute allocOk zeroMat zeroMat triangleCols triangleStart 3 6 1).f 4 i = 1 := by
  have hs : SimpleCSR triangleCols triangleStart 3 6 :=
    ⟨by decide, by decide, by decide, by decide, by decide, by decide, by decide⟩
  refine ⟨by decide, hs, by norm_num, by norm_num, fun _ _ => rfl, fun i hi => ?_⟩
  rw [(compute_f4_triangles allocOk zeroMat zeroMat triangleCols triangleStart 3 6 1
    (by decide) hs (by norm_num) (by norm_num) (fun _ _ => rfl) i hi).1]
  have ht : trianglesAt triangleCols triangleStart 3 i = 1 := by
    interval_cases i <;> decide
  rw [ht]
  norm_num

/-- C3 as stated fails: on the simple graph with the edges `0 - 3`, `3 - 1`,
`1 - 2` and `1 - farCol`, `farCol = 2^32 + 1`, the vertices `2` and `1` have
no common neighbour, but the raw-count pass leaves `c3[4] = 1` at the
position of `1` in the range of `2`. -/
theorem rawPass_c3_far_column :
    SimpleCSR farCols farStart farN 8 ∧ 2 < farN ∧
    farStart 2 ≤ 4 ∧ 4 < farStart (2 + 1) ∧ farCols 4 = 1 ∧
    (rawPass zeroMat farCols farStart farN).c3 ((4 : Nat) : Int) = 1 ∧
    commonNeighbours farCols farStart farN 2 1 = 0 ∧
    (rawPass zeroMat farCols farStart farN).c3 ((4 : Nat) : Int) ≠
      (commonNeighbours farCols farStart farN 2 1 : ℚ) := by
  have h4 : (rawPass zeroMat farCols farStart farN).c3 ((4 : Nat) : Int) = 1 :=
    far_c3_four zeroMat
  refine ⟨far_simple, far_two_lt, by decide, by decide, by decide, h4,
    far_common_two_one, ?_⟩
  rw [h4, far_common_two_one]
  norm_num

/-- C3, amended: on a well-formed simple graph with at most `2^31` vertices
and fewer than `2^31` adjacency entries, after the raw-count pass started on
zero-filled `c3` and scratch arrays, `c3` holds at every adjacency position
`p` of vertex `i`, with `colIndex[p] = j`, the number of common neighbours
of `i` and `j`; it is `0` where the edge has no common neighbour. -/
theorem rawPass_c3_common (f : Mat) (ii jStart : Nat → Nat) (n m : Nat)
    (h : SimpleCSR ii jStart n m) (hn : n ≤ 2 ^ 31) (hm : m < 2 ^ 31)
    (i : Nat) (hi : i < n) (p j : Nat)
    (hp1 : jStart i ≤ p) (hp2 : p < jStart (i + 1)) (hj : ii p = j) :
    (rawPass f ii jStart n).c3 (p : Int) = (commonNeighbours ii jStart n i j : ℚ) ∧
    (commonNeighbours ii jStart n i j = 0 → (rawPass f ii jStart n).c3 (p : Int) = 0) := by
  have hc := rawPass_c3_eq_common h hn hm f hi hp1 hp2
  rw [hj] at hc
  refine ⟨hc, fun h0 => ?_⟩
  rw [hc, h0]
  exact Nat.cast_zero

theorem rawPass_c3_common_witness :
    SimpleCSR triangleCols triangleStart 3 6 ∧ 3 ≤ 2 ^ 31 ∧ 6 < 2 ^ 31 ∧
    (rawPass (degreePass zeroMat triangleStart 3) triangleCols triangleStart 3).c3
      ((0 : Nat) : Int) = 1 := by
  have hs : SimpleCSR triangleCols triangleStart 3 6 :=
    ⟨by decide, by decide, by decide, by decide, by decide, by decide, by decide⟩
  refine ⟨hs, by norm_num, by norm_num, ?_⟩
  rw [(rawPass_c3_common (degreePass zeroMat triangleStart 3) triangleCols triangleStart 3 6
    hs (by norm_num) (by norm_num) 0 (by decide) 0 1 (by decide) (by decide) (by decide)).1]
  have hc : commonNeighbours triangleCols triangleStart 3 0 1 = 1 := by decide
  rw [hc]
  norm_num

/-- C7 as stated fails: on the simple graph with the edges `0 - 3`, `3 - 1`,
`1 - 2` and `1 - farCol`, `farCol = 2^32 + 1`, the edge `(1, 2)` has the
value `0` at the position of `2` in the range of `1` and the value `1` at
the position of `1` in the range of `2`. -/
theorem rawPass_c3_asymmetric :
    SimpleCSR farCols farStart farN 8 ∧ 1 < farN ∧ 2 < farN ∧
    farStart 1 ≤ 2 ∧ 2 < farStart (1 + 1) ∧ farCols 2 = 2 ∧
    farStart 2 ≤ 4 ∧ 4 < farStart (2 + 1) ∧ farCols 4 = 1 ∧
    (rawPass zeroMat farCols farStart farN).c3 ((2 : Nat) : Int) = 0 ∧
    (rawPass zeroMat farCols farStart farN).c3 ((4 : Nat) : Int) = 1 ∧
    (rawPass zeroMat farCols farStart farN).c3 ((2 : Nat) : Int) ≠
      (rawPass zeroMat farCols farStart farN).c3 ((4 : Nat) : Int) := by
  have h2 : (rawPass zeroMat farCols farStart farN).c3 ((2 : Nat) : Int) = 0 :=
    far_c3_two zeroMat
  have h4 : (rawPass zeroMat farCols farStart farN).c3 ((4 : Nat) : Int) = 1 :=
    far_c3_four zeroMat
  refine ⟨far_simple, by decide, far_two_lt, by decide, by decide, by decide, by decide,
    by decide, by decide, h2, h4, ?_⟩
  rw [h2, h4]
  norm_num

/-- C7, amended: on a well-formed simple graph with at most `2^31` vertices
and fewer than `2^31` adjacency entries the per-edge buffer left by the
raw-count pass is symmetric: for an edge `(i, k)`, the value at the position
of `k` in the range of `i` equals the value at the position of `i` in the
range of `k`. -/
theorem rawPass_c3_symmetric (f : Mat) (ii jStart : Nat → Nat) (n m : Nat)
    (h : SimpleCSR ii jStart n m) (hn : n ≤ 2 ^ 31) (hm : m < 2 ^ 31)
    (i k : Nat) (hi : i < n) (hk : k < n) (p q : Nat)
    (hp1 : jStart i ≤ p) (hp2 : p < jStart (i + 1)) (hpk : ii p = k)
    (hq1 : jStart k ≤ q) (hq2 : q < jStart (k + 1)) (hqi : ii q = i) :
    (rawPass f ii jStart n).c3 (p : Int) = (rawPass f ii jStart n).c3 (q : Int) := by
  rw [rawPass_c3_eq_common h hn hm f hi hp1 hp2, rawPass_c3_eq_common h hn hm f hk hq1 hq2,
    hpk, hqi, commonNeighbours_comm]

theorem rawPass_c3_symmetric_witness :
    SimpleCSR triangleCols triangleStart 3 6 ∧ 3 ≤ 2 ^ 31 ∧ 6 < 2 ^ 31 ∧
    (rawPass (degreePass zeroMat triangleStart 3) triangleCols triangleStart 3).c3
        ((1 : Nat) : Int) =
      (rawPass (degreePass zeroMat triangleStart 3) triangleCols triangleStart 3).c3
        ((4 : Nat) : Int) := by
  have hs : SimpleCSR triangleCols triangleStart 3 6 :=
    ⟨by decide, by decide, by decide, by decide, by decide, by decide, by decide⟩
  exact ⟨hs, by norm_num, by norm_num,
    rawPass_c3_symmetric (degreePass zeroMat triangleStart 3) triangleCols
    triangleStart 3 6 hs (by norm_num) (by norm_num) 0 2 (by decide) (by decide) 1 4
    (by decide) (by decide) (by decide) (by decide) (by decide) (by decide)⟩

/-- C8 as stated fails: the simple graph with the edges `0 - 3`, `3 - 1`,
`1 - 2` and `1 - farCol`, `farCol = 2^32 + 1`, has no triangle, but the raw
triangle values are non-negative and `f[4][2] = 1/2`, so their sum divided
by `3` is not `0`. -/
theorem far_column_f4_sum :
    allocOk.ok = true ∧ SimpleCSR farCols farStart farN 8 ∧ (∀ r c, zeroMat r c = 0) ∧
    totalTriangles farCols farStart farN = 0 ∧
    (∑ i in Finset.range farN,
      (compute allocOk zeroMat zeroMat farCols farStart farN 8 1).f 4 i) / 3 ≠
      (totalTriangles farCols farStart farN : ℚ) := by
  refine ⟨by decide, far_simple, fun _ _ => rfl, far_total, ?_⟩
  have hnn : ∀ i, i ∈ Finset.range farN →
      0 ≤ (compute allocOk zeroMat zeroMat farCols farStart farN 8 1).f 4 i := by
    intro i _
    rw [compute_f_ok allocOk zeroMat zeroMat farCols farStart farN 8 1 (by decide)]
    apply rawPass_f4_nonneg
    intro c
    rw [degreePass_other _ _ _ _ _ (by decide)]
    exact le_refl 0
  have hle : (compute allocOk zeroMat zeroMat farCols farStart farN 8 1).f 4 2 ≤
      ∑ i in Finset.range farN,
        (compute allocOk zeroMat zeroMat farCols farStart farN 8 1).f 4 i :=
    Finset.single_le_sum hnn (Finset.mem_range.mpr far_two_lt)
  rw [far_compute_f4] at hle
  rw [far_total]
  generalize (∑ i in Finset.range farN,
    (compute allocOk zeroMat zeroMat farCols farStart farN 8 1).f 4 i) = S at hle
  intro hc
  have h0 : S = 0 := by
    have := congrArg (fun x => x * 3) hc
    simpa using this
  rw [h0] at hle
  norm_num at hle

/-- C8, amended: on a well-formed simple graph with at most `2^31` vertices
and fewer than `2^31` adjacency entries, with successful allocation and a
zero raw matrix on entry, the sum over all vertices of the raw triangle
values `f[4][i]` left by `compute`, divided by `3`, is the number of
unordered triples of pairwise adjacent vertices. -/
theorem compute_f4_sum (a : Alloc) (f fn : Mat) (ii jStart : Nat → Nat)
    (n m np : Nat) (ha : a.ok = true) (h : SimpleCSR ii jStart n m)
    (hn : n ≤ 2 ^ 31) (hm : m < 2 ^ 31)
    (hzero : ∀ r c, f r c = 0) :
    (∑ i in Finset.range n, (compute a f fn ii jStart n m np).f 4 i) / 3 =
      (totalTriangles ii jStart n : ℚ) := by
  rw [compute_ok a f fn ii jStart n m np ha]
  have hcol : ∀ i, i ∈ Finset.range n →
      (rawPass (degreePass f jStart n) ii jStart n).f 4 i =
        (trianglesAt ii jStart n i : ℚ) := by
    intro i hi
    have hz : degreePass f jStart n 4 i = 0 := by
      rw [degreePass_apply, if_neg (by simp), hzero]
    rw [rawPass_f4_eq_triangles h hn hm _ (Finset.mem_range.mp hi), hz]
    ring
  simp only []
  rw [Finset.sum_congr rfl hcol, ← Nat.cast_sum, h.sum_trianglesAt]
  push_cast
  ring

theorem compute_f4_sum_witness :
    allocOk.ok = true ∧ SimpleCSR triangleCols triangleStart 3 6 ∧
    3 ≤ 2 ^ 31 ∧ 6 < 2 ^ 31 ∧ (∀ r c, zeroMat r c = 0) ∧
    (∑ i in Finset.range 3,
      (compute allocOk zeroMat zeroMat triangleCols triangleStart 3 6 1).f 4 i) / 3 = 1 := by
  have hs : SimpleCSR triangleCols triangleStart 3 6 :=
    ⟨by decide, by decide, by decide, by decide, by decide, by decide, by decide⟩
  refine ⟨by decide, hs, by norm_num, by norm_num, fun _ _ => rfl, ?_⟩
  rw [compute_f4_sum allocOk zeroMat zeroMat triangleCols triangleStart 3 6 1
    (by decide) hs (by norm_num) (by norm_num) (fun _ _ => rfl)]
  have ht : totalTriangles triangleCols triangleStart 3 = 1 := by decide
  rw [ht]
  norm_num

/-! ## Claims on determinism, the caller-supplied rows and the scratch flags -/

/-- The order `2, 0, 1, 3, 4, ...` of the vertices of the graph with the
edges `0 - 3`, `3 - 1`, `1 - 2`, `1 - farCol`. -/
theorem far_perm : ([2, 0, 1] ++ List.range' 3 (farN - 3)).Perm (List.range farN) := by
  rw [far_range]
  exact List.Perm.append_right _ (by decide)

/-- In the order that starts with vertex `2` the triangle cell of vertex `2`
is `0`: no stale counter is met. -/
theorem far_f4_two_first (g : Mat) (hg : g 4 2 = 0) :
    (passFold farCols farStart ([2, 0, 1] ++ List.range' 3 (farN - 3))
      ⟨g, fun _ => 0, fun _ => 0, fun _ => 0, fun _ => 0, fun _ => 0⟩).f 4 2 = 0 := by
  have hnd : ([2, 0, 1] ++ List.range' 3 (farN - 3)).Nodup :=
    far_perm.nodup_iff.mpr (List.nodup_range farN)
  have h := fold_f4_entry farCols farStart _ hnd
    ⟨g, fun _ => 0, fun _ => 0, fun _ => 0, fun _ => 0, fun _ => 0⟩
    ⟨zeroMat, fun _ => 0, fun _ => 0, fun _ => 0, fun _ => 0, fun _ => 0⟩
    ⟨rfl, rfl, rfl, rfl, rfl⟩ 2 (by simp)
  have h0 : (passFold farCols farStart ([2, 0, 1] ++ List.range' 3 (farN - 3))
      ⟨zeroMat, fun _ => 0, fun _ => 0, fun _ => 0, fun _ => 0, fun _ => 0⟩).f 4 2 = 0 := by
    rw [passFold_append, fold_f_notin _ _ _ _ _ _ (by
      intro hc
      rw [List.mem_range'_1] at hc
      omega)]
    decide!
  have hz : zeroMat 4 2 = 0 := rfl
  rw [h0] at h
  change _ - g 4 2 / 2 = 0 - zeroMat 4 2 / 2 at h
  rw [hg, hz] at h
  linarith

/-- C16 as stated fails twice. On four vertices with the row offsets
`0, 3, 2, 4, 6` (not non-decreasing) and the column indices
`2, 2, 3, 0, 0, 2`, with the degree row filled and zero-filled scratch
arrays, the per-vertex steps in the order `2, 1, 0, 3` leave `c3[2] = 2`,
while the loop in increasing order leaves `c3[2] = 1` (the buffer `c3` does
not depend on the raw matrix, so the degree row plays no part). On the graph
with the edges `0 - 3`, `3 - 1`, `1 - 2` and `1 - farCol`, `farCol = 2^32 + 1`,
the order that starts with vertex `2` leaves `f[4][2] = 0`, while the loop
in increasing order leaves `f[4][2] = 1/2`. -/
theorem rawPass_order_matters :
    ([2, 1, 0, 3].Perm (List.range 4) ∧
      (passFold twistCols twistStart [2, 1, 0, 3]
        (freshState (degreePass zeroMat twistStart 4))).c3 2 = 2 ∧
      (rawPass (degreePass zeroMat twistStart 4) twistCols twistStart 4).c3 2 = 1 ∧
      ¬ ((passFold twistCols twistStart [2, 1, 0, 3]
          (freshState (degreePass zeroMat twistStart 4))).c3 =
        (rawPass (degreePass zeroMat twistStart 4) twistCols twistStart 4).c3)) ∧
    (MonoOffsets farStart farN ∧ ColsInRange farCols farStart farN ∧
      ([2, 0, 1] ++ List.range' 3 (farN - 3)).Perm (List.range farN) ∧
      (passFold farCols farStart ([2, 0, 1] ++ List.range' 3 (farN - 3))
        ⟨degreePass zeroMat farStart farN, fun _ => 0, fun _ => 0, fun _ => 0, fun _ => 0,
          fun _ => 0⟩).f 4 2 = 0 ∧
      (rawPass (degreePass zeroMat farStart farN) farCols farStart farN).f 4 2 = 1 / 2 ∧
      ¬ ((passFold farCols farStart ([2, 0, 1] ++ List.range' 3 (farN - 3))
          ⟨degreePass zeroMat farStart farN, fun _ => 0, fun _ => 0, fun _ => 0, fun _ => 0,
            fun _ => 0⟩).f =
        (rawPass (degreePass zeroMat farStart farN) farCols farStart farN).f)) := by
  have h1 : (passFold twistCols twistStart [2, 1, 0, 3]
      (freshState (degreePass zeroMat twistStart 4))).c3 2 = 2 := by decide!
  have h2 : (rawPass (degreePass zeroMat twistStart 4) twistCols twistStart 4).c3 2 = 1 := by
    decide!
  have hg : degreePass zeroMat farStart farN 4 2 = 0 := by
    rw [degreePass_other _ _ _ _ _ (by decide)]
    rfl
  have h3 := far_f4_two_first _ hg
  have h4 := far_f4 _ hg
  refine ⟨⟨by decide, h1, h2, fun he => ?_⟩, far_mono, far_cols, far_perm, h3, h4,
    fun he => ?_⟩
  · have h5 := congrFun he 2
    rw [h1, h2] at h5
    norm_num at h5
  · have h5 := congrFun (congrFun he 4) 2
    rw [h3, h4] at h5
    norm_num at h5

/-- C16, amended: for an input with non-decreasing row offsets ending at
`m`, column indices below `n`, at most `2^31` vertices and fewer than `2^31`
adjacency entries, started on zero-filled scratch arrays, the per-vertex
step of the raw-count loop run over the vertices `0..n-1` in any order
leaves the same raw matrix and the same per-edge buffer as the loop in
increasing order; the step for vertex `i` writes only column `i` of the raw
matrix. -/
theorem rawPass_any_order (g : Mat) (ii jStart : Nat → Nat) (n m : Nat)
    (hmono : MonoOffsets jStart n) (hcols : ColsInRange ii jStart n) (hstop : jStart n = m)
    (hn : n ≤ 2 ^ 31) (hm : m < 2 ^ 31)
    (vs : List Nat) (hperm : vs.Perm (List.range n)) :
    (passFold ii jStart vs
      ⟨g, fun _ => 0, fun _ => 0, fun _ => 0, fun _ => 0, fun _ => 0⟩).f =
      (rawPass g ii jStart n).f ∧
    (passFold ii jStart vs
      ⟨g, fun _ => 0, fun _ => 0, fun _ => 0, fun _ => 0, fun _ => 0⟩).c3 =
      (rawPass g ii jStart n).c3 ∧
    (∀ (i : Nat) (t : PassState) (r c : Nat), c ≠ i →
      (firstPassStep ii jStart i t).f r c = t.f r c) := by
  have hnd : vs.Nodup := hperm.nodup_iff.mpr (List.nodup_range n)
  have hmem : ∀ v, v ∈ vs ↔ v < n := fun v => by rw [hperm.mem_iff, List.mem_range]
  have hfit : ∀ v, v ∈ vs → Fits ii jStart n v :=
    fun v hv => fits_of hmono hcols hstop hm ((hmem v).mp hv)
  have hfit' : ∀ v, v ∈ List.range n → Fits ii jStart n v :=
    fun v hv => fits_of hmono hcols hstop hm (List.mem_range.mp hv)
  refine ⟨?_, ?_, fun i t r c hc => step_f_other ii jStart i t r c hc⟩
  · funext r c
    rw [rawPass_eq, fold_f_apply hn ii jStart vs hnd hfit _ (clean_init n g),
      fold_f_apply hn ii jStart _ (List.nodup_range n) hfit' _ (clean_init n g)]
    simp only [hmem, List.mem_range]
  · have hdisj : ∀ (L : List Nat), (∀ v, v ∈ L → v < n) →
        ∀ u, u ∈ L → ∀ w, w ∈ L → u ≠ w → ∀ q, q ∈ nbrPos jStart u →
          q ∉ nbrPos jStart w :=
      fun L hL u hu w hw hne q hq => nbrPos_disjoint hmono (hL w hw) (hL u hu) hne.symm hq
    funext q
    rw [rawPass_eq]
    by_cases hq : ∃ v, v < n ∧ ∃ p, p ∈ nbrPos jStart v ∧ (p : Int) = q
    · obtain ⟨v, hv, p, hpv, rfl⟩ := hq
      rw [fold_c3_eq_step hn ii jStart vs hnd hfit (hdisj vs (fun v hv => (hmem v).mp hv)) _
          (clean_init n g) v ((hmem v).mpr hv) p hpv,
        fold_c3_eq_step hn ii jStart _ (List.nodup_range n) hfit'
          (hdisj _ (fun v hv => List.mem_range.mp hv)) _ (clean_init n g) v
          (List.mem_range.mpr hv) p hpv]
    · rw [fold_c3_outside hn ii jStart vs _ (clean_init n g) hfit q
          (fun v hv p hp he => hq ⟨v, (hmem v).mp hv, p, hp, he⟩),
        fold_c3_outside hn ii jStart _ _ (clean_init n g) hfit' q
          (fun v hv p hp he => hq ⟨v, List.mem_range.mp hv, p, hp, he⟩)]

theorem rawPass_any_order_witness :
    MonoOffsets triangleStart 3 ∧ ColsInRange triangleCols triangleStart 3 ∧
    triangleStart 3 = 6 ∧ 3 ≤ 2 ^ 31 ∧ 6 < 2 ^ 31 ∧
    [2, 0, 1].Perm (List.range 3) ∧
    (passFold triangleCols triangleStart [2, 0, 1]
      ⟨degreePass zeroMat triangleStart 3, fun _ => 0, fun _ => 0, fun _ => 0, fun _ => 0,
        fun _ => 0⟩).f =
      (rawPass (degreePass zeroMat triangleStart 3) triangleCols triangleStart 3).f ∧
    (passFold triangleCols triangleStart [2, 0, 1]
      ⟨degreePass zeroMat triangleStart 3, fun _ => 0, fun _ => 0, fun _ => 0, fun _ => 0,
        fun _ => 0⟩).c3 =
      (rawPass (degreePass zeroMat triangleStart 3) triangleCols triangleStart 3).c3 :=
  ⟨by decide, by decide, by decide, by norm_num, by norm_num, by decide,
    (rawPass_any_order (degreePass zeroMat triangleStart 3) triangleCols triangleStart 3 6
      (by decide) (by decide) (by decide) (by norm_num) (by norm_num)
      [2, 0, 1] (by decide)).1,
    (rawPass_any_order (degreePass zeroMat triangleStart 3) triangleCols triangleStart 3 6
      (by decide) (by decide) (by decide) (by norm_num) (by norm_num)
      [2, 0, 1] (by decide)).2.1⟩

/-! ## Claims on the 2-path, star and triangle values of a simple graph -/

theorem netCombination_two (d : Mat) (i : Nat) :
    netCombination d i 2 = d 2 i - 2 * d 4 i := rfl

theorem netCombination_three (d : Mat) (i : Nat) :
    netCombination d i 3 = d 3 i - d 4 i := rfl

/-- The degree and the raw 2-path value left by the raw-count loop on a
well-formed simple graph. -/
theorem raw_simple_values {ii jStart : Nat → Nat} {n m : Nat}
    (h : SimpleCSR ii jStart n m) (f : Mat) {i : Nat} (hi : i < n) :
    (rawPass (degreePass f jStart n) ii jStart n).f 1 i = (degree jStart i : ℚ) ∧
    (rawPass (degreePass f jStart n) ii jStart n).f 2 i =
      f 2 i + (walksFrom ii jStart n i : ℚ) ∧
    (rawPass (degreePass f jStart n) ii jStart n).f 3 i =
      starProduct (degree jStart i : ℚ) := by
  refine ⟨?_, ?_, ?_⟩
  · rw [raw_row _ _ _ _ _ _ (by decide) (by decide) (by decide) (by decide),
      degreePass_row1 _ _ _ _ hi]
  · rw [raw_f2 _ _ _ _ _ hi, degreePass_other _ _ _ _ _ (by decide),
      degreePass_row1 _ _ _ _ hi]
    have hs : ∑ p in Finset.Ico (jStart i) (jStart (i + 1)),
        degreePass f jStart n 1 (ii p) =
        ((∑ p in Finset.Ico (jStart i) (jStart (i + 1)), degree jStart (ii p) : Nat) : ℚ) := by
      rw [Nat.cast_sum]
      exact Finset.sum_congr rfl
        (fun p hp => degreePass_row1 _ _ _ _ (col_lt h.mono h.cols hi hp))
    rw [hs, h.sum_degree hi]
    push_cast
    ring
  · rw [raw_f3 _ _ _ _ _ hi, degreePass_row1 _ _ _ _ hi]

/-- The triangle value left by the raw-count loop on a well-formed simple
graph that fits the `int` scratch cells. -/
theorem raw_simple_f4 {ii jStart : Nat → Nat} {n m : Nat}
    (h : SimpleCSR ii jStart n m) (hn : n ≤ 2 ^ 31) (hm : m < 2 ^ 31) (f : Mat) {i : Nat}
    (hi : i < n) :
    (rawPass (degreePass f jStart n) ii jStart n).f 4 i =
      (f 4 i + 2 * (trianglesAt ii jStart n i : ℚ)) / 2 := by
  rw [rawPass_f4_eq_triangles h hn hm _ hi, degreePass_other _ _ _ _ _ (by decide)]

theorem path_simple : SimpleCSR pathCols pathStart 3 4 :=
  ⟨by decide, by decide, by decide, by decide, by decide, by decide, by decide⟩

/-- The net values `fn[2]` and `fn[3]` are the `raw2net` combinations of the
raw column. -/
theorem compute_fn_two_three (a : Alloc) (f fn : Mat) (ii jStart : Nat → Nat)
    (n m np : Nat) (ha : a.ok = true) (i : Nat) (hi : i < n) :
    (compute a f fn ii jStart n m np).fn 2 i =
      (compute a f fn ii jStart n m np).f 2 i - 2 * (compute a f fn ii jStart n m np).f 4 i ∧
    (compute a f fn ii jStart n m np).fn 3 i =
      (compute a f fn ii jStart n m np).f 3 i - (compute a f fn ii jStart n m np).f 4 i := by
  rw [compute_fn_ok a f fn ii jStart n m np ha, compute_f_ok a f fn ii jStart n m np ha,
    netPass_apply, netPass_apply, if_pos ⟨hi, by decide⟩, if_pos ⟨hi, by decide⟩,
    netCombination_two, netCombination_three]
  exact ⟨rfl, rfl⟩

/-- The raw values `compute` leaves at vertex `2` of the graph with the edges
`0 - 3`, `3 - 1`, `1 - 2`, `1 - farCol`. -/
theorem far_compute_f2_f3 :
    (compute allocOk zeroMat zeroMat farCols farStart farN 8 1).f 2 2 = 2 ∧
    (compute allocOk zeroMat zeroMat farCols farStart farN 8 1).f 3 2 = 0 := by
  rw [compute_f_ok allocOk zeroMat zeroMat farCols farStart farN 8 1 (by decide)]
  obtain ⟨-, v2, v3⟩ := raw_simple_values far_simple zeroMat far_two_lt
  rw [v2, v3, far_simple.walksFrom_split far_two_lt, far_triangles_two, far_induced_two,
    far_degree_two, starProduct_choose (by norm_num)]
  constructor
  · show (0 : ℚ) + ((2 * 0 + 2 : Nat) : ℚ) = 2
    norm_num
  · norm_num

/-- C18 as stated fails: on the simple graph with the edges `0 - 3`, `3 - 1`,
`1 - 2` and `1 - farCol`, `farCol = 2^32 + 1`, vertex `2` is an end of two
induced 2-paths (`2 - 1 - 3` and `2 - 1 - farCol`), but `f[4][2] = 1/2` and
`fn[2][2] = 2 - 2 * (1/2) = 1`. -/
theorem compute_fn2_far_column :
    allocOk.ok = true ∧ SimpleCSR farCols farStart farN 8 ∧ (∀ r c, zeroMat r c = 0) ∧
    2 < farN ∧
    (compute allocOk zeroMat zeroMat farCols farStart farN 8 1).fn 2 2 = 1 ∧
    inducedPathEnds farCols farStart farN 2 = 2 ∧
    (compute allocOk zeroMat zeroMat farCols farStart farN 8 1).fn 2 2 ≠
      (inducedPathEnds farCols farStart farN 2 : ℚ) := by
  have h1 : (compute allocOk zeroMat zeroMat farCols farStart farN 8 1).fn 2 2 = 1 := by
    rw [(compute_fn_two_three allocOk zeroMat zeroMat farCols farStart farN 8 1 (by decide) 2
      far_two_lt).1, far_compute_f2_f3.1, far_compute_f4]
    norm_num
  refine ⟨by decide, far_simple, fun _ _ => rfl, far_two_lt, h1, far_induced_two, ?_⟩
  rw [h1, far_induced_two]
  norm_num

/-- C18, amended: on a well-formed simple graph with at most `2^31` vertices
and fewer than `2^31` adjacency entries, with successful allocation and a
zero raw matrix on entry, the net value `fn[2][i] = f[2][i] - 2 f[4][i]` is
the number of pairs `(k, j)` with `k` a neighbour of `i`, `j` a neighbour of
`k`, `j ≠ i` and `j` not a neighbour of `i`; it is a non-negative integer. -/
theorem compute_fn2_induced (a : Alloc) (f fn : Mat) (ii jStart : Nat → Nat) (n m np : Nat)
    (ha : a.ok = true) (h : SimpleCSR ii jStart n m) (hn : n ≤ 2 ^ 31) (hm : m < 2 ^ 31)
    (hzero : ∀ r c, f r c = 0) (i : Nat) (hi : i < n) :
    (compute a f fn ii jStart n m np).fn 2 i =
      (compute a f fn ii jStart n m np).f 2 i - 2 * (compute a f fn ii jStart n m np).f 4 i ∧
    (compute a f fn ii jStart n m np).fn 2 i = (inducedPathEnds ii jStart n i : ℚ) ∧
    0 ≤ (compute a f fn ii jStart n m np).fn 2 i := by
  have hnet := (compute_fn_two_three a f fn ii jStart n m np ha i hi).1
  have hval : (compute a f fn ii jStart n m np).fn 2 i =
      (inducedPathEnds ii jStart n i : ℚ) := by
    rw [hnet, compute_f_ok a f fn ii jStart n m np ha, (raw_simple_values h f hi).2.1,
      raw_simple_f4 h hn hm f hi, hzero, hzero, h.walksFrom_split hi]
    push_cast
    ring
  refine ⟨hnet, hval, ?_⟩
  rw [hval]
  exact Nat.cast_nonneg _

theorem compute_fn2_induced_witness :
    allocOk.ok = true ∧ SimpleCSR pathCols pathStart 3 4 ∧ 3 ≤ 2 ^ 31 ∧ 4 < 2 ^ 31 ∧
    (∀ r c, zeroMat r c = 0) ∧
    (compute allocOk zeroMat zeroMat pathCols pathStart 3 4 1).fn 2 0 = 1 := by
  refine ⟨by decide, path_simple, by norm_num, by norm_num, fun _ _ => rfl, ?_⟩
  rw [(compute_fn2_induced allocOk zeroMat zeroMat pathCols pathStart 3 4 1 (by decide)
    path_simple (by norm_num) (by norm_num) (fun _ _ => rfl) 0 (by decide)).2.1]
  have hw : inducedPathEnds pathCols pathStart 3 0 = 1 := by decide
  rw [hw]
  norm_num

/-- A failing loop whose body succeeds and keeps an invariant computes the
result of the plain loop. -/
theorem foldlM_of_inv {σ α : Type} (body : α → σ → Option σ) (g : α → σ → σ)
    (Inv : σ → Prop) (L : List α)
    (hstep : ∀ x, x ∈ L → ∀ s, Inv s → body x s = some (g x s) ∧ Inv (g x s))
    (s : σ) (hs : Inv s) :
    L.foldlM (fun s x => body x s) s = some (L.foldl (fun s x => g x s) s) ∧
      Inv (L.foldl (fun s x => g x s) s) := by
  induction L generalizing s with
  | nil => exact ⟨rfl, hs⟩
  | cons x L ih =>
    obtain ⟨h1, h2⟩ := hstep x (List.mem_cons_self _ _) s hs
    rw [List.foldlM_cons, h1, List.foldl_cons]
    exact ih (fun y hy => hstep y (List.mem_cons_of_mem _ hy)) (g x s) h2

/-- At most `n - 1` columns are ever listed in `pos`. -/
theorem ScanBound.cnt_le {n i : Nat} {s : P2State} (h : ScanBound n i s) (hi : i < n) :
    s.cnt ≤ n - 1 := by
  obtain ⟨seen, ht, hb⟩ := h
  have := ht.cnt_lt hi (fun hc => hb i hc rfl)
  omega

theorem ScanBound.touch {n i : Nat} (hn : n ≤ 2 ^ 31) {s : P2State} (h : ScanBound n i s)
    {j : Nat} (hj : j < n) : ScanBound n i (touch i j s) := by
  by_cases hij : j = i
  · subst hij
    rw [touch_self]
    exact h
  · obtain ⟨seen, ht, hb⟩ := h
    refine ⟨seen ++ [j], (touch_touched hn ht hij hj).1, fun k hk => ?_⟩
    rcases List.mem_append.mp hk with h1 | h1
    · exact hb k h1
    · rw [List.mem_singleton.mp h1]
      exact hij

theorem touch_cnt (i j : Nat) (s : P2State) (hij : ¬ i = j) (hu : s.isUsed j = 0) :
    (touch i j s).cnt = s.cnt + 1 := by
  simp [touch, hij, hu]

/-- The checked body of the inner loop succeeds on a column `j < n`. -/
theorem touch_checked {n i : Nat} (hn : n ≤ 2 ^ 31) {s : P2State} (h : ScanBound n i s)
    (hi : i < n) {j : Nat} (hj : j < n) :
    (if i = j then some s
      else if j < n then
        if s.isUsed j = 0 then
          if s.cnt < n then
            some { ({ s with fl := setAt s.fl j 0, isUsed := setAt s.isUsed j 1,
                             pos := setAt s.pos s.cnt (toInt32 j),
                             cnt := s.cnt + 1 } : P2State) with
                   fl := setAt (setAt s.fl j 0) j (setAt s.fl j 0 j + 1) }
          else none
        else some { s with fl := setAt s.fl j (s.fl j + 1) }
      else none) = some (touch i j s) := by
  by_cases hij : i = j
  · simp [touch, hij]
  · by_cases hu : s.isUsed j = 0
    · have hc := (h.touch hn hj).cnt_le hi
      rw [touch_cnt i j s hij hu] at hc
      have hlt : s.cnt < n := by omega
      simp [touch, hij, hj, hu, hlt]
    · simp [touch, hij, hj, hu]

theorem ScanBound.mark {n i : Nat} {s : P2State} (h : ScanBound n i s) (k : Nat) (v : Int) :
    ScanBound n i { s with isNgbh := setAt s.isNgbh k v } := by
  obtain ⟨seen, ht, hb⟩ := h
  exact ⟨seen, ht.withMark k v, hb⟩

/-- The checked first loop nest succeeds and computes `p2_scan`. -/
theorem p2_scan_checked_eq {ii jStart : Nat → Nat} {n : Nat} (hn : n ≤ 2 ^ 31) {i : Nat}
    (hc : ColsBelow ii jStart n i) (hi : i < n) (s : P2State) (hs : ScanBound n i s) :
    p2_scan_checked n i jStart ii s = some (p2_scan i jStart ii s) ∧
      ScanBound n i (p2_scan i jStart ii s) := by
  rw [p2_scan_eq]
  unfold p2_scan_checked forRangeM
  apply foldlM_of_inv _ (fun id_i s => scanStep i jStart ii s id_i) (ScanBound n i)
    (List.range' (jStart i) (jStart (i + 1) - jStart i)) _ s hs
  intro p hp t ht
  obtain ⟨hk, hq⟩ := hc p hp
  simp only [hk, if_true]
  have hinner := foldlM_of_inv
    (fun id_k (s : P2State) =>
      if i = ii id_k then some s
      else if ii id_k < n then
        if s.isUsed (ii id_k) = 0 then
          if s.cnt < n then
            some { ({ s with fl := setAt s.fl (ii id_k) 0,
                             isUsed := setAt s.isUsed (ii id_k) 1,
                             pos := setAt s.pos s.cnt (toInt32 (ii id_k)),
                             cnt := s.cnt + 1 } : P2State) with
                   fl := setAt (setAt s.fl (ii id_k) 0) (ii id_k)
                     (setAt s.fl (ii id_k) 0 (ii id_k) + 1) }
          else none
        else some { s with fl := setAt s.fl (ii id_k) (s.fl (ii id_k) + 1) }
      else none)
    (fun id_k s => touch i (ii id_k) s) (ScanBound n i)
    (List.range' (jStart (ii p)) (jStart (ii p + 1) - jStart (ii p)))
    (fun q hq' u hu => ⟨touch_checked hn hu hi (hq q hq'), hu.touch hn (hq q hq')⟩)
    { t with isNgbh := setAt t.isNgbh (ii p) (toInt32 (p + 1)) } (ht.mark _ _)
  have hstep : scanStep i jStart ii t p =
      (List.range' (jStart (ii p)) (jStart (ii p + 1) - jStart (ii p))).foldl
        (fun s id_k => touch i (ii id_k) s)
        { t with isNgbh := setAt t.isNgbh (ii p) (toInt32 (p + 1)) } := by
    unfold scanStep nbrPos
    rw [List.foldl_map]
  rw [hstep]
  exact hinner

/-- The checked reduction loop succeeds and computes `p2_reduce` when the
columns read back from `pos` are below `n` and every mark of such a column
points into the range of `i`. -/
theorem p2_reduce_checked_eq (n i : Nat) (jStart : Nat → Nat) (S : P2State)
    (hcnt : S.cnt ≤ n) (hpos : ∀ l, l < S.cnt → toIndex (S.pos l) < n)
    (hmark : ∀ j, j < n → S.isNgbh j ≠ 0 →
      (jStart i : Int) ≤ S.isNgbh j - 1 ∧ S.isNgbh j - 1 < (jStart (i + 1) : Int)) :
    p2_reduce_checked n i jStart S = some (p2_reduce S) ∧ (p2_reduce S).cnt = S.cnt := by
  have key := foldlM_of_inv
    (fun l (s : P2State) =>
      if l < n then
        if toIndex (s.pos l) < n then
          if s.isNgbh (toIndex (s.pos l)) ≠ 0 then
            if (jStart i : Int) ≤ s.isNgbh (toIndex (s.pos l)) - 1 ∧
                s.isNgbh (toIndex (s.pos l)) - 1 < (jStart (i + 1) : Int) then
              some { ({ s with c3 := setAt s.c3 (s.isNgbh (toIndex (s.pos l)) - 1)
                                 (s.fl (toIndex (s.pos l))),
                               f4 := s.f4 + s.fl (toIndex (s.pos l)) } : P2State) with
                     isUsed := setAt s.isUsed (toIndex (s.pos l)) 0 }
            else none
          else some { s with isUsed := setAt s.isUsed (toIndex (s.pos l)) 0 }
        else none
      else none)
    (fun l s => reduceStep (toIndex (s.pos l)) s)
    (fun t => t.pos = S.pos ∧ t.isNgbh = S.isNgbh ∧ t.cnt = S.cnt)
    (List.range' 0 (S.cnt - 0))
    (fun l hl t ht => by
      have hl' : l < S.cnt := by
        have := (List.mem_range'_1.mp hl).2
        omega
      obtain ⟨hp, hN, hc⟩ := ht
      have hln : l < n := lt_of_lt_of_le hl' hcnt
      have hj : toIndex (t.pos l) < n := by rw [hp]; exact hpos l hl'
      obtain ⟨g1, -, g3, g4⟩ := reduceStep_frame (toIndex (t.pos l)) t
      refine ⟨?_, g1.trans hp, g3.trans hN, g4.trans hc⟩
      by_cases hm : t.isNgbh (toIndex (t.pos l)) ≠ 0
      · have hr := hmark (toIndex (t.pos l)) hj (by rw [← hN]; exact hm)
        rw [← hN] at hr
        simp [reduceStep, hln, hj, hm, hr]
      · simp [reduceStep, hln, hj, hm])
    S ⟨rfl, rfl, rfl⟩
  exact ⟨key.1, key.2.2.2⟩

/-- On flags that are zero below `n`, for a vertex that fits the scratch
arrays, every checked access of `p2` succeeds. -/
theorem p2_checked_eq {ii jStart : Nat → Nat} {n : Nat} (hn31 : n ≤ 2 ^ 31) {i : Nat}
    (hf : Fits ii jStart n i) (hi : i < n)
    (f4 : ℚ) (c3 : Int → ℚ) (fl : Nat → ℚ) (pos isNgbh : Nat → Int) (isUsed : Nat → Nat)
    (hu : ∀ j, j < n → isUsed j = 0) (hn : ∀ j, j < n → isNgbh j = 0) :
    p2_checked n f4 c3 i jStart ii fl pos isNgbh isUsed =
      some (p2 f4 c3 i jStart ii fl pos isNgbh isUsed) ∧
    (p2 f4 c3 i jStart ii fl pos isNgbh isUsed).cnt ≤ n - 1 := by
  have h0 : ScanBound n i (⟨f4, c3, fl, pos, isNgbh, isUsed, 0⟩ : P2State) :=
    ⟨[], touched_nil _ hu rfl, fun j hj => absurd hj (List.not_mem_nil j)⟩
  obtain ⟨hscan, hb⟩ := p2_scan_checked_eq hn31 hf.cols hi _ h0
  have hcnt := hb.cnt_le hi
  obtain ⟨hN, -, -⟩ := scan_frame f4 c3 fl pos isNgbh isUsed i jStart ii
  have hpos : ∀ l, l < (p2_scan i jStart ii ⟨f4, c3, fl, pos, isNgbh, isUsed, 0⟩).cnt →
      toIndex ((p2_scan i jStart ii ⟨f4, c3, fl, pos, isNgbh, isUsed, 0⟩).pos l) < n := by
    intro l hl
    obtain ⟨seen, ht, -⟩ := hb
    have hmem : toIndex ((p2_scan i jStart ii ⟨f4, c3, fl, pos, isNgbh, isUsed, 0⟩).pos l) ∈
        visited (p2_scan i jStart ii ⟨f4, c3, fl, pos, isNgbh, isUsed, 0⟩) :=
      List.mem_map.mpr ⟨l, List.mem_range.mpr hl, rfl⟩
    exact ht.small _ ((ht.mem _).mp hmem)
  have hmark : ∀ j, j < n →
      (p2_scan i jStart ii ⟨f4, c3, fl, pos, isNgbh, isUsed, 0⟩).isNgbh j ≠ 0 →
      (jStart i : Int) ≤
        (p2_scan i jStart ii ⟨f4, c3, fl, pos, isNgbh, isUsed, 0⟩).isNgbh j - 1 ∧
      (p2_scan i jStart ii ⟨f4, c3, fl, pos, isNgbh, isUsed, 0⟩).isNgbh j - 1 <
        (jStart (i + 1) : Int) := by
    intro j hjn hj
    rw [hN] at hj ⊢
    obtain ⟨p, hp, -, hNp⟩ := mark_pos hf.marks isNgbh j (hn j hjn) hj
    rw [hNp]
    have := mem_nbrPos.mp hp
    constructor
    · exact_mod_cast this.1
    · exact_mod_cast this.2
  obtain ⟨hred, hc⟩ := p2_reduce_checked_eq n i jStart _ (by omega) hpos hmark
  constructor
  · unfold p2_checked
    rw [hscan, Option.some_bind, hred, Option.some_bind]
    rfl
  · rw [p2_eq]
    show (p2_reduce _).cnt ≤ n - 1
    rw [hc]
    exact hcnt

theorem edge_mono : MonoOffsets edgeStart edgeN := by
  intro i _
  simp only [edgeStart]
  split_ifs <;> first | omega | contradiction

theorem edge_cols : ∀ p, p < 2 → edgeCols p < edgeN := by
  intro p hp
  interval_cases p <;> decide

/-- C17 as stated fails: for the input with the adjacency entries `0 → 1`
and `1 → 2^31` on `2^31 + 1` vertices (row offsets non-decreasing, ending at
`m = 2`, column indices below `n`), the scan of vertex `0` on zero-filled
scratch arrays stores the column `2^31` into the `int` array `pos` as
`-2^31` and reads it back as the index `2^64 - 2^31`, outside the arrays. -/
theorem p2_out_of_bounds :
    MonoOffsets edgeStart edgeN ∧ edgeStart edgeN = 2 ∧ (∀ p, p < 2 → edgeCols p < edgeN) ∧
    0 < edgeN ∧
    toIndex (toInt32 (edgeCols 1)) = 2 ^ 64 - 2 ^ 31 ∧
    p2_checked edgeN 0 (fun _ => 0) 0 edgeStart edgeCols (fun _ => 0) (fun _ => 0)
      (fun _ => 0) (fun _ => 0) = none :=
  ⟨edge_mono, by decide, edge_cols, by decide, by decide!,
    Option.isNone_iff_eq_none.mp (by decide!)⟩

/-- C17, amended: for non-decreasing row offsets ending at `m < 2^31`,
column indices below `n ≤ 2^31` and a scratch partition whose `n` cells of
`isUsed` and `isNgbh` are zero on entry, the scan `p2` of a vertex `i < n`
passes every bounds check: `fl`, `isUsed`, `isNgbh` and `pos` are accessed
at indices below `n` only, `c3` is written inside the adjacency range of `i`
only, and at most `n - 1` entries are appended to `pos`. -/
theorem p2_in_bounds (ii jStart : Nat → Nat) (n m : Nat) (hmono : MonoOffsets jStart n)
    (hstop : jStart n = m) (hcols : ∀ p, p < m → ii p < n)
    (hn31 : n ≤ 2 ^ 31) (hm : m < 2 ^ 31) (i : Nat) (hi : i < n)
    (f4 : ℚ) (c3 : Int → ℚ) (fl : Nat → ℚ) (pos isNgbh : Nat → Int) (isUsed : Nat → Nat)
    (hu : ∀ j, j < n → isUsed j = 0) (hn : ∀ j, j < n → isNgbh j = 0) :
    p2_checked n f4 c3 i jStart ii fl pos isNgbh isUsed =
      some (p2 f4 c3 i jStart ii fl pos isNgbh isUsed) ∧
    (p2 f4 c3 i jStart ii fl pos isNgbh isUsed).cnt ≤ n - 1 :=
  p2_checked_eq hn31
    (fits_of hmono (fun p hp => hcols p (hstop ▸ hp)) hstop hm hi) hi
    f4 c3 fl pos isNgbh isUsed hu hn

theorem p2_in_bounds_witness :
    MonoOffsets triangleStart 3 ∧ triangleStart 3 = 6 ∧ (∀ p, p < 6 → triangleCols p < 3) ∧
    3 ≤ 2 ^ 31 ∧ 6 < 2 ^ 31 ∧
    p2_checked 3 0 (fun _ => 0) 0 triangleStart triangleCols (fun _ => 0) (fun _ => 0)
      (fun _ => 0) (fun _ => 0) =
      some (p2 0 (fun _ => 0) 0 triangleStart triangleCols (fun _ => 0) (fun _ => 0)
        (fun _ => 0) (fun _ => 0)) ∧
    (p2 0 (fun _ => 0) 0 triangleStart triangleCols (fun _ => 0) (fun _ => 0)
        (fun _ => 0) (fun _ => 0)).cnt ≤ 3 - 1 :=
  ⟨by decide, by decide, by decide, by norm_num, by norm_num,
    p2_in_bounds triangleCols triangleStart 3 6 (by decide) (by decide) (by decide)
      (by norm_num) (by norm_num) 0
      (by decide) 0 (fun _ => 0) (fun _ => 0) (fun _ => 0) (fun _ => 0) (fun _ => 0)
      (fun _ _ => rfl) (fun _ _ => rfl)⟩

/-! ## The loop body on the scratch partition of a worker -/

theorem view_zero {α : Type} (a : Nat → α) : view a 0 = a := by
  funext j
  simp [view]

theorem store_zero {α : Type} (a v : Nat → α) : store a 0 v = v := by
  funext x
  simp [store]

/-- For the worker number `0` the loop body is `firstPassStep`. -/
theorem workerStep_zero (ii jStart : Nat → Nat) (n i : Nat) (s : PassState) :
    workerStep ii jStart n 0 i s = firstPassStep ii jStart i s := by
  unfold workerStep firstPassStep
  simp only [Nat.zero_mul, view_zero, store_zero]

theorem remove_neighbors_checked_eq (n : Nat) (a : Nat → Int) (i : Nat)
    (ii jStart : Nat → Nat) (h : ∀ p, p ∈ nbrPos jStart i → ii p < n) :
    remove_neighbors_checked n a i ii jStart = some (remove_neighbors a i ii jStart) := by
  unfold remove_neighbors_checked remove_neighbors forRangeM forRange
  apply (foldlM_of_inv (fun id_i (t : Nat → Int) =>
      if ii id_i < n then some (setAt t (ii id_i) 0) else none)
    (fun id_i t => setAt t (ii id_i) 0) (fun _ => True)
    (List.range' (jStart i) (jStart (i + 1) - jStart i)) _ a trivial).1
  intro p hp t _
  have hk : ii p < n := h p hp
  simp [hk]

theorem partition_disjoint (n ip ip' x : Nat) (hne : ip' ≠ ip) (h1 : ip * n ≤ x)
    (h2 : x < (ip + 1) * n) : ¬ (ip' * n ≤ x ∧ x < (ip' + 1) * n) := by
  rintro ⟨h3, h4⟩
  rcases Nat.lt_or_gt_of_ne hne with hlt | hgt
  · have := Nat.mul_le_mul_right n (show ip' + 1 ≤ ip from hlt)
    omega
  · have := Nat.mul_le_mul_right n (show ip + 1 ≤ ip' from hgt)
    omega

/-- C20 as stated fails: for the input with the adjacency entries `0 → 1`
and `1 → 2^31` on `n = 2^31 + 1` vertices, the iteration of vertex `0` run by
worker `1` on zero-filled arrays leaves its partition `[n, 2n)`: the column
`2^31` comes back from the `int` array `pos` as the index `2^64 - 2^31`. -/
theorem worker_leaves_partition :
    MonoOffsets edgeStart edgeN ∧ edgeStart edgeN = 2 ∧ (∀ p, p < 2 → edgeCols p < edgeN) ∧
    0 < edgeN ∧
    (∀ j, j < edgeN → (freshState zeroMat).isUsed (1 * edgeN + j) = 0 ∧
      (freshState zeroMat).isNgbh (1 * edgeN + j) = 0) ∧
    workerStep_checked edgeCols edgeStart edgeN 1 0 (freshState zeroMat) = none :=
  ⟨edge_mono, by decide, edge_cols, by decide, fun _ _ => ⟨rfl, rfl⟩,
    Option.isNone_iff_eq_none.mp (by decide!)⟩

/-- C20, amended: for non-decreasing row offsets ending at `m < 2^31` and
column indices below `n ≤ 2^31`, the iteration of a vertex `i < n` run by the
worker `ip` on a partition `[ip*n, (ip+1)*n)` whose flags `isUsed` and
`isNgbh` are zero passes every check: it accesses the scratch arrays inside
the partition only and leaves every scratch cell outside it unchanged, it
writes only column `i` of the raw matrix and only the `c3` positions of the
adjacency range of `i`, and it leaves the flags of the partition zero again.
Partitions of distinct workers are disjoint, and so are the adjacency ranges
of distinct vertices. -/
theorem worker_footprint (ii jStart : Nat → Nat) (n m : Nat) (hmono : MonoOffsets jStart n)
    (hstop : jStart n = m) (hcols : ∀ p, p < m → ii p < n)
    (hn31 : n ≤ 2 ^ 31) (hm : m < 2 ^ 31) (ip i : Nat) (hi : i < n) (s : PassState)
    (hclean : ∀ j, j < n → s.isUsed (ip * n + j) = 0 ∧ s.isNgbh (ip * n + j) = 0) :
    workerStep_checked ii jStart n ip i s = some (workerStep ii jStart n ip i s) ∧
    (∀ x, ¬ (ip * n ≤ x ∧ x < (ip + 1) * n) →
      (workerStep ii jStart n ip i s).fl x = s.fl x ∧
      (workerStep ii jStart n ip i s).pos x = s.pos x ∧
      (workerStep ii jStart n ip i s).isNgbh x = s.isNgbh x ∧
      (workerStep ii jStart n ip i s).isUsed x = s.isUsed x) ∧
    (∀ r c, c ≠ i → (workerStep ii jStart n ip i s).f r c = s.f r c) ∧
    (∀ q : Int, ¬ ((jStart i : Int) ≤ q ∧ q < (jStart (i + 1) : Int)) →
      (workerStep ii jStart n ip i s).c3 q = s.c3 q) ∧
    (∀ j, j < n → (workerStep ii jStart n ip i s).isUsed (ip * n + j) = 0 ∧
      (workerStep ii jStart n ip i s).isNgbh (ip * n + j) = 0) ∧
    (∀ ip' x, ip' ≠ ip → ip * n ≤ x → x < (ip + 1) * n →
      ¬ (ip' * n ≤ x ∧ x < (ip' + 1) * n)) ∧
    (∀ i', i' < n → i' ≠ i → ∀ p, p ∈ nbrPos jStart i → p ∉ nbrPos jStart i') := by
  have hcols' : ColsInRange ii jStart n := fun p hp => hcols p (hstop ▸ hp)
  have hf : Fits ii jStart n i := fits_of hmono hcols' hstop hm hi
  have hu : ∀ j, j < n → view s.isUsed (ip * n) j = 0 := fun j hj => (hclean j hj).1
  have hN : ∀ j, j < n → view s.isNgbh (ip * n) j = 0 := fun j hj => (hclean j hj).2
  have hchk := p2_checked_eq hn31 hf hi (s.f 4 i) s.c3 (view s.fl (ip * n))
    (view s.pos (ip * n)) (view s.isNgbh (ip * n)) (view s.isUsed (ip * n)) hu hN
  have habove := p2_above hn31 (s.f 4 i) s.c3 (view s.fl (ip * n))
    (view s.pos (ip * n)) (view s.isNgbh (ip * n)) (view s.isUsed (ip * n)) i jStart ii hu
    hf.cols
  have hsucc : (ip + 1) * n = ip * n + n := Nat.succ_mul ip n
  refine ⟨?_, ?_, ?_, ?_, ?_, fun ip' x hne h1 h2 => partition_disjoint n ip ip' x hne h1 h2,
    fun i' hi' hne p hp => nbrPos_disjoint hmono hi' hi hne hp⟩
  · unfold workerStep_checked
    rw [hchk.1, Option.some_bind,
      remove_neighbors_checked_eq n _ i ii jStart (fun p hp => (hf.cols p hp).1),
      Option.some_bind]
    rfl
  · intro x hx
    rw [hsucc] at hx
    by_cases hlo : ip * n ≤ x
    · have hge : n ≤ x - ip * n := by omega
      have hback : ip * n + (x - ip * n) = x := by omega
      obtain ⟨a1, a2, a3, a4⟩ := habove (x - ip * n) hge
      refine ⟨?_, ?_, ?_, ?_⟩
      · show store s.fl (ip * n) _ x = s.fl x
        unfold store
        rw [if_pos hlo, a1]
        show s.fl (ip * n + (x - ip * n)) = s.fl x
        rw [hback]
      · show store s.pos (ip * n) _ x = s.pos x
        unfold store
        rw [if_pos hlo, a3]
        show s.pos (ip * n + (x - ip * n)) = s.pos x
        rw [hback]
      · show store s.isNgbh (ip * n) (remove_neighbors _ i ii jStart) x = s.isNgbh x
        unfold store
        rw [if_pos hlo, remove_neighbors_apply, if_neg, a4]
        · show s.isNgbh (ip * n + (x - ip * n)) = s.isNgbh x
          rw [hback]
        · intro hmem
          obtain ⟨p, hp, hpe⟩ := List.mem_map.mp hmem
          have := (hf.cols p hp).1
          omega
      · show store s.isUsed (ip * n) _ x = s.isUsed x
        unfold store
        rw [if_pos hlo, a2]
        show s.isUsed (ip * n + (x - ip * n)) = s.isUsed x
        rw [hback]
    · refine ⟨?_, ?_, ?_, ?_⟩
      · show store s.fl (ip * n) _ x = s.fl x
        unfold store
        rw [if_neg hlo]
      · show store s.pos (ip * n) _ x = s.pos x
        unfold store
        rw [if_neg hlo]
      · show store s.isNgbh (ip * n) _ x = s.isNgbh x
        unfold store
        rw [if_neg hlo]
      · show store s.isUsed (ip * n) _ x = s.isUsed x
        unfold store
        rw [if_neg hlo]
  · intro r c hc
    simp [workerStep, compute_all_available, hc]
  · intro q hq
    show (p2 (s.f 4 i) s.c3 i jStart ii (view s.fl (ip * n)) (view s.pos (ip * n))
      (view s.isNgbh (ip * n)) (view s.isUsed (ip * n))).c3 q = s.c3 q
    apply p2_c3_other hn31 _ _ _ _ _ _ _ _ _ hu hf.cols
    intro j hjw hm he
    obtain ⟨p, hp, -, hNp⟩ := mark_pos hf.marks (view s.isNgbh (ip * n)) j
      (hN j (mem_walkEnds_lt hf.cols hjw)) hm
    rw [hNp] at he
    have := mem_nbrPos.mp hp
    apply hq
    rw [← he]
    constructor
    · exact_mod_cast this.1
    · exact_mod_cast this.2
  · intro j hj
    have hle : ip * n ≤ ip * n + j := Nat.le_add_right _ _
    constructor
    · show store s.isUsed (ip * n) _ (ip * n + j) = 0
      unfold store
      rw [if_pos hle, Nat.add_sub_cancel_left]
      exact p2_isUsed hn31 _ _ _ _ _ _ _ _ _ hu hf.cols j hj
    · show store s.isNgbh (ip * n) (remove_neighbors _ i ii jStart) (ip * n + j) = 0
      unfold store
      rw [if_pos hle, Nat.add_sub_cancel_left, remove_neighbors_apply]
      by_cases hjm : j ∈ (nbrPos jStart i).map ii
      · rw [if_pos hjm]
      · rw [if_neg hjm, p2_isNgbh, markAll_notin _ _ _ _ hjm]
        exact hN j hj

theorem worker_footprint_witness :
    MonoOffsets triangleStart 3 ∧ triangleStart 3 = 6 ∧ (∀ p, p < 6 → triangleCols p < 3) ∧
    3 ≤ 2 ^ 31 ∧ 6 < 2 ^ 31 ∧ (1 : Nat) < 3 ∧
    (∀ j, j < 3 → (freshState zeroMat).isUsed (2 * 3 + j) = 0 ∧
      (freshState zeroMat).isNgbh (2 * 3 + j) = 0) ∧
    workerStep_checked triangleCols triangleStart 3 2 1 (freshState zeroMat) =
      some (workerStep triangleCols triangleStart 3 2 1 (freshState zeroMat)) :=
  ⟨by decide, by decide, by decide, by norm_num, by norm_num, by decide,
    fun _ _ => ⟨rfl, rfl⟩,
    (worker_footprint triangleCols triangleStart 3 6 (by decide) (by decide) (by decide)
      (by norm_num) (by norm_num) 2 1 (by decide) (freshState zeroMat)
      (fun _ _ => ⟨rfl, rfl⟩)).1⟩

end FGLT
